import Mathlib

/-!
Verification of the Aho-Corasick based Chinese NER pipeline (src/CNER.py).

The Python automaton is a graph of nested dicts: a node is a dict mapping
single-character keys to child dicts, the end-of-word key "#" to the string
"#", and the key "fail" to another node.  We embed it as an arena: nodes are
natural-number indices (root = 0), each node carries an insertion-ordered
association list for its character keys (Python dicts iterate in insertion
order and look up by key), and the "fail" key is a separate `Option Nat`
field (its 4-character key can never collide with 1-character edge keys).
Node identity comparison (`node != self.root`) is index comparison: a strict
descendant dict can never structurally equal the whole root dict, and after
compilation non-root nodes carry a "fail" key while the root does not.

Python exceptions (e.g. calling `.setdefault` or `.get` on the string "#",
which happens when a pattern or the searched text contains the reserved
character '#') are modelled by `Option`: `none` is a raised exception.
While-loops are modelled with an explicit fuel argument (`a.size` steps);
on every state the Python program actually reaches, the loops stop well
before the fuel runs out.
-/

namespace CNER

/-- A value stored under a character key of a node dict: either a child node
(a nested dict, referenced by arena index) or the end-of-word marker string
"#". -/
inductive Val : Type where
  | node (idx : Nat) : Val
  | endmark : Val
deriving DecidableEq, Repr

/-- The `ACAutomaton` arena: `size` is the number of allocated nodes (root is
index 0), `entries n` is node `n`'s dict as an insertion-ordered association
list of character keys, and `fail n` models the presence/absence of the
"fail" key (`node.get('fail', self.root)` reads it with default root). -/
structure ACAutomaton : Type where
  size : Nat
  entries : Nat → List (Char × Val)
  fail : Nat → Option Nat

/-- `ACAutomaton.__init__`: a single empty root dict. -/
def emptyAC : ACAutomaton :=
  { size := 1, entries := fun _ => [], fail := fun _ => none }

/-- Key lookup `node[c]` / `c in node` on the character keys of node `n`. -/
def lookupChild (a : ACAutomaton) (n : Nat) (c : Char) : Option Val :=
  (List.find? (fun p => p.1 == c) (a.entries n)).map Prod.snd

/-- `node.get('fail', self.root)`. -/
def effFail (a : ACAutomaton) (n : Nat) : Nat :=
  (a.fail n).getD 0

/-- Python dict assignment `d[c] = v`: replace the value in place if the key
is present (Python keeps the key's insertion position), else append. -/
def assocAssign (c : Char) (v : Val) : List (Char × Val) → List (Char × Val)
  | [] => [(c, v)]
  | (c', v') :: rest =>
    if c' == c then (c, v) :: rest else (c', v') :: assocAssign c v rest

/-- The walk of `add_word`: `node = node.setdefault(char, {})` for each
character.  Missing keys allocate a fresh node (appended at the end of the
dict, as `setdefault` does); reaching the end-of-word string "#" mid-word is
a Python `AttributeError` (`none`). -/
def addWordGo (a : ACAutomaton) (n : Nat) : List Char → Option (ACAutomaton × Nat)
  | [] => some (a, n)
  | c :: cs =>
    match lookupChild a n c with
    | some (Val.node j) => addWordGo a j cs
    | some Val.endmark => none
    | none =>
      addWordGo
        { size := a.size + 1
          entries := Function.update a.entries n (a.entries n ++ [(c, Val.node a.size)])
          fail := a.fail }
        a.size cs

/-- `ACAutomaton.add_word`: walk/create one child per character, then
`node[self.end_of_word] = self.end_of_word`. -/
def add_word (a : ACAutomaton) (w : List Char) : Option ACAutomaton :=
  (addWordGo a 0 w).map fun p =>
    { p.1 with
      entries :=
        Function.update p.1.entries p.2
          (assocAssign '#' Val.endmark (p.1.entries p.2)) }

/-- Set the "fail" key of node `n` (`node['fail'] = target`). -/
def setFail (a : ACAutomaton) (n : Nat) (v : Nat) : ACAutomaton :=
  { a with fail := Function.update a.fail n (some v) }

/-- The while-loop of `build_fail`:
`while fail_node != self.root and key not in fail_node: fail_node =
fail_node.get('fail', self.root)`. -/
def findFailFrom (a : ACAutomaton) (c : Char) : Nat → Nat → Nat
  | 0, f => f
  | fuel + 1, f =>
    if f = 0 then f
    else if (lookupChild a f c).isSome then f
    else findFailFrom a c fuel (effFail a f)

/-- After the walk: `child['fail'] = fail_node[key] if key in fail_node else
self.root`. -/
def resolveFail (a : ACAutomaton) (c : Char) (f : Nat) : Nat :=
  match lookupChild a (findFailFrom a c a.size f) c with
  | some (Val.node j) => j
  | _ => 0

/-- The body of `build_fail`'s BFS: iterate the popped node's dict in
insertion order, skipping the keys "#" and "fail", assigning each child's
fail pointer and collecting the children for the queue. -/
def processEntries (a : ACAutomaton) (cur : Nat) :
    List (Char × Val) → ACAutomaton × List Nat
  | [] => (a, [])
  | (c, v) :: rest =>
    if c == '#' then processEntries a cur rest
    else
      match v with
      | Val.endmark => processEntries a cur rest
      | Val.node child =>
        let a' := setFail a child (resolveFail a c (effFail a cur))
        let p := processEntries a' cur rest
        (p.1, child :: p.2)

/-- `while queue: current = queue.pop(0); ...` with explicit fuel. -/
def bfsRun (a : ACAutomaton) : Nat → List Nat → ACAutomaton
  | _, [] => a
  | 0, _ :: _ => a
  | fuel + 1, cur :: rest =>
    let p := processEntries a cur (a.entries cur)
    bfsRun p.1 fuel (rest ++ p.2)

/-- The seeding loop of `build_fail`: every non-"#" child of the root gets
fail = root and is enqueued, in dict insertion order. -/
def seedRoot (a : ACAutomaton) : List (Char × Val) → ACAutomaton × List Nat
  | [] => (a, [])
  | (c, v) :: rest =>
    if c == '#' then seedRoot a rest
    else
      match v with
      | Val.endmark => seedRoot a rest
      | Val.node j =>
        let p := seedRoot (setFail a j 0) rest
        (p.1, j :: p.2)

/-- `ACAutomaton.build_fail`. -/
def build_fail (a : ACAutomaton) : ACAutomaton :=
  let p := seedRoot a (a.entries 0)
  bfsRun p.1 p.1.size p.2

/-- `ACAutomaton._get_word_length`: count fail-pointer steps until reaching
the root or a node carrying the end-of-word key.  Note that at its only call
site the node already carries "#", so the loop body never runs. -/
def get_word_length (a : ACAutomaton) : Nat → Nat → Nat
  | 0, _ => 0
  | fuel + 1, n =>
    if n = 0 then 0
    else if (lookupChild a n '#').isSome then 0
    else get_word_length a fuel (effFail a n) + 1

/-- `text[s:e]` for `0 ≤ s ≤ e` (the only case reached: the code always
slices with `s = i + 1 - word_length` where the word length is nonnegative
and at most `i + 1`). -/
def sliceTxt (t : List Char) (s e : Nat) : List Char :=
  (t.drop s).take (e - s)

/-- A raw match `(start_pos, i + 1, text[start_pos:i+1])`. -/
abbrev RawMatch := Nat × Nat × List Char

/-- The match-emission loop of `search`: walk the fail chain from the
cursor, emitting a match at every node that carries the end-of-word key. -/
def collectAt (a : ACAutomaton) (t : List Char) (i : Nat) :
    Nat → Nat → List RawMatch → List RawMatch
  | 0, _, acc => acc
  | fuel + 1, n, acc =>
    if n = 0 then acc
    else
      let acc' :=
        if (lookupChild a n '#').isSome then
          let wl := get_word_length a a.size n
          let s := i + 1 - wl
          acc ++ [(s, i + 1, sliceTxt t s (i + 1))]
        else acc
      collectAt a t i fuel (effFail a n) acc'

/-- The cursor-adjustment loop of `search`: `while current != root and char
not in current: current = current.get('fail', root)`. -/
def stepDown (a : ACAutomaton) (c : Char) : Nat → Nat → Nat
  | 0, n => n
  | fuel + 1, n =>
    if n = 0 then n
    else if (lookupChild a n c).isSome then n
    else stepDown a c fuel (effFail a n)

/-- The main loop of `search` over the remaining text, tracking the position
`i` and the cursor.  Stepping onto the end-of-word string "#" (text contains
'#' at a terminal node) makes the subsequent `temp.get('fail', ...)` raise an
`AttributeError`: the call returns `none` and all results are lost. -/
def searchLoop (a : ACAutomaton) (t : List Char) :
    List Char → Nat → Nat → List RawMatch → Option (List RawMatch)
  | [], _, _, acc => some acc
  | c :: rest, i, cur, acc =>
    let cur1 := stepDown a c a.size cur
    match lookupChild a cur1 c with
    | none => searchLoop a t rest (i + 1) cur1 acc
    | some Val.endmark => none
    | some (Val.node j) =>
      searchLoop a t rest (i + 1) j (collectAt a t i a.size j acc)

/-- `ACAutomaton.search`. -/
def search (a : ACAutomaton) (t : List Char) : Option (List RawMatch) :=
  searchLoop a t t 0 0 []

/-- An entity dict `{'text': ..., 'start': ..., 'end': ..., 'type': ...}`.
The field `stop` models the Python key `'end'` (`end` is reserved in Lean). -/
structure Entity : Type where
  text : List Char
  start : Nat
  stop : Nat
  type : String
deriving DecidableEq, Repr

/-- Lookup in the `entity_type_mapping` dict. -/
def lookupMapS (m : List (List Char × String)) (k : List Char) : Option String :=
  (List.find? (fun p => p.1 == k) m).map Prod.snd

/-- Dict assignment `entity_type_mapping[text] = label` (replace in place or
append; last write wins for lookups). -/
def assignMapS (k : List Char) (v : String) :
    List (List Char × String) → List (List Char × String)
  | [] => [(k, v)]
  | (k', v') :: rest =>
    if k' == k then (k, v) :: rest else (k', v') :: assignMapS k v rest

/-- The signed length `x[1] - x[0]` of a raw match, as used by the Python
sort key `(x[0], -(x[1]-x[0]))`. -/
def mLen (x : RawMatch) : Int :=
  (x.2.1 : Int) - (x.1 : Int)

/-- `matchLe x y` holds when `x`'s sort key `(start, -(length))` is at most
`y`'s: start ascending, length descending. -/
def matchLe (x y : RawMatch) : Bool :=
  decide (x.1 < y.1) || (x.1 == y.1 && decide (mLen y ≤ mLen x))

/-- Insert one element into an already-sorted list, after all elements whose
key is less or equal (so equal keys keep their original relative order). -/
def insertSorted (x : RawMatch) : List RawMatch → List RawMatch
  | [] => [x]
  | y :: ys => if matchLe y x then y :: insertSorted x ys else x :: y :: ys

/-- `matches.sort(key=lambda x: (x[0], -(x[1]-x[0])))`: Python's sort is
stable, and a stable sort by a key is uniquely determined by the key order,
so this stable insertion sort computes the same list. -/
def sortMatches (l : List RawMatch) : List RawMatch :=
  l.foldl (fun acc x => insertSorted x acc) []

/-- The overlap-resolution loop of `recognize_entities`: accept a match when
`start >= last_end`, attaching the label
`entity_type_mapping.get(entity_text, "UNK")`; `last_end` starts at `-1`. -/
def resolveLoop (m : List (List Char × String)) :
    List RawMatch → Int → List Entity
  | [], _ => []
  | (s, e, txt) :: rest, lastEnd =>
    if lastEnd ≤ (s : Int) then
      { text := txt, start := s, stop := e,
        type := (lookupMapS m txt).getD "UNK" } ::
        resolveLoop m rest (e : Int)
    else resolveLoop m rest lastEnd

/-- `ChineseNER.recognize_entities`: search, stable-sort by
`(start, -length)`, then resolve overlaps left to right. -/
def recognize_entities (a : ACAutomaton) (m : List (List Char × String))
    (t : List Char) : Option (List Entity) :=
  (search a t).map fun ms => resolveLoop m (sortMatches ms) (-1)

/-- The inner tag-writing loop of `text_to_bio`:
`for i in range(start + 1, min(end, len(bio_tags))): bio_tags[i] = 'I-...'`,
modelled by its start index and iteration count. -/
def markInside (lab : String) : List String → Nat → Nat → List String
  | tg, _, 0 => tg
  | tg, i, k + 1 => markInside lab (tg.set i ("I-" ++ lab)) (i + 1) k

/-- Tagging one entity: the begin tag at `start` (when in range), then the
inside tags. -/
def markEntity (tags : List String) (e : Entity) : List String :=
  let tags1 :=
    if e.start < tags.length then tags.set e.start ("B-" ++ e.type) else tags
  markInside e.type tags1 (e.start + 1) (min e.stop tags.length - (e.start + 1))

/-- The `bio_tags` list of `text_to_bio`: all positions start as "O", then
each entity writes its tags. -/
def bioTags (t : List Char) (ents : List Entity) : List String :=
  ents.foldl markEntity (List.replicate t.length "O")

/-- `ChineseNER.text_to_bio`: the final list of `f"{token} {tag}"` lines. -/
def text_to_bio (t : List Char) (ents : List Entity) : List String :=
  List.zipWith (fun c tag => String.mk [c] ++ " " ++ tag) t (bioTags t ents)

/-- Fold `add_word` over a list of patterns (exceptions propagate). -/
def addWords (a : ACAutomaton) (ws : List (List Char)) : Option ACAutomaton :=
  ws.foldl (fun acc w => acc.bind fun x => add_word x w) (some a)

/-- `ChineseNER.build_ac_automaton` for an explicit (pattern, label) list:
add every pattern to the automaton and record its label (last write wins),
then build the fail pointers. -/
def build_ac_automaton (ps : List (List Char × String)) :
    Option (ACAutomaton × List (List Char × String)) :=
  (ps.foldl
      (fun acc p =>
        acc.bind fun st =>
          (add_word st.1 p.1).map fun a' => (a', assignMapS p.1 p.2 st.2))
      (some (emptyAC, []))).map
    fun st => (build_fail st.1, st.2)

/-- The whole per-text pipeline: build from a labeled pattern list, then
recognize entities in `t`.  `none` is an exception somewhere on the way. -/
def recognizeNER (ps : List (List Char × String)) (t : List Char) :
    Option (List Entity) :=
  (build_ac_automaton ps).bind fun st => recognize_entities st.1 st.2 t

/-- Follow character edges (child-dict values only) from node `n`. -/
def walkFrom (a : ACAutomaton) : Nat → List Char → Option Nat
  | n, [] => some n
  | n, c :: cs =>
    match lookupChild a n c with
    | some (Val.node j) => walkFrom a j cs
    | _ => none

/-- The node reached from the root along `cs`, when `cs` is a trie path. -/
def walkP (a : ACAutomaton) (cs : List Char) : Option Nat :=
  walkFrom a 0 cs

/-- `cs` is a path from the root. -/
def isPath (a : ACAutomaton) (cs : List Char) : Bool :=
  (walkP a cs).isSome

/-- The longest proper suffix of `cs` that is itself a path from the root
(the empty path always qualifies). -/
def lps (a : ACAutomaton) : List Char → List Char
  | [] => []
  | _ :: tl => if isPath a tl then tl else lps a tl

/-- The node of the longest proper path-suffix of `cs`. -/
def failIdx (a : ACAutomaton) (cs : List Char) : Nat :=
  (walkP a (lps a cs)).getD 0

/-- The failure-target clause of the compiled-automaton invariant claimed in
the specification: every non-root node's effective failure target (the
"fail" key, defaulting to the root) is the node of the longest proper suffix
of its root path that is itself a root path. -/
def FailTargetsLongestSuffix (a : ACAutomaton) : Prop :=
  ∀ cs n, walkP a cs = some n → cs ≠ [] →
    effFail (build_fail a) n = failIdx a cs

/-- Invariant of every automaton reachable through `add_word`: the
end-of-word marker string is only ever stored under the key '#'. -/
def EndmarkOnlyHash (a : ACAutomaton) : Prop :=
  ∀ n c, lookupChild a n c = some Val.endmark → c = '#'

/-- Well-formedness of the trie arena produced by `add_word` calls starting
from the empty automaton: the root exists, each dict has distinct keys,
children are freshly allocated (so child indices strictly exceed their
parent's and stay inside the arena), every node has at most one parent edge,
unallocated slots are empty, and no fail pointer is set yet. -/
structure TrieWF (a : ACAutomaton) : Prop where
  size_pos : 0 < a.size
  keys_nodup : ∀ n, ((a.entries n).map Prod.fst).Nodup
  child_gt : ∀ n c j, lookupChild a n c = some (Val.node j) → n < j ∧ j < a.size
  parent_unique : ∀ n1 c1 n2 c2 j, lookupChild a n1 c1 = some (Val.node j) →
    lookupChild a n2 c2 = some (Val.node j) → n1 = n2 ∧ c1 = c2
  out_empty : ∀ n, a.size ≤ n → a.entries n = []
  fail_unset : ∀ n, a.fail n = none

/-- No "#" key maps to a child dict.  This holds exactly when no inserted
pattern contains the reserved character '#'. -/
def NoHashEdge (a : ACAutomaton) : Prop :=
  ∀ n j, lookupChild a n '#' ≠ some (Val.node j)

/-- All failure pointers of nodes whose root path has length between 1 and
`d` are set to the node of the longest proper path-suffix of that path. -/
def FailsCorrectUpTo (a b : ACAutomaton) (d : Nat) : Prop :=
  ∀ cs n, walkP a cs = some n → cs ≠ [] → cs.length ≤ d →
    b.fail n = some (failIdx a cs)

/-- Specification of the fail-chain walk of `build_fail`: starting from the
node of path `s`, the walk returns the node `r` of the longest suffix of `s`
whose node has an outgoing `c` edge (the root, i.e. the empty suffix, if no
suffix does). -/
def WalkRes (a : ACAutomaton) (c : Char) (s : List Char) (r : Nat) : Prop :=
  ∃ k, k ≤ s.length ∧ walkP a (s.drop k) = some r ∧
    (∀ k', k' < k →
      ((walkP a (s.drop k')).bind fun m => lookupChild a m c) = none) ∧
    ((lookupChild a r c).isSome ∨ s.drop k = [])

/-- The number of arena slots whose "fail" key is still absent (used to
bound the BFS fuel). -/
def unsetCount (b : ACAutomaton) : Nat :=
  ((Finset.range b.size).filter fun n => b.fail n = none).card

/-- The invariant of `build_fail`'s breadth-first loop over the trie `a`:
the queue is a depth-`d` segment `q1` followed by a depth-`d+1` segment
`q2`; fail pointers are correct up to depth `d`; a depth-`d+1` node's fail
pointer is set (correctly, with the node enqueued in `q2`) exactly when its
parent has already been popped; deeper nodes are untouched. -/
structure BfsInv (a b : ACAutomaton) (d : Nat) (q1 q2 : List Nat) : Prop where
  entries_eq : b.entries = a.entries
  size_eq : b.size = a.size
  d_pos : 1 ≤ d
  upto : FailsCorrectUpTo a b d
  q1_nodup : q1.Nodup
  q2_nodup : q2.Nodup
  q1_paths : ∀ n ∈ q1, ∃ cs, walkP a cs = some n ∧ cs.length = d
  q2_paths : ∀ n ∈ q2, ∃ cs, walkP a cs = some n ∧ cs.length = d + 1
  frontier : ∀ cs p c n, walkP a cs = some p → cs.length = d →
    lookupChild a p c = some (Val.node n) →
    (p ∈ q1 ∧ b.fail n = none ∧ n ∉ q2) ∨
    (p ∉ q1 ∧ n ∈ q2 ∧ b.fail n = some (failIdx a (cs ++ [c])))
  deep_unset : ∀ cs n, walkP a cs = some n → d + 2 ≤ cs.length →
    b.fail n = none

/-- Invariant of every automaton reachable through `add_word`: no node has
the root as a child (children are always freshly allocated, and the arena
starts with the root already present). -/
def NoRootChild (a : ACAutomaton) : Prop :=
  ∀ n p, p ∈ a.entries n → ∀ j, p.2 = Val.node j → j ≠ 0

/-- The non-"#" pairs of a node dict, in order. -/
def filterNH (l : List (Char × Val)) : List (Char × Val) :=
  l.filter fun p => !(p.1 == '#')

/-- Two automata that agree everywhere except possibly on the value stored
under the root's "#" key: same size, same fail pointers, identical non-root
nodes, and the same non-"#" pairs of the root in the same order.  This is
exactly how `add_word("")` changes an automaton. -/
def SameButRootHash (x y : ACAutomaton) : Prop :=
  x.size = y.size ∧ (∀ n, x.fail n = y.fail n) ∧
  (∀ n, n ≠ 0 → x.entries n = y.entries n) ∧
  filterNH (x.entries 0) = filterNH (y.entries 0)

/-- The (uncompiled) trie over the single pattern "A". -/
def acA : ACAutomaton :=
  (addWords emptyAC [['A']]).getD emptyAC

/-- The (uncompiled) trie over the patterns "A" and "#A": the second pattern
contains the reserved end-of-word character. -/
def acHashA : ACAutomaton :=
  (addWords emptyAC [['A'], ['#', 'A']]).getD emptyAC

/-- The (uncompiled) trie over the single pattern "A#B". -/
def acAHashB : ACAutomaton :=
  (addWords emptyAC [['A', '#', 'B']]).getD emptyAC

/-- The (uncompiled) trie over the patterns "AB" and "B". -/
def acABB : ACAutomaton :=
  (addWords emptyAC [['A', 'B'], ['B']]).getD emptyAC

/-- `cs` is a root path whose node carries the end-of-word key: a terminal
path of the trie. -/
def TermPath (a : ACAutomaton) (cs : List Char) : Prop :=
  ∃ m, walkP a cs = some m ∧ (lookupChild a m '#').isSome

/-- Two tries with the same path structure: the same root paths and the
same terminal paths.  Tries built from the same '#'-free pattern set in
different insertion orders are related (their node indices may differ). -/
def PathEquiv (a1 a2 : ACAutomaton) : Prop :=
  (∀ cs, (walkP a1 cs).isSome ↔ (walkP a2 cs).isSome) ∧
  (∀ cs, TermPath a1 cs ↔ TermPath a2 cs)

/-- The `entity_type_mapping` dict accumulated over a labeled pattern list
by repeated dict assignment, starting from `m0`. -/
def mapFold (ps : List (List Char × String))
    (m0 : List (List Char × String)) : List (List Char × String) :=
  ps.foldl (fun acc p => assignMapS p.1 p.2 acc) m0

end CNER

namespace CNER

/-- C1: the claim fails on the code.  With the single pattern "AB" (label
"X") and text "AB", `recognize_entities` returns one entity whose text is
the empty string (not a pattern of P) and whose label is the fallback "UNK"
(not the registered label): `_get_word_length` is only ever called on a node
that already carries the end-of-word key, so it returns 0 and every reported
span is the empty slice `text[i+1:i+1]`. -/
theorem c1_entity_not_a_pattern :
    recognizeNER [("AB".data, "X")] "AB".data =
      some [{ text := [], start := 2, stop := 2, type := "UNK" }] ∧
    (([] : List Char) ∈ ["AB".data] → False) ∧
    lookupMapS [("AB".data, "X")] [] = none := by
  refine ⟨by decide, by decide, by decide⟩

/-- C2: the claim fails on the code.  With patterns {"AB": "X", "ABC": "Y"}
and text "ABCD", `recognize_entities` returns two empty-text entities at
positions (2,2) and (3,3) labelled "UNK" instead of the single entity
("ABC", 0, 3, "Y") the specification demands. -/
theorem c2_longest_match_not_returned :
    recognizeNER [("AB".data, "X"), ("ABC".data, "Y")] "ABCD".data =
      some [{ text := [], start := 2, stop := 2, type := "UNK" },
            { text := [], start := 3, stop := 3, type := "UNK" }] ∧
    recognizeNER [("AB".data, "X"), ("ABC".data, "Y")] "ABCD".data ≠
      some [{ text := "ABC".data, start := 0, stop := 3, type := "Y" }] := by
  refine ⟨by decide, by decide⟩

/-- C3 counterexample: searching an automaton on which `build_fail` was
never invoked does not raise any error; it silently returns a (bogus) match
list, because every missing "fail" key silently defaults to the root. -/
theorem c3_counterexample :
    addWords emptyAC [['A']] = some acA ∧
    search acA ['A'] = some [(1, 1, [])] :=
  ⟨rfl, by decide⟩

/-- C4 counterexample: with pattern "B" and text "B" the resolved match text
is the empty string, which has no entry in the pattern-to-label mapping; the
code silently assigns the default label "UNK" instead of raising an
error. -/
theorem c4_counterexample :
    recognizeNER [("B".data, "X")] "B".data =
      some [{ text := [], start := 1, stop := 1, type := "UNK" }] ∧
    lookupMapS [("B".data, "X")] [] = none := by
  refine ⟨by decide, by decide⟩

/-- C5 counterexample: the pattern sets are equal (one is a permutation of
the other), yet one insertion order makes the build raise an exception
(`add_word` calls `.setdefault` on the end-of-word string "#") while the
other returns entities: the pipeline's output is not insertion-order
independent. -/
theorem c5_counterexample :
    List.Perm [("A".data, "X"), ("A#B".data, "Y")]
      [("A#B".data, "Y"), ("A".data, "X")] ∧
    recognizeNER [("A".data, "X"), ("A#B".data, "Y")] "A".data = none ∧
    recognizeNER [("A#B".data, "Y"), ("A".data, "X")] "A".data =
      some [{ text := [], start := 1, stop := 1, type := "UNK" }] := by
  refine ⟨List.Perm.swap _ _ _, by decide, by decide⟩

/-- C8 counterexample: in the trie over {"A", "#A"}, the node of the path
"#A" (node 3) keeps no failure pointer (its effective target is the root)
even though the longest proper suffix of "#A" that is a path, namely "A",
is the non-root node 1: `build_fail` skips "#" edges, so the claimed
longest-proper-suffix characterization of failure targets is false. -/
theorem c8_counterexample : ¬ FailTargetsLongestSuffix acHashA := by
  intro h
  have h1 := h ['#', 'A'] 3 (by decide) (by decide)
  have h2 : effFail (build_fail acHashA) 3 = 0 := by decide
  have h3 : failIdx acHashA ['#', 'A'] = 1 := by decide
  rw [h2, h3] at h1
  exact absurd h1 (by decide)

/-- C9 counterexample: `add_word` with the empty string is not a no-op.  It
adds the end-of-word key to the root, after which searching the text "#"
walks onto the marker string and raises an `AttributeError`, whereas without
the call the same search returns the empty match list. -/
theorem c9_counterexample :
    search (build_fail acA) ['#'] = some [] ∧
    (add_word acA []).map (fun a2 => search (build_fail a2) ['#']) =
      some none := by
  refine ⟨by decide, by decide⟩

/-- C10: with the pattern set {"A#B"} and search text "A", the node reached
by the prefix "A" (node 1) carries "#" in its child mapping (as an edge to
node 2), so search treats it as terminal and emits a match whose text (the
empty string) equals no inserted pattern; `build_fail` skipped the "#" edge,
leaving the subtree nodes 2 and 3 without failure links. -/
theorem c10_hash_pattern_breaks_search :
    addWords emptyAC [['A', '#', 'B']] = some acAHashB ∧
    search (build_fail acAHashB) ['A'] = some [(1, 1, [])] ∧
    (([] : List Char) = ['A', '#', 'B'] → False) ∧
    walkP acAHashB ['A'] = some 1 ∧
    lookupChild acAHashB 1 '#' = some (Val.node 2) ∧
    (build_fail acAHashB).fail 2 = none ∧
    (build_fail acAHashB).fail 3 = none :=
  ⟨rfl, by decide, by decide, by decide, by decide, by decide, by decide⟩

/-- Every entity produced by the resolution loop carries the label looked up
from the mapping, with "UNK" as the silent default. -/
theorem resolveLoop_mem_type (m : List (List Char × String)) :
    ∀ ms lastEnd e, e ∈ resolveLoop m ms lastEnd →
      e.type = (lookupMapS m e.text).getD "UNK" := by
  intro ms
  induction ms with
  | nil =>
    intro lastEnd e h
    simp [resolveLoop] at h
  | cons x rest ih =>
    obtain ⟨s, e0, txt⟩ := x
    intro lastEnd e h
    simp only [resolveLoop] at h
    split at h
    · rcases List.mem_cons.mp h with h1 | h1
      · subst h1; rfl
      · exact ih _ _ h1
    · exact ih _ _ h

/-- C4 amended: a matched text with no entry in the pattern-to-label mapping
is not surfaced as an error; every entity returned by `recognize_entities`
silently carries `mapping.get(text, "UNK")`, so a missing entry yields the
default label "UNK". -/
theorem c4_amended_silent_default_label (a : ACAutomaton)
    (m : List (List Char × String)) (t : List Char) (ents : List Entity)
    (h : recognize_entities a m t = some ents) :
    ∀ e ∈ ents, e.type = (lookupMapS m e.text).getD "UNK" := by
  intro e he
  obtain ⟨ms, _, hf⟩ := Option.map_eq_some'.mp h
  exact resolveLoop_mem_type m _ _ e (hf ▸ he)

/-- C4 amended, witness: the general theorem applied to the concrete run of
the counterexample, whose entity indeed carries the default label. -/
theorem c4_amended_witness :
    Entity.mk [] 1 1 "UNK" ∈ [Entity.mk [] 1 1 "UNK"] ∧
    (Entity.mk [] 1 1 "UNK").type =
      (lookupMapS [("A".data, "X")] (Entity.mk [] 1 1 "UNK").text).getD "UNK" :=
  ⟨by decide,
    c4_amended_silent_default_label (build_fail acA) [("A".data, "X")]
      "A".data [Entity.mk [] 1 1 "UNK"] (by decide) _ (by decide)⟩

/-- The resolution loop produces a non-overlapping, left-to-right entity
list: consecutive entities satisfy `end ≤ start`, and the first accepted
entity starts no earlier than the running `last_end`. -/
theorem resolveLoop_chain (m : List (List Char × String)) :
    ∀ ms (lastEnd : Int),
      List.Chain' (fun x y : Entity => x.stop ≤ y.start)
        (resolveLoop m ms lastEnd) ∧
      (∀ h ∈ (resolveLoop m ms lastEnd).head?, lastEnd ≤ (h.start : Int)) := by
  intro ms
  induction ms with
  | nil =>
    intro lastEnd
    simp [resolveLoop]
  | cons x rest ih =>
    obtain ⟨s, e0, txt⟩ := x
    intro lastEnd
    simp only [resolveLoop]
    split
    · rename_i hle
      refine ⟨List.chain'_cons'.mpr ⟨?_, (ih (e0 : Int)).1⟩, ?_⟩
      · intro y hy
        have := (ih (e0 : Int)).2 y hy
        exact_mod_cast this
      · intro h hh
        simp only [List.head?_cons, Option.mem_def, Option.some.injEq] at hh
        subst hh
        exact hle
    · exact ih lastEnd

/-- C6: entities returned by `recognize_entities` are strictly ordered and
non-overlapping: for every pair of consecutive entities, the end of the
first is at most the start of the second. -/
theorem c6_entities_non_overlapping (a : ACAutomaton)
    (m : List (List Char × String)) (t : List Char) (ents : List Entity)
    (h : recognize_entities a m t = some ents) :
    List.Chain' (fun x y : Entity => x.stop ≤ y.start) ents := by
  obtain ⟨ms, _, hf⟩ := Option.map_eq_some'.mp h
  exact hf ▸ (resolveLoop_chain m (sortMatches ms) (-1)).1

/-- C6 witness: the non-overlap theorem applied to a concrete recognition
run over the pattern set {"AB": "X", "ABC": "Y"} and text "ABCD". -/
theorem c6_witness :
    List.Chain' (fun x y : Entity => x.stop ≤ y.start)
      [Entity.mk [] 2 2 "UNK", Entity.mk [] 3 3 "UNK"] :=
  c6_entities_non_overlapping
    (build_fail ((addWords emptyAC [['A', 'B'], ['A', 'B', 'C']]).getD emptyAC))
    [("AB".data, "X"), ("ABC".data, "Y")] "ABCD".data
    [Entity.mk [] 2 2 "UNK", Entity.mk [] 3 3 "UNK"] (by decide)

/-- The inner tag loop preserves the list length. -/
theorem markInside_length (lab : String) :
    ∀ k (tg : List String) i, (markInside lab tg i k).length = tg.length := by
  intro k
  induction k with
  | zero => intro tg i; rfl
  | succ k ih =>
    intro tg i
    simp only [markInside]
    rw [ih]
    simp

/-- Positions strictly before the loop's start index are untouched. -/
theorem markInside_getElem?_lt (lab : String) :
    ∀ k (tg : List String) i j, j < i → (markInside lab tg i k)[j]? = tg[j]? := by
  intro k
  induction k with
  | zero => intro tg i j _; rfl
  | succ k ih =>
    intro tg i j hj
    simp only [markInside]
    rw [ih _ _ _ (by omega)]
    exact List.getElem?_set_ne (by omega)

/-- Positions at or beyond the loop's end index are untouched. -/
theorem markInside_getElem?_ge (lab : String) :
    ∀ k (tg : List String) i j, i + k ≤ j → (markInside lab tg i k)[j]? = tg[j]? := by
  intro k
  induction k with
  | zero => intro tg i j _; rfl
  | succ k ih =>
    intro tg i j hj
    simp only [markInside]
    rw [ih _ _ _ (by omega)]
    exact List.getElem?_set_ne (by omega)

/-- Every in-range position inside the loop's interval receives the inside
tag. -/
theorem markInside_getElem?_mem (lab : String) :
    ∀ k (tg : List String) i j, i ≤ j → j < i + k → j < tg.length →
      (markInside lab tg i k)[j]? = some ("I-" ++ lab) := by
  intro k
  induction k with
  | zero => intro tg i j h1 h2 _; omega
  | succ k ih =>
    intro tg i j h1 h2 hlen
    simp only [markInside]
    by_cases hij : j = i
    · subst hij
      rw [markInside_getElem?_lt lab k _ _ _ (by omega)]
      exact List.getElem?_set_self hlen
    · exact ih _ _ _ (by omega) (by omega) (by simpa using hlen)

/-- Tagging one entity preserves the list length. -/
theorem markEntity_length (tags : List String) (e : Entity) :
    (markEntity tags e).length = tags.length := by
  simp only [markEntity]
  rw [markInside_length]
  split <;> simp

/-- Tagging one (non-degenerate) entity only writes inside its span. -/
theorem markEntity_getElem?_frame (tags : List String) (e : Entity) (j : Nat)
    (hv : e.start < e.stop) (hj : j < e.start ∨ e.stop ≤ j) :
    (markEntity tags e)[j]? = tags[j]? := by
  simp only [markEntity]
  have h1 :
      ∀ tg : List String,
        (markInside e.type tg (e.start + 1)
          (min e.stop tags.length - (e.start + 1)))[j]? = tg[j]? := by
    intro tg
    rcases hj with h | h
    · exact markInside_getElem?_lt _ _ _ _ _ (by omega)
    · exact markInside_getElem?_ge _ _ _ _ _ (by omega)
  rw [h1]
  split
  · exact List.getElem?_set_ne (by omega)
  · rfl

/-- The entity's start position receives the begin tag. -/
theorem markEntity_getElem?_start (tags : List String) (e : Entity)
    (hv : e.start < e.stop) (hlen : e.stop ≤ tags.length) :
    (markEntity tags e)[e.start]? = some ("B-" ++ e.type) := by
  simp only [markEntity]
  rw [markInside_getElem?_lt _ _ _ _ _ (by omega)]
  rw [if_pos (by omega : e.start < tags.length)]
  exact List.getElem?_set_self (by omega)

/-- Every interior position of the entity's span receives the inside tag. -/
theorem markEntity_getElem?_inside (tags : List String) (e : Entity) (i : Nat)
    (h1 : e.start < i) (h2 : i < e.stop) (hlen : e.stop ≤ tags.length) :
    (markEntity tags e)[i]? = some ("I-" ++ e.type) := by
  simp only [markEntity]
  have hT :
      (if e.start < tags.length then tags.set e.start ("B-" ++ e.type)
       else tags).length = tags.length := by
    split <;> simp
  apply markInside_getElem?_mem
  · omega
  · omega
  · rw [hT]; omega

/-- Folding the tagger over a list of entities preserves the length. -/
theorem foldl_markEntity_length :
    ∀ (ents : List Entity) (tags : List String),
      (ents.foldl markEntity tags).length = tags.length := by
  intro ents
  induction ents with
  | nil => intro tags; rfl
  | cons e rest ih =>
    intro tags
    rw [List.foldl_cons, ih, markEntity_length]

/-- Folding the tagger over entities that all avoid position `j` leaves that
position untouched. -/
theorem foldl_markEntity_frame :
    ∀ (ents : List Entity) (tags : List String) (j : Nat),
      (∀ e ∈ ents, e.start < e.stop) →
      (∀ e ∈ ents, j < e.start ∨ e.stop ≤ j) →
      (ents.foldl markEntity tags)[j]? = tags[j]? := by
  intro ents
  induction ents with
  | nil => intro tags j _ _; rfl
  | cons e rest ih =>
    intro tags j hv hj
    rw [List.foldl_cons,
      ih _ _ (fun x hx => hv x (List.mem_cons_of_mem e hx))
        (fun x hx => hj x (List.mem_cons_of_mem e hx)),
      markEntity_getElem?_frame _ _ _ (hv e (List.mem_cons_self e rest))
        (hj e (List.mem_cons_self e rest))]

/-- C7: for non-overlapping entities whose spans lie within the text,
`text_to_bio` produces exactly one line per character; each entity's start
position carries the begin tag with its label, the interior span positions
carry the inside tag, positions covered by no entity carry "O", and line `i`
is the pair of character `i` and tag `i`. -/
theorem c7_text_to_bio_positions (t : List Char) (ents : List Entity)
    (hspan : ∀ e ∈ ents, e.start < e.stop ∧ e.stop ≤ t.length)
    (hdisj : List.Pairwise
      (fun e1 e2 => e1.stop ≤ e2.start ∨ e2.stop ≤ e1.start) ents) :
    (text_to_bio t ents).length = t.length ∧
    (∀ e ∈ ents,
      (bioTags t ents)[e.start]? = some ("B-" ++ e.type) ∧
      ∀ i, e.start < i → i < e.stop →
        (bioTags t ents)[i]? = some ("I-" ++ e.type)) ∧
    (∀ i, i < t.length → (∀ e ∈ ents, i < e.start ∨ e.stop ≤ i) →
      (bioTags t ents)[i]? = some "O") ∧
    (∀ (i : Nat) (c : Char) (tag : String), t[i]? = some c →
      (bioTags t ents)[i]? = some tag →
      (text_to_bio t ents)[i]? = some (String.mk [c] ++ " " ++ tag)) := by
  have hlenB : (bioTags t ents).length = t.length := by
    unfold bioTags
    rw [foldl_markEntity_length]
    simp
  refine ⟨?_, ?_, ?_, ?_⟩
  · unfold text_to_bio
    rw [List.length_zipWith, hlenB]
    omega
  · intro e he
    obtain ⟨l1, l2, rfl⟩ := List.append_of_mem he
    have hsub : (e :: l2).Sublist (l1 ++ e :: l2) := List.sublist_append_right l1 (e :: l2)
    have hpw := List.pairwise_cons.mp (hdisj.sublist hsub)
    have hvrest : ∀ x ∈ l2, x.start < x.stop := fun x hx =>
      (hspan x (List.mem_append_right l1 (List.mem_cons_of_mem e hx))).1
    have hav : ∀ j, e.start ≤ j → j < e.stop → ∀ x ∈ l2, j < x.start ∨ x.stop ≤ j := by
      intro j hj1 hj2 x hx
      rcases hpw.1 x hx with h | h
      · left; omega
      · right; omega
    have he' := hspan e (List.mem_append_right l1 (List.mem_cons_self e l2))
    have htags0 : (l1.foldl markEntity (List.replicate t.length "O")).length = t.length := by
      rw [foldl_markEntity_length]; simp
    have hfold : bioTags t (l1 ++ e :: l2) =
        l2.foldl markEntity (markEntity (l1.foldl markEntity (List.replicate t.length "O")) e) := by
      unfold bioTags
      rw [List.foldl_append, List.foldl_cons]
    constructor
    · rw [hfold,
        foldl_markEntity_frame _ _ _ hvrest (hav e.start (Nat.le_refl _) he'.1),
        markEntity_getElem?_start _ _ he'.1 (by omega)]
    · intro i hi1 hi2
      rw [hfold,
        foldl_markEntity_frame _ _ _ hvrest (hav i (by omega) hi2),
        markEntity_getElem?_inside _ _ _ hi1 hi2 (by omega)]
  · intro i hi hout
    unfold bioTags
    rw [foldl_markEntity_frame _ _ _ (fun x hx => (hspan x hx).1) hout]
    simp [hi]
  · intro i c tag hc htag
    unfold text_to_bio
    rw [List.getElem?_zipWith, hc, htag]

/-- C7 witness: the tagging theorem applied to text "XABY" with the single
entity ("AB", 1, 3, "LOC"), whose begin tag lands at position 1, inside tag
at position 2, and "O" elsewhere. -/
theorem c7_witness :
    (text_to_bio "XABY".data [Entity.mk "AB".data 1 3 "LOC"]).length = 4 ∧
    (bioTags "XABY".data [Entity.mk "AB".data 1 3 "LOC"])[1]? = some "B-LOC" ∧
    (bioTags "XABY".data [Entity.mk "AB".data 1 3 "LOC"])[2]? = some "I-LOC" ∧
    (bioTags "XABY".data [Entity.mk "AB".data 1 3 "LOC"])[0]? = some "O" := by
  have h := c7_text_to_bio_positions "XABY".data [Entity.mk "AB".data 1 3 "LOC"]
    (by decide) (by simp)
  refine ⟨h.1, ?_, ?_, ?_⟩
  · exact (h.2.1 _ (List.mem_singleton.mpr rfl)).1
  · exact (h.2.1 _ (List.mem_singleton.mpr rfl)).2 2 (by decide) (by decide)
  · exact h.2.2.1 0 (by decide) (by decide)

/-- Key lookup through an entries update at node `n`. -/
theorem lookupChild_update (a : ACAutomaton) (s : Nat) (n : Nat)
    (l : List (Char × Val)) (m : Nat) (c : Char) :
    lookupChild
        { size := s, entries := Function.update a.entries n l, fail := a.fail }
        m c =
      if m = n then (List.find? (fun p => p.1 == c) l).map Prod.snd
      else lookupChild a m c := by
  simp only [lookupChild]
  by_cases h : m = n
  · subst h; rw [Function.update_same, if_pos rfl]
  · rw [Function.update_noteq h, if_neg h]

/-- Key lookup through a dict assignment: the assigned key reads the new
value, every other key is unaffected. -/
theorem find?_map_assocAssign (c0 : Char) (v0 : Val) (c : Char) :
    ∀ l, (List.find? (fun p => p.1 == c) (assocAssign c0 v0 l)).map Prod.snd =
      if c = c0 then some v0
      else (List.find? (fun p => p.1 == c) l).map Prod.snd := by
  intro l
  induction l with
  | nil =>
    simp only [assocAssign]
    by_cases h : c = c0
    · subst h; rw [List.find?_cons_of_pos _ (by simp), if_pos rfl]; rfl
    · rw [List.find?_cons_of_neg _ (by simp [Ne.symm h]), if_neg h]
  | cons p rest ih =>
    obtain ⟨c', v'⟩ := p
    by_cases h1 : c' = c0
    · subst h1
      simp only [assocAssign, beq_self_eq_true, if_true]
      by_cases h2 : c = c'
      · subst h2; rw [List.find?_cons_of_pos _ (by simp), if_pos rfl]; rfl
      · rw [List.find?_cons_of_neg _ (by simp [Ne.symm h2]), if_neg h2,
          List.find?_cons_of_neg _ (by simp [Ne.symm h2])]
    · simp only [assocAssign]
      rw [if_neg (by simp [h1])]
      by_cases h2 : c = c'
      · subst h2
        rw [List.find?_cons_of_pos _ (by simp),
          List.find?_cons_of_pos _ (by simp), if_neg h1]
      · rw [List.find?_cons_of_neg _ (by simp [Ne.symm h2]),
          List.find?_cons_of_neg _ (by simp [Ne.symm h2])]
        exact ih

/-- The empty automaton stores the end-of-word marker nowhere. -/
theorem emptyAC_endmark : EndmarkOnlyHash emptyAC := by
  intro n c h
  simp [lookupChild, emptyAC] at h

/-- The character-walk of `add_word` stores the marker under no new key. -/
theorem addWordGo_endmark :
    ∀ (w : List Char) (a : ACAutomaton) (n : Nat) (a' : ACAutomaton) (n' : Nat),
      EndmarkOnlyHash a → addWordGo a n w = some (a', n') →
      EndmarkOnlyHash a' := by
  intro w
  induction w with
  | nil =>
    intro a n a' n' h heq
    simp only [addWordGo, Option.some.injEq, Prod.mk.injEq] at heq
    obtain ⟨rfl, rfl⟩ := heq
    exact h
  | cons c cs ih =>
    intro a n a' n' h heq
    simp only [addWordGo] at heq
    split at heq
    · exact ih _ _ _ _ h heq
    · exact absurd heq (by simp)
    · refine ih _ _ _ _ ?_ heq
      intro m c' hlk
      rw [lookupChild_update] at hlk
      split at hlk
      · rw [List.find?_append] at hlk
        rcases hf : List.find? (fun p => p.1 == c') (a.entries n) with _ | q
        · rw [hf, Option.none_or] at hlk
          by_cases hcc : c = c'
          · subst hcc
            rw [List.find?_cons_of_pos _ (by simp)] at hlk
            simp at hlk
          · rw [List.find?_cons_of_neg _ (by simp [hcc])] at hlk
            simp at hlk
        · rw [hf] at hlk
          simp only [Option.or_some, Option.map_some'] at hlk
          exact h n c' (by simp [lookupChild, hf, hlk])
      · exact h _ _ hlk

/-- `add_word` preserves the marker-only-under-"#" invariant. -/
theorem add_word_endmark (a : ACAutomaton) (w : List Char) (a' : ACAutomaton)
    (h : EndmarkOnlyHash a) (heq : add_word a w = some a') :
    EndmarkOnlyHash a' := by
  unfold add_word at heq
  obtain ⟨⟨a1, n1⟩, hgo, hmk⟩ := Option.map_eq_some'.mp heq
  have h1 := addWordGo_endmark w a 0 a1 n1 h hgo
  subst hmk
  intro m c hlk
  rw [lookupChild_update] at hlk
  split at hlk
  · rw [find?_map_assocAssign] at hlk
    split at hlk
    · assumption
    · exact h1 _ _ hlk
  · exact h1 _ _ hlk

/-- Folding `add_word` over a `none` accumulator stays `none`. -/
theorem foldl_add_word_none (ws : List (List Char)) :
    ws.foldl (fun acc w => acc.bind fun x => add_word x w) none = none := by
  induction ws with
  | nil => rfl
  | cons w ws ih => simpa using ih

/-- Unfolding `addWords` one pattern at a time. -/
theorem addWords_cons (a : ACAutomaton) (w : List Char) (ws : List (List Char)) :
    addWords a (w :: ws) = (add_word a w).bind fun x => addWords x ws := by
  unfold addWords
  rw [List.foldl_cons]
  cases h : add_word a w with
  | none => simpa [h] using foldl_add_word_none ws
  | some x => simp [h]

/-- Every automaton built by `add_word` calls from the empty automaton keeps
the marker only under "#". -/
theorem addWords_endmark :
    ∀ (ws : List (List Char)) (a a' : ACAutomaton),
      EndmarkOnlyHash a → addWords a ws = some a' → EndmarkOnlyHash a' := by
  intro ws
  induction ws with
  | nil =>
    intro a a' h heq
    simp only [addWords, List.foldl_nil, Option.some.injEq] at heq
    subst heq
    exact h
  | cons w ws ih =>
    intro a a' h heq
    rw [addWords_cons] at heq
    rcases hw : add_word a w with _ | x
    · rw [hw] at heq; simp at heq
    · rw [hw, Option.some_bind] at heq
      exact ih _ _ (add_word_endmark a w x h hw) heq

/-- As long as the text avoids '#', the search loop can never step onto the
marker string, so it never raises. -/
theorem searchLoop_isSome (a : ACAutomaton) (h : EndmarkOnlyHash a)
    (t : List Char) :
    ∀ (rest : List Char) (i cur : Nat) (acc : List RawMatch),
      (∀ c ∈ rest, c ≠ '#') → (searchLoop a t rest i cur acc).isSome := by
  intro rest
  induction rest with
  | nil => intro i cur acc _; simp [searchLoop]
  | cons c cs ih =>
    intro i cur acc hc
    simp only [searchLoop]
    split
    · exact ih _ _ _ fun x hx => hc x (List.mem_cons_of_mem c hx)
    · rename_i hl
      exact absurd (h _ _ hl) (hc c (List.mem_cons_self c cs))
    · exact ih _ _ _ fun x hx => hc x (List.mem_cons_of_mem c hx)

/-- C3 amended: `search` on an automaton on which `build_fail` was never
invoked does not fail fast; missing "fail" keys silently default to the
root, and for every '#'-free text the call silently returns a match list
(no exception). -/
theorem c3_amended_uncompiled_search_silent (ws : List (List Char))
    (a : ACAutomaton) (t : List Char) (hbuild : addWords emptyAC ws = some a)
    (ht : ('#' : Char) ∉ t) : (search a t).isSome := by
  have h := addWords_endmark ws emptyAC a emptyAC_endmark hbuild
  exact searchLoop_isSome a h t t 0 0 [] fun c hc h' => ht (h' ▸ hc)

/-- C3 amended witness: the uncompiled single-pattern automaton over "A"
searched on "A" silently returns (no error). -/
theorem c3_amended_witness : (search acA ['A']).isSome :=
  c3_amended_uncompiled_search_silent [['A']] acA ['A'] rfl (by decide)

/-- A key other than '#' looks up the same value through the non-"#" pairs. -/
theorem find?_filterNH (c : Char) (hc : c ≠ '#') :
    ∀ l : List (Char × Val),
      List.find? (fun p => p.1 == c) l =
        List.find? (fun p => p.1 == c) (filterNH l) := by
  intro l
  induction l with
  | nil => rfl
  | cons p rest ih =>
    obtain ⟨c', v'⟩ := p
    by_cases h1 : c' = c
    · subst h1
      have hfl : filterNH ((c', v') :: rest) = (c', v') :: filterNH rest := by
        simp [filterNH, List.filter_cons, hc]
      rw [hfl, List.find?_cons_of_pos _ (by simp),
        List.find?_cons_of_pos _ (by simp)]
    · by_cases h2 : c' = '#'
      · subst h2
        have hfl : filterNH (('#', v') :: rest) = filterNH rest := by
          simp [filterNH, List.filter_cons]
        rw [hfl, List.find?_cons_of_neg _ (by simp [h1])]
        exact ih
      · have hfl : filterNH ((c', v') :: rest) = (c', v') :: filterNH rest := by
          simp [filterNH, List.filter_cons, h2]
        rw [hfl, List.find?_cons_of_neg _ (by simp [h1]),
          List.find?_cons_of_neg _ (by simp [h1])]
        exact ih

/-- Lookups agree between root-"#"-equivalent automata, for any non-"#" key
anywhere and for any key away from the root. -/
theorem lookupChild_sbrh (x y : ACAutomaton) (h : SameButRootHash x y)
    (n : Nat) (c : Char) (hc : c ≠ '#' ∨ n ≠ 0) :
    lookupChild x n c = lookupChild y n c := by
  obtain ⟨hs, hf, he, hr⟩ := h
  by_cases hn : n = 0
  · subst hn
    rcases hc with hc | hc
    · unfold lookupChild
      rw [find?_filterNH c hc, hr, ← find?_filterNH c hc]
    · exact absurd rfl hc
  · unfold lookupChild
    rw [he n hn]

/-- Effective failure targets agree between root-"#"-equivalent automata. -/
theorem effFail_sbrh (x y : ACAutomaton) (h : SameButRootHash x y) (n : Nat) :
    effFail x n = effFail y n := by
  unfold effFail
  rw [h.2.1 n]

/-- The fail-chain walk of `build_fail` agrees between root-"#"-equivalent
automata. -/
theorem findFailFrom_sbrh (x y : ACAutomaton) (h : SameButRootHash x y)
    (c : Char) (hc : c ≠ '#') :
    ∀ fuel f, findFailFrom x c fuel f = findFailFrom y c fuel f := by
  intro fuel
  induction fuel with
  | zero => intro f; rfl
  | succ fuel ih =>
    intro f
    simp only [findFailFrom]
    by_cases hf : f = 0
    · simp [hf]
    · rw [if_neg hf, if_neg hf, lookupChild_sbrh x y h f c (Or.inl hc),
        effFail_sbrh x y h f]
      split
      · rfl
      · exact ih _

/-- The fail-target computation agrees between root-"#"-equivalent
automata. -/
theorem resolveFail_sbrh (x y : ACAutomaton) (h : SameButRootHash x y)
    (c : Char) (hc : c ≠ '#') (f : Nat) :
    resolveFail x c f = resolveFail y c f := by
  unfold resolveFail
  rw [findFailFrom_sbrh x y h c hc x.size f, h.1,
    lookupChild_sbrh x y h _ c (Or.inl hc)]

/-- Setting the same fail pointer preserves root-"#"-equivalence. -/
theorem setFail_sbrh (x y : ACAutomaton) (h : SameButRootHash x y)
    (n v : Nat) : SameButRootHash (setFail x n v) (setFail y n v) := by
  obtain ⟨hs, hf, he, hr⟩ := h
  refine ⟨hs, ?_, he, hr⟩
  intro m
  simp only [setFail]
  by_cases hm : m = n
  · subst hm; rw [Function.update_same, Function.update_same]
  · rw [Function.update_noteq hm, Function.update_noteq hm]
    exact hf m

/-- `processEntries` never changes entries or size. -/
theorem processEntries_frame (cur : Nat) :
    ∀ (l : List (Char × Val)) (x : ACAutomaton),
      (processEntries x cur l).1.entries = x.entries ∧
      (processEntries x cur l).1.size = x.size := by
  intro l
  induction l with
  | nil => intro x; exact ⟨rfl, rfl⟩
  | cons p rest ih =>
    intro x
    obtain ⟨c, v⟩ := p
    simp only [processEntries]
    by_cases hc : c = '#'
    · rw [if_pos (by simp [hc])]
      exact ih x
    · rw [if_neg (by simp [hc])]
      cases v with
      | endmark => exact ih x
      | node child => exact ih _

/-- Every index enqueued by `processEntries` is a child value of the
iterated list. -/
theorem processEntries_queue_mem (cur : Nat) :
    ∀ (l : List (Char × Val)) (x : ACAutomaton) (j : Nat),
      j ∈ (processEntries x cur l).2 → ∃ c, (c, Val.node j) ∈ l := by
  intro l
  induction l with
  | nil => intro x j hj; simp [processEntries] at hj
  | cons p rest ih =>
    intro x j hj
    obtain ⟨c, v⟩ := p
    simp only [processEntries] at hj
    by_cases hc : c = '#'
    · rw [if_pos (by simp [hc])] at hj
      obtain ⟨c', hc'⟩ := ih x j hj
      exact ⟨c', List.mem_cons_of_mem _ hc'⟩
    · rw [if_neg (by simp [hc])] at hj
      cases v with
      | endmark =>
        obtain ⟨c', hc'⟩ := ih x j hj
        exact ⟨c', List.mem_cons_of_mem _ hc'⟩
      | node child =>
        simp only [List.mem_cons] at hj
        rcases hj with rfl | hj
        · exact ⟨c, List.mem_cons_self _ _⟩
        · obtain ⟨c', hc'⟩ := ih _ j hj
          exact ⟨c', List.mem_cons_of_mem _ hc'⟩

/-- Processing the same entry list preserves root-"#"-equivalence and
produces the same queue additions. -/
theorem processEntries_sbrh (cur : Nat) :
    ∀ (l : List (Char × Val)) (x y : ACAutomaton), SameButRootHash x y →
      (processEntries x cur l).2 = (processEntries y cur l).2 ∧
      SameButRootHash (processEntries x cur l).1 (processEntries y cur l).1 := by
  intro l
  induction l with
  | nil => intro x y h; exact ⟨rfl, h⟩
  | cons p rest ih =>
    intro x y h
    obtain ⟨c, v⟩ := p
    simp only [processEntries]
    by_cases hc : c = '#'
    · rw [if_pos (by simp [hc]), if_pos (by simp [hc])]
      exact ih x y h
    · rw [if_neg (by simp [hc]), if_neg (by simp [hc])]
      cases v with
      | endmark => exact ih x y h
      | node child =>
        have hrf : resolveFail x c (effFail x cur) =
            resolveFail y c (effFail y cur) := by
          rw [effFail_sbrh x y h cur, resolveFail_sbrh x y h c hc]
        have h' : SameButRootHash
            (setFail x child (resolveFail x c (effFail x cur)))
            (setFail y child (resolveFail y c (effFail y cur))) := by
          rw [hrf]
          exact setFail_sbrh x y h child _
        obtain ⟨hq, hR⟩ := ih _ _ h'
        exact ⟨congrArg (fun l => child :: l) hq, hR⟩

/-- The BFS of `build_fail` preserves root-"#"-equivalence, provided the
queue never contains the root. -/
theorem bfsRun_sbrh :
    ∀ (fuel : Nat) (q : List Nat) (x y : ACAutomaton),
      SameButRootHash x y → NoRootChild x → (∀ n ∈ q, n ≠ 0) →
      SameButRootHash (bfsRun x fuel q) (bfsRun y fuel q) := by
  intro fuel
  induction fuel with
  | zero =>
    intro q x y h _ _
    cases q <;> simpa [bfsRun] using h
  | succ fuel ih =>
    intro q x y h hz hq
    cases q with
    | nil => simpa [bfsRun] using h
    | cons cur rest =>
      simp only [bfsRun]
      have hcur : cur ≠ 0 := hq cur (List.mem_cons_self _ _)
      have hentcur : x.entries cur = y.entries cur := h.2.2.1 cur hcur
      rw [← hentcur]
      obtain ⟨hq2, hR⟩ := processEntries_sbrh cur (x.entries cur) x y h
      rw [← hq2]
      apply ih
      · exact hR
      · intro n p hp j hj
        exact hz n p (by rwa [(processEntries_frame cur (x.entries cur) x).1] at hp) j hj
      · intro n hn
        rcases List.mem_append.mp hn with h1 | h1
        · exact hq n (List.mem_cons_of_mem _ h1)
        · obtain ⟨c, hcp⟩ := processEntries_queue_mem cur (x.entries cur) x n h1
          exact hz cur (c, Val.node n) hcp n rfl

/-- Seeding ignores the "#" pairs of the root dict. -/
theorem seedRoot_eq_filterNH :
    ∀ (l : List (Char × Val)) (x : ACAutomaton),
      seedRoot x l = seedRoot x (filterNH l) := by
  intro l
  induction l with
  | nil => intro x; rfl
  | cons p rest ih =>
    intro x
    obtain ⟨c, v⟩ := p
    by_cases hc : c = '#'
    · have hfl : filterNH ((c, v) :: rest) = filterNH rest := by
        simp [filterNH, List.filter_cons, hc]
      rw [hfl]
      simp only [seedRoot]
      rw [if_pos (by simp [hc])]
      exact ih x
    · have hfl : filterNH ((c, v) :: rest) = (c, v) :: filterNH rest := by
        simp [filterNH, List.filter_cons, hc]
      rw [hfl]
      simp only [seedRoot]
      rw [if_neg (by simp [hc]), if_neg (by simp [hc])]
      cases v with
      | endmark => exact ih x
      | node j =>
        exact congrArg (fun p : ACAutomaton × List Nat => (p.1, j :: p.2))
          (ih (setFail x j 0))

/-- Seeding the same list preserves root-"#"-equivalence and produces the
same queue. -/
theorem seedRoot_sbrh :
    ∀ (l : List (Char × Val)) (x y : ACAutomaton), SameButRootHash x y →
      (seedRoot x l).2 = (seedRoot y l).2 ∧
      SameButRootHash (seedRoot x l).1 (seedRoot y l).1 := by
  intro l
  induction l with
  | nil => intro x y h; exact ⟨rfl, h⟩
  | cons p rest ih =>
    intro x y h
    obtain ⟨c, v⟩ := p
    simp only [seedRoot]
    by_cases hc : c = '#'
    · rw [if_pos (by simp [hc]), if_pos (by simp [hc])]
      exact ih x y h
    · rw [if_neg (by simp [hc]), if_neg (by simp [hc])]
      cases v with
      | endmark => exact ih x y h
      | node j =>
        obtain ⟨hq, hR⟩ := ih _ _ (setFail_sbrh x y h j 0)
        exact ⟨congrArg (fun l => j :: l) hq, hR⟩

/-- Every index enqueued by seeding is a child value of the seeded list. -/
theorem seedRoot_queue_mem :
    ∀ (l : List (Char × Val)) (x : ACAutomaton) (j : Nat),
      j ∈ (seedRoot x l).2 → ∃ c, (c, Val.node j) ∈ l := by
  intro l
  induction l with
  | nil => intro x j hj; simp [seedRoot] at hj
  | cons p rest ih =>
    intro x j hj
    obtain ⟨c, v⟩ := p
    simp only [seedRoot] at hj
    by_cases hc : c = '#'
    · rw [if_pos (by simp [hc])] at hj
      obtain ⟨c', hc'⟩ := ih x j hj
      exact ⟨c', List.mem_cons_of_mem _ hc'⟩
    · rw [if_neg (by simp [hc])] at hj
      cases v with
      | endmark =>
        obtain ⟨c', hc'⟩ := ih x j hj
        exact ⟨c', List.mem_cons_of_mem _ hc'⟩
      | node j' =>
        simp only [List.mem_cons] at hj
        rcases hj with rfl | hj
        · exact ⟨c, List.mem_cons_self _ _⟩
        · obtain ⟨c', hc'⟩ := ih _ j hj
          exact ⟨c', List.mem_cons_of_mem _ hc'⟩

/-- Seeding never changes entries or size. -/
theorem seedRoot_frame :
    ∀ (l : List (Char × Val)) (x : ACAutomaton),
      (seedRoot x l).1.entries = x.entries ∧ (seedRoot x l).1.size = x.size := by
  intro l
  induction l with
  | nil => intro x; exact ⟨rfl, rfl⟩
  | cons p rest ih =>
    intro x
    obtain ⟨c, v⟩ := p
    simp only [seedRoot]
    by_cases hc : c = '#'
    · rw [if_pos (by simp [hc])]
      exact ih x
    · rw [if_neg (by simp [hc])]
      cases v with
      | endmark => exact ih x
      | node j => exact ih _

/-- Unfolding `build_fail` into its seed and BFS phases. -/
theorem build_fail_eq (a : ACAutomaton) :
    build_fail a =
      bfsRun (seedRoot a (a.entries 0)).1 (seedRoot a (a.entries 0)).1.size
        (seedRoot a (a.entries 0)).2 := rfl

/-- `build_fail` cannot observe the value stored under the root's "#" key:
it preserves root-"#"-equivalence. -/
theorem build_fail_sbrh (x y : ACAutomaton) (h : SameButRootHash x y)
    (hzx : NoRootChild x) :
    SameButRootHash (build_fail x) (build_fail y) := by
  rw [build_fail_eq, build_fail_eq]
  rw [seedRoot_eq_filterNH (x.entries 0) x, seedRoot_eq_filterNH (y.entries 0) y,
    ← h.2.2.2]
  obtain ⟨hq, hR⟩ := seedRoot_sbrh (filterNH (x.entries 0)) x y h
  rw [← hq, (seedRoot_frame (filterNH (x.entries 0)) x).2,
    (seedRoot_frame (filterNH (x.entries 0)) y).2, ← h.1]
  apply bfsRun_sbrh
  · exact hR
  · intro n p hp j hj
    exact hzx n p (by rwa [(seedRoot_frame (filterNH (x.entries 0)) x).1] at hp) j hj
  · intro n hn
    obtain ⟨c, hcp⟩ := seedRoot_queue_mem (filterNH (x.entries 0)) x n hn
    exact hzx 0 _ (List.mem_of_mem_filter hcp) n rfl

/-- The cursor-adjustment loop agrees between root-"#"-equivalent automata
on non-"#" characters. -/
theorem stepDown_sbrh (x y : ACAutomaton) (h : SameButRootHash x y)
    (c : Char) (hc : c ≠ '#') :
    ∀ fuel n, stepDown x c fuel n = stepDown y c fuel n := by
  intro fuel
  induction fuel with
  | zero => intro n; rfl
  | succ fuel ih =>
    intro n
    simp only [stepDown]
    by_cases hn : n = 0
    · simp [hn]
    · rw [if_neg hn, if_neg hn, lookupChild_sbrh x y h n c (Or.inl hc),
        effFail_sbrh x y h n]
      split
      · rfl
      · exact ih _

/-- The word-length helper agrees between root-"#"-equivalent automata. -/
theorem get_word_length_sbrh (x y : ACAutomaton) (h : SameButRootHash x y) :
    ∀ fuel n, get_word_length x fuel n = get_word_length y fuel n := by
  intro fuel
  induction fuel with
  | zero => intro n; rfl
  | succ fuel ih =>
    intro n
    simp only [get_word_length]
    by_cases hn : n = 0
    · simp [hn]
    · rw [if_neg hn, if_neg hn, lookupChild_sbrh x y h n '#' (Or.inr hn),
        effFail_sbrh x y h n]
      split
      · rfl
      · rw [ih _]

/-- The match-emission loop agrees between root-"#"-equivalent automata. -/
theorem collectAt_sbrh (x y : ACAutomaton) (h : SameButRootHash x y)
    (t : List Char) (i : Nat) :
    ∀ fuel n acc, collectAt x t i fuel n acc = collectAt y t i fuel n acc := by
  intro fuel
  induction fuel with
  | zero => intro n acc; rfl
  | succ fuel ih =>
    intro n acc
    simp only [collectAt]
    by_cases hn : n = 0
    · simp [hn]
    · rw [if_neg hn, if_neg hn, lookupChild_sbrh x y h n '#' (Or.inr hn),
        effFail_sbrh x y h n, get_word_length_sbrh x y h, h.1]
      split
      · rw [ih _ _]
      · rw [ih _ _]

/-- The main search loop agrees between root-"#"-equivalent automata on
"#"-free text. -/
theorem searchLoop_sbrh (x y : ACAutomaton) (h : SameButRootHash x y)
    (t : List Char) :
    ∀ (rest : List Char) (i cur : Nat) (acc : List RawMatch),
      (∀ c ∈ rest, c ≠ '#') →
      searchLoop x t rest i cur acc = searchLoop y t rest i cur acc := by
  intro rest
  induction rest with
  | nil => intro i cur acc _; rfl
  | cons c cs ih =>
    intro i cur acc hc
    have hc1 : c ≠ '#' := hc c (List.mem_cons_self _ _)
    have hcs : ∀ x' ∈ cs, x' ≠ '#' := fun x' hx => hc x' (List.mem_cons_of_mem _ hx)
    simp only [searchLoop]
    rw [stepDown_sbrh x y h c hc1 x.size cur, h.1,
      lookupChild_sbrh x y h _ c (Or.inl hc1)]
    split
    · exact ih _ _ _ hcs
    · rfl
    · rw [collectAt_sbrh x y h t i]
      exact ih _ _ _ hcs

/-- The non-"#" pairs are unchanged by assigning the "#" key. -/
theorem filterNH_assocAssign_hash (v : Val) :
    ∀ l, filterNH (assocAssign '#' v l) = filterNH l := by
  intro l
  induction l with
  | nil => simp [assocAssign, filterNH]
  | cons p rest ih =>
    obtain ⟨c', v'⟩ := p
    by_cases hc : c' = '#'
    · subst hc
      simp only [assocAssign, beq_self_eq_true, if_true]
      simp [filterNH, List.filter_cons]
    · simp only [assocAssign]
      rw [if_neg (by simp [hc])]
      simp only [filterNH, List.filter_cons] at ih ⊢
      simp [hc, ih]

/-- `add_word` with the empty word returns a root-"#"-equivalent automaton:
it only (re)assigns the marker under the root's "#" key. -/
theorem add_word_empty_sbrh (a a' : ACAutomaton)
    (heq : add_word a [] = some a') : SameButRootHash a' a := by
  unfold add_word at heq
  simp only [addWordGo, Option.map_some', Option.some.injEq] at heq
  subst heq
  refine ⟨rfl, fun n => rfl, ?_, ?_⟩
  · intro n hn
    exact Function.update_noteq hn _ _
  · show filterNH (Function.update a.entries 0
      (assocAssign '#' Val.endmark (a.entries 0)) 0) = filterNH (a.entries 0)
    rw [Function.update_same]
    exact filterNH_assocAssign_hash Val.endmark (a.entries 0)

/-- Membership in a dict after assignment: the new pair or an old pair. -/
theorem mem_assocAssign (c0 : Char) (v0 : Val) :
    ∀ (l : List (Char × Val)) (p : Char × Val),
      p ∈ assocAssign c0 v0 l → p = (c0, v0) ∨ p ∈ l := by
  intro l
  induction l with
  | nil => intro p hp; simp [assocAssign] at hp; exact Or.inl hp
  | cons q rest ih =>
    intro p hp
    obtain ⟨c', v'⟩ := q
    simp only [assocAssign] at hp
    split at hp
    · rcases List.mem_cons.mp hp with rfl | hp
      · exact Or.inl rfl
      · exact Or.inr (List.mem_cons_of_mem _ hp)
    · rcases List.mem_cons.mp hp with rfl | hp
      · exact Or.inr (List.mem_cons_self _ _)
      · rcases ih p hp with h | h
        · exact Or.inl h
        · exact Or.inr (List.mem_cons_of_mem _ h)

/-- The empty automaton has a positive size and no root-child edge. -/
theorem emptyAC_noRoot : 0 < emptyAC.size ∧ NoRootChild emptyAC := by
  refine ⟨Nat.one_pos, ?_⟩
  intro n p hp
  simp [emptyAC] at hp

/-- The walk of `add_word` adds only freshly allocated (non-root)
children. -/
theorem addWordGo_noRoot :
    ∀ (w : List Char) (a : ACAutomaton) (n : Nat) (a' : ACAutomaton) (n' : Nat),
      0 < a.size → NoRootChild a → addWordGo a n w = some (a', n') →
      0 < a'.size ∧ NoRootChild a' := by
  intro w
  induction w with
  | nil =>
    intro a n a' n' hs hz heq
    simp only [addWordGo, Option.some.injEq, Prod.mk.injEq] at heq
    obtain ⟨rfl, rfl⟩ := heq
    exact ⟨hs, hz⟩
  | cons c cs ih =>
    intro a n a' n' hs hz heq
    simp only [addWordGo] at heq
    split at heq
    · exact ih _ _ _ _ hs hz heq
    · exact absurd heq (by simp)
    · refine ih _ _ _ _ (by simp) ?_ heq
      intro m p hp j hj
      have hp' : p ∈ Function.update a.entries n
          (a.entries n ++ [(c, Val.node a.size)]) m := hp
      by_cases hm : m = n
      · subst hm
        rw [Function.update_same] at hp'
        rcases List.mem_append.mp hp' with h1 | h1
        · exact hz m p h1 j hj
        · simp only [List.mem_singleton] at h1
          subst h1
          have hj' : Val.node a.size = Val.node j := hj
          injection hj' with hj2
          omega
      · rw [Function.update_noteq hm] at hp'
        exact hz m p hp' j hj

/-- `add_word` preserves positive size and the absence of root children. -/
theorem add_word_noRoot (a : ACAutomaton) (w : List Char) (a' : ACAutomaton)
    (hs : 0 < a.size) (hz : NoRootChild a) (heq : add_word a w = some a') :
    0 < a'.size ∧ NoRootChild a' := by
  unfold add_word at heq
  obtain ⟨⟨a1, n1⟩, hgo, hmk⟩ := Option.map_eq_some'.mp heq
  obtain ⟨hs1, hz1⟩ := addWordGo_noRoot w a 0 a1 n1 hs hz hgo
  subst hmk
  refine ⟨hs1, ?_⟩
  intro m p hp j hj
  have hp' : p ∈ Function.update a1.entries n1
      (assocAssign '#' Val.endmark (a1.entries n1)) m := hp
  by_cases hm : m = n1
  · subst hm
    rw [Function.update_same] at hp'
    rcases mem_assocAssign '#' Val.endmark (a1.entries m) p hp' with h1 | h1
    · subst h1; simp at hj
    · exact hz1 m p h1 j hj
  · rw [Function.update_noteq hm] at hp'
    exact hz1 m p hp' j hj

/-- Every automaton built from the empty automaton has positive size and no
root-child edge. -/
theorem addWords_noRoot :
    ∀ (ws : List (List Char)) (a a' : ACAutomaton),
      0 < a.size → NoRootChild a → addWords a ws = some a' →
      0 < a'.size ∧ NoRootChild a' := by
  intro ws
  induction ws with
  | nil =>
    intro a a' hs hz heq
    simp only [addWords, List.foldl_nil, Option.some.injEq] at heq
    subst heq
    exact ⟨hs, hz⟩
  | cons w ws ih =>
    intro a a' hs hz heq
    rw [addWords_cons] at heq
    rcases hw : add_word a w with _ | x
    · rw [hw] at heq; simp at heq
    · rw [hw, Option.some_bind] at heq
      obtain ⟨hs1, hz1⟩ := add_word_noRoot a w x hs hz hw
      exact ih _ _ hs1 hz1 heq

/-- C9 amended: `add_word` with empty text is not an error, but it is also
not a perfect no-op: it stores the end-of-word marker under the root's "#"
key.  `build_fail` skips that key and `search` never inspects the root's
terminal marker, so for every text that avoids the reserved character '#'
the compiled search behaves exactly as if the call had not happened (the
counterexample shows the two runs differ on the text "#"). -/
theorem c9_amended_empty_word_frame (ws : List (List Char))
    (a a' : ACAutomaton) (t : List Char)
    (hbuild : addWords emptyAC ws = some a)
    (hadd : add_word a [] = some a') (ht : ('#' : Char) ∉ t) :
    search (build_fail a') t = search (build_fail a) t := by
  obtain ⟨hs, hz⟩ :=
    addWords_noRoot ws emptyAC a emptyAC_noRoot.1 emptyAC_noRoot.2 hbuild
  have hR : SameButRootHash a' a := add_word_empty_sbrh a a' hadd
  have hz' : NoRootChild a' := (add_word_noRoot a [] a' hs hz hadd).2
  have hB : SameButRootHash (build_fail a') (build_fail a) :=
    build_fail_sbrh a' a hR hz'
  unfold search
  exact searchLoop_sbrh (build_fail a') (build_fail a) hB t t 0 0 []
    fun c hcm h' => ht (h' ▸ hcm)

/-- The automaton `acA` after the extra `add_word("")` call. -/
theorem c9_amended_witness :
    search (build_fail ((add_word acA []).getD emptyAC)) ['A'] =
      search (build_fail acA) ['A'] :=
  c9_amended_empty_word_frame [['A']] acA ((add_word acA []).getD emptyAC)
    ['A'] rfl rfl (by decide)

/-- Automata with the same entries have the same lookups. -/
theorem lookupChild_ext (a b : ACAutomaton) (h : b.entries = a.entries)
    (n : Nat) (c : Char) : lookupChild b n c = lookupChild a n c := by
  unfold lookupChild
  rw [h]

/-- Walking a concatenation is walking the parts in sequence. -/
theorem walkFrom_append (a : ACAutomaton) :
    ∀ (l1 l2 : List Char) (n : Nat),
      walkFrom a n (l1 ++ l2) = (walkFrom a n l1).bind fun m => walkFrom a m l2 := by
  intro l1
  induction l1 with
  | nil => intro l2 n; rfl
  | cons c cs ih =>
    intro l2 n
    simp only [List.cons_append, walkFrom]
    cases lookupChild a n c with
    | none => rfl
    | some v =>
      cases v with
      | node j => exact ih l2 j
      | endmark => rfl

/-- Node indices strictly increase along trie edges, so a walk of length
`L` from node `m` ends at an index of at least `m + L`. -/
theorem walkFrom_length (a : ACAutomaton) (hWF : TrieWF a) :
    ∀ (cs : List Char) (m n : Nat), walkFrom a m cs = some n →
      m + cs.length ≤ n := by
  intro cs
  induction cs with
  | nil =>
    intro m n h
    simp only [walkFrom, Option.some.injEq] at h
    simp only [List.length_nil]
    omega
  | cons c cs' ih =>
    intro m n h
    simp only [walkFrom] at h
    cases hl : lookupChild a m c with
    | none => rw [hl] at h; exact absurd h (by simp)
    | some v =>
      rw [hl] at h
      cases v with
      | endmark => exact absurd h (by simp)
      | node j =>
        have h1 := (hWF.child_gt m c j hl).1
        have h2 := ih j n h
        simp only [List.length_cons]
        omega

/-- Walks stay inside the allocated arena. -/
theorem walkFrom_lt_size (a : ACAutomaton) (hWF : TrieWF a) :
    ∀ (cs : List Char) (m n : Nat), walkFrom a m cs = some n →
      m < a.size → n < a.size := by
  intro cs
  induction cs with
  | nil =>
    intro m n h hm
    simp only [walkFrom, Option.some.injEq] at h
    omega
  | cons c cs' ih =>
    intro m n h hm
    simp only [walkFrom] at h
    cases hl : lookupChild a m c with
    | none => rw [hl] at h; exact absurd h (by simp)
    | some v =>
      rw [hl] at h
      cases v with
      | endmark => exact absurd h (by simp)
      | node j => exact ih j n h (hWF.child_gt m c j hl).2

/-- Only the empty path reaches the root. -/
theorem walkP_eq_zero (a : ACAutomaton) (hWF : TrieWF a) (cs : List Char)
    (h : walkP a cs = some 0) : cs = [] := by
  cases cs with
  | nil => rfl
  | cons c cs' =>
    have := walkFrom_length a hWF (c :: cs') 0 0 h
    simp only [List.length_cons] at this
    omega

/-- A node index bounds the length of any path reaching it. -/
theorem walkP_length_le (a : ACAutomaton) (hWF : TrieWF a) (cs : List Char)
    (n : Nat) (h : walkP a cs = some n) : cs.length ≤ n := by
  have := walkFrom_length a hWF cs 0 n h
  omega

/-- Every path stays inside the arena, so its length is below `size`. -/
theorem walkP_length_lt_size (a : ACAutomaton) (hWF : TrieWF a)
    (cs : List Char) (n : Nat) (h : walkP a cs = some n) :
    cs.length < a.size ∧ n < a.size := by
  have h1 := walkFrom_lt_size a hWF cs 0 n h hWF.size_pos
  have h2 := walkP_length_le a hWF cs n h
  omega

/-- Initial segments of paths are paths. -/
theorem walkP_take (a : ACAutomaton) (cs : List Char) (n : Nat) (m : Nat)
    (h : walkP a cs = some n) : (walkP a (cs.take m)).isSome := by
  unfold walkP at h ⊢
  rw [← List.take_append_drop m cs, walkFrom_append] at h
  cases ht : walkFrom a 0 (cs.take m) with
  | none => rw [ht] at h; exact absurd h (by simp)
  | some p => simp [ht]

/-- In a well-formed trie every node is reached by at most one path. -/
theorem path_unique (a : ACAutomaton) (hWF : TrieWF a) :
    ∀ (n : Nat) (cs1 cs2 : List Char), walkP a cs1 = some n →
      walkP a cs2 = some n → cs1 = cs2 := by
  intro n
  induction n using Nat.strong_induction_on with
  | _ n ih =>
    intro cs1 cs2 h1 h2
    by_cases hn : n = 0
    · subst hn
      rw [walkP_eq_zero a hWF cs1 h1, walkP_eq_zero a hWF cs2 h2]
    · rcases List.eq_nil_or_concat cs1 with rfl | ⟨l1, c1, rfl⟩
      · simp only [walkP, walkFrom, Option.some.injEq] at h1
        exact absurd h1.symm hn
      · rcases List.eq_nil_or_concat cs2 with rfl | ⟨l2, c2, rfl⟩
        · simp only [walkP, walkFrom, Option.some.injEq] at h2
          exact absurd h2.symm hn
        · rw [List.concat_eq_append] at h1 h2 ⊢
          unfold walkP at h1 h2
          rw [walkFrom_append] at h1 h2
          cases hw1 : walkFrom a 0 l1 with
          | none => rw [hw1] at h1; exact absurd h1 (by simp)
          | some p1 =>
            cases hw2 : walkFrom a 0 l2 with
            | none => rw [hw2] at h2; exact absurd h2 (by simp)
            | some p2 =>
              rw [hw1] at h1; rw [hw2] at h2
              simp only [Option.some_bind, walkFrom] at h1 h2
              cases hl1 : lookupChild a p1 c1 with
              | none => rw [hl1] at h1; exact absurd h1 (by simp)
              | some v1 =>
                rw [hl1] at h1
                cases v1 with
                | endmark => exact absurd h1 (by simp)
                | node j1 =>
                  cases hl2 : lookupChild a p2 c2 with
                  | none => rw [hl2] at h2; exact absurd h2 (by simp)
                  | some v2 =>
                    rw [hl2] at h2
                    cases v2 with
                    | endmark => exact absurd h2 (by simp)
                    | node j2 =>
                      simp only [walkFrom, Option.some.injEq] at h1 h2
                      rw [h1] at hl1
                      rw [h2] at hl2
                      obtain ⟨hp, hc⟩ :=
                        hWF.parent_unique p1 c1 p2 c2 n hl1 hl2
                      subst hp
                      subst hc
                      have hlt := (hWF.child_gt p1 c1 n hl1).1
                      have hl12 := ih p1 hlt l1 l2 hw1 hw2
                      rw [hl12, List.concat_eq_append]

/-- Dropping past a drop. -/
theorem drop_add (cs : List Char) (k1 k2 : Nat) :
    (cs.drop k1).drop k2 = cs.drop (k1 + k2) := by
  rw [List.drop_drop]

/-- Dropping inside the left part of an append. -/
theorem drop_append_le (l1 l2 : List Char) (n : Nat) (h : n ≤ l1.length) :
    (l1 ++ l2).drop n = l1.drop n ++ l2 := by
  induction l1 generalizing n with
  | nil =>
    have hn : n = 0 := by simpa using h
    subst hn
    rfl
  | cons c cs ih =>
    cases n with
    | zero => rfl
    | succ n =>
      simp only [List.cons_append, List.drop_succ_cons]
      exact ih n (by simpa using h)

/-- The longest-proper-path-suffix function: its value is the first suffix
(dropping at least one character) that is a path; all longer proper
suffixes are non-paths. -/
theorem lps_spec (a : ACAutomaton) :
    ∀ (cs : List Char), cs ≠ [] →
      ∃ k, 1 ≤ k ∧ k ≤ cs.length ∧ lps a cs = cs.drop k ∧
        (walkP a (cs.drop k)).isSome ∧
        ∀ k', 1 ≤ k' → k' < k → walkP a (cs.drop k') = none := by
  intro cs
  induction cs with
  | nil => intro h; exact absurd rfl h
  | cons c tl ih =>
    intro _
    by_cases hp : isPath a tl
    · refine ⟨1, Nat.le_refl 1, by simp, ?_, ?_, ?_⟩
      · simp [lps, hp]
      · simpa [isPath] using hp
      · intro k' h1 h2; omega
    · have htl : tl ≠ [] := by
        intro h
        subst h
        exact hp (by simp [isPath, walkP, walkFrom])
      obtain ⟨k, hk1, hk2, hk3, hk4, hk5⟩ := ih htl
      refine ⟨k + 1, by omega, by simp; omega, ?_, ?_, ?_⟩
      · simp only [lps, hp, if_false, List.drop_succ_cons]
        exact hk3
      · simpa using hk4
      · intro k' h1 h2
        cases k' with
        | zero => omega
        | succ k'' =>
          simp only [List.drop_succ_cons]
          cases k'' with
          | zero =>
            simp only [List.drop_zero]
            simp only [isPath] at hp
            exact Option.not_isSome_iff_eq_none.mp (by simpa using hp)
          | succ k3 =>
            exact hk5 (k3 + 1) (by omega) (by omega)

/-- Characterization: any first path-suffix is the longest proper
path-suffix. -/
theorem lps_char (a : ACAutomaton) (cs : List Char) (k : Nat)
    (hne : cs ≠ []) (h1 : 1 ≤ k) (_h2 : k ≤ cs.length)
    (h3 : (walkP a (cs.drop k)).isSome)
    (h4 : ∀ k', 1 ≤ k' → k' < k → walkP a (cs.drop k') = none) :
    lps a cs = cs.drop k := by
  obtain ⟨k0, hk1, hk2, hk3, hk4, hk5⟩ := lps_spec a cs hne
  rcases Nat.lt_trichotomy k k0 with h | h | h
  · rw [hk5 k h1 h] at h3
    exact absurd h3 (by simp)
  · rw [hk3, h]
  · rw [h4 k0 hk1 h] at hk4
    exact absurd hk4 (by simp)

/-- The longest proper path-suffix of a single-character path is empty, so
the failure target of a depth-one node is the root. -/
theorem failIdx_single (a : ACAutomaton) (c : Char) : failIdx a [c] = 0 := by
  simp [failIdx, lps, isPath, walkP, walkFrom]

/-- In a dict with distinct keys, a member pair is what lookup finds. -/
theorem find?_of_mem_nodup (c : Char) (v : Val) :
    ∀ (l : List (Char × Val)), (l.map Prod.fst).Nodup → (c, v) ∈ l →
      List.find? (fun p => p.1 == c) l = some (c, v) := by
  intro l
  induction l with
  | nil => intro _ hm; simp at hm
  | cons q rest ih =>
    intro hnd hm
    obtain ⟨c', v'⟩ := q
    simp only [List.map_cons, List.nodup_cons] at hnd
    rcases List.mem_cons.mp hm with heq | hm'
    · simp only [Prod.mk.injEq] at heq
      obtain ⟨rfl, rfl⟩ := heq
      rw [List.find?_cons_of_pos _ (by simp)]
    · by_cases hcc : c' = c
      · subst hcc
        exact absurd (List.mem_map_of_mem Prod.fst hm') hnd.1
      · rw [List.find?_cons_of_neg _ (by simp [hcc])]
        exact ih hnd.2 hm'

/-- In a well-formed trie, membership in a node dict gives the lookup. -/
theorem lookupChild_of_mem (a : ACAutomaton) (hWF : TrieWF a) (n : Nat)
    (c : Char) (v : Val) (hm : (c, v) ∈ a.entries n) :
    lookupChild a n c = some v := by
  unfold lookupChild
  rw [find?_of_mem_nodup c v (a.entries n) (hWF.keys_nodup n) hm]
  rfl

/-- A successful lookup is a member pair. -/
theorem mem_of_lookupChild (a : ACAutomaton) (n : Nat) (c : Char) (v : Val)
    (h : lookupChild a n c = some v) : (c, v) ∈ a.entries n := by
  unfold lookupChild at h
  obtain ⟨p, hp1, hp2⟩ := Option.map_eq_some'.mp h
  have hmem := List.mem_of_find?_eq_some hp1
  have hpred := List.find?_some hp1
  obtain ⟨pc, pv⟩ := p
  simp only [beq_iff_eq] at hpred
  simp only at hp2
  subst hpred
  subst hp2
  exact hmem

/-- Lookup characterization for the `setdefault` allocation step of
`add_word`: the one fresh edge, everything else unchanged. -/
theorem lookupChild_setdefault (a : ACAutomaton) (n : Nat) (c0 : Char)
    (hnone : lookupChild a n c0 = none) (m : Nat) (c : Char) :
    lookupChild
        { size := a.size + 1,
          entries := Function.update a.entries n
            (a.entries n ++ [(c0, Val.node a.size)]),
          fail := a.fail } m c =
      if m = n ∧ c = c0 then some (Val.node a.size) else lookupChild a m c := by
  rw [lookupChild_update]
  by_cases hm : m = n
  · subst hm
    rw [if_pos rfl, List.find?_append]
    cases hf : List.find? (fun p => p.1 == c) (a.entries m) with
    | some q =>
      by_cases hc : c = c0
      · subst hc
        unfold lookupChild at hnone
        rw [Option.map_eq_none'] at hnone
        rw [hnone] at hf
        exact absurd hf (by simp)
      · rw [if_neg (fun h => hc h.2)]
        simp only [Option.or_some]
        unfold lookupChild
        rw [hf]
    | none =>
      simp only [Option.none_or]
      by_cases hc : c = c0
      · rw [List.find?_cons_of_pos _ (by simp [hc])]
        rw [if_pos (show _ ∧ c = c0 from ⟨by trivial, hc⟩)]
        rfl
      · rw [List.find?_cons_of_neg _ (by simp [Ne.symm hc]),
          if_neg (fun h => hc h.2)]
        unfold lookupChild
        rw [hf]
        rfl
  · rw [if_neg hm, if_neg (fun h => hm h.1)]

/-- Lookup characterization for the final marker assignment of `add_word`. -/
theorem lookupChild_assignHash (a1 : ACAutomaton) (n1 : Nat) (m : Nat)
    (c : Char) :
    lookupChild
        { a1 with
          entries :=
            Function.update a1.entries n1
              (assocAssign '#' Val.endmark (a1.entries n1)) } m c =
      if m = n1 ∧ c = '#' then some Val.endmark else lookupChild a1 m c := by
  have h := lookupChild_update a1 a1.size n1
    (assocAssign '#' Val.endmark (a1.entries n1)) m c
  rw [h]
  by_cases hm : m = n1
  · subst hm
    rw [if_pos rfl, find?_map_assocAssign]
    by_cases hc : c = '#'
    · rw [if_pos hc, if_pos (show _ ∧ c = '#' from ⟨by trivial, hc⟩)]
    · rw [if_neg hc, if_neg (fun h => hc h.2)]
      rfl
  · rw [if_neg hm, if_neg (fun h => hm h.1)]

/-- Keys of a dict after assignment. -/
theorem mem_keys_assocAssign (c0 : Char) (v0 : Val) :
    ∀ (l : List (Char × Val)) (x : Char),
      x ∈ (assocAssign c0 v0 l).map Prod.fst → x = c0 ∨ x ∈ l.map Prod.fst := by
  intro l
  induction l with
  | nil => intro x hx; simp [assocAssign] at hx; exact Or.inl hx
  | cons q rest ih =>
    intro x hx
    obtain ⟨c', v'⟩ := q
    simp only [assocAssign] at hx
    split at hx
    · rename_i hcc
      simp only [List.map_cons, List.mem_cons] at hx
      rcases hx with rfl | hx
      · exact Or.inl rfl
      · exact Or.inr (by simp [hx])
    · simp only [List.map_cons, List.mem_cons] at hx
      rcases hx with rfl | hx
      · exact Or.inr (by simp)
      · rcases ih x hx with h | h
        · exact Or.inl h
        · exact Or.inr (by simp [h])

/-- Assignment preserves distinctness of keys. -/
theorem nodup_keys_assocAssign (c0 : Char) (v0 : Val) :
    ∀ (l : List (Char × Val)), (l.map Prod.fst).Nodup →
      ((assocAssign c0 v0 l).map Prod.fst).Nodup := by
  intro l
  induction l with
  | nil => intro _; simp [assocAssign]
  | cons q rest ih =>
    intro hnd
    obtain ⟨c', v'⟩ := q
    simp only [List.map_cons, List.nodup_cons] at hnd
    simp only [assocAssign]
    split
    · rename_i hcc
      simp only [beq_iff_eq] at hcc
      subst hcc
      simp only [List.map_cons, List.nodup_cons]
      exact hnd
    · rename_i hcc
      simp only [beq_iff_eq] at hcc
      simp only [List.map_cons, List.nodup_cons]
      refine ⟨?_, ih hnd.2⟩
      intro hx
      rcases mem_keys_assocAssign c0 v0 rest c' hx with h | h
      · exact hcc h
      · exact hnd.1 h

/-- The empty automaton is a well-formed trie. -/
theorem emptyAC_WF : TrieWF emptyAC := by
  refine ⟨Nat.one_pos, ?_, ?_, ?_, ?_, ?_⟩
  · intro n; simp [emptyAC]
  · intro n c j h; simp [lookupChild, emptyAC] at h
  · intro n1 c1 n2 c2 j h1 h2; simp [lookupChild, emptyAC] at h1
  · intro n _; rfl
  · intro n; rfl

/-- The walk of `add_word` preserves trie well-formedness; the final node
stays inside the arena and the arena only grows. -/
theorem addWordGo_WF :
    ∀ (w : List Char) (a : ACAutomaton) (n : Nat) (a' : ACAutomaton) (n' : Nat),
      TrieWF a → n < a.size → addWordGo a n w = some (a', n') →
      TrieWF a' ∧ a.size ≤ a'.size ∧ n' < a'.size := by
  intro w
  induction w with
  | nil =>
    intro a n a' n' hWF hn heq
    simp only [addWordGo, Option.some.injEq, Prod.mk.injEq] at heq
    obtain ⟨rfl, rfl⟩ := heq
    exact ⟨hWF, Nat.le_refl _, hn⟩
  | cons c cs ih =>
    intro a n a' n' hWF hn heq
    simp only [addWordGo] at heq
    split at heq
    · rename_i j hl
      have hj := (hWF.child_gt n c j hl).2
      exact ih _ _ _ _ hWF hj heq
    · exact absurd heq (by simp)
    · rename_i hl
      have hWF2 : TrieWF
          { size := a.size + 1,
            entries := Function.update a.entries n
              (a.entries n ++ [(c, Val.node a.size)]),
            fail := a.fail } := by
        refine ⟨Nat.succ_pos _, ?_, ?_, ?_, ?_, hWF.fail_unset⟩
        · intro m
          show ((Function.update a.entries n
            (a.entries n ++ [(c, Val.node a.size)]) m).map Prod.fst).Nodup
          by_cases hm : m = n
          · subst hm
            rw [Function.update_same, List.map_append]
            rw [List.nodup_append]
            refine ⟨hWF.keys_nodup m, by simp, ?_⟩
            intro x hx hx2
            simp only [List.map_cons, List.map_nil, List.mem_singleton] at hx2
            subst hx2
            unfold lookupChild at hl
            rw [Option.map_eq_none'] at hl
            rw [List.find?_eq_none] at hl
            obtain ⟨⟨xc, xv⟩, hxm, hxc⟩ := List.mem_map.mp hx
            simp only at hxc
            subst hxc
            exact hl _ hxm (by simp)
          · rw [Function.update_noteq hm]
            exact hWF.keys_nodup m
        · intro m c' j hlk
          rw [lookupChild_setdefault a n c hl] at hlk
          split at hlk
          · rename_i hcond
            simp only [Option.some.injEq, Val.node.injEq] at hlk
            obtain ⟨hm5, _⟩ := hcond
            refine ⟨by omega, ?_⟩
            show j < a.size + 1
            omega
          · have h2 := hWF.child_gt m c' j hlk
            exact ⟨h2.1, by show j < a.size + 1; omega⟩
        · intro n1 c1 n2 c2 j h1 h2
          rw [lookupChild_setdefault a n c hl] at h1 h2
          split at h1
          · rename_i hcond1
            simp only [Option.some.injEq, Val.node.injEq] at h1
            split at h2
            · rename_i hcond2
              exact ⟨hcond1.1.trans hcond2.1.symm, hcond1.2.trans hcond2.2.symm⟩
            · have h3 := (hWF.child_gt n2 c2 j h2).2
              exact absurd h3 (by omega)
          · split at h2
            · rename_i hcond2
              simp only [Option.some.injEq, Val.node.injEq] at h2
              have h3 := (hWF.child_gt n1 c1 j h1).2
              exact absurd h3 (by omega)
            · exact hWF.parent_unique n1 c1 n2 c2 j h1 h2
        · intro m hm
          have hm' : a.size + 1 ≤ m := hm
          show Function.update a.entries n
            (a.entries n ++ [(c, Val.node a.size)]) m = []
          rw [Function.update_noteq (by omega)]
          exact hWF.out_empty m (by omega)
      have h4 := ih _ _ _ _ hWF2 (Nat.lt_succ_self _) heq
      have hs2 : a.size ≤ a.size + 1 := Nat.le_succ _
      exact ⟨h4.1, Nat.le_trans hs2 h4.2.1, h4.2.2⟩

/-- `add_word` preserves trie well-formedness and never shrinks the
arena. -/
theorem add_word_WF (a : ACAutomaton) (w : List Char) (a' : ACAutomaton)
    (hWF : TrieWF a) (heq : add_word a w = some a') :
    TrieWF a' ∧ a.size ≤ a'.size := by
  unfold add_word at heq
  obtain ⟨⟨a1, n1⟩, hgo, hmk⟩ := Option.map_eq_some'.mp heq
  obtain ⟨hWF1, hle, hn1⟩ := addWordGo_WF w a 0 a1 n1 hWF hWF.size_pos hgo
  subst hmk
  refine ⟨⟨hWF1.size_pos, ?_, ?_, ?_, ?_, hWF1.fail_unset⟩, hle⟩
  · intro m
    show ((Function.update a1.entries n1
      (assocAssign '#' Val.endmark (a1.entries n1)) m).map Prod.fst).Nodup
    by_cases hm : m = n1
    · subst hm
      rw [Function.update_same]
      exact nodup_keys_assocAssign '#' Val.endmark _ (hWF1.keys_nodup m)
    · rw [Function.update_noteq hm]
      exact hWF1.keys_nodup m
  · intro m c' j hlk
    rw [lookupChild_assignHash] at hlk
    split at hlk
    · exact absurd hlk (by simp)
    · exact hWF1.child_gt m c' j hlk
  · intro n1' c1 n2 c2 j h1 h2
    rw [lookupChild_assignHash] at h1 h2
    split at h1
    · exact absurd h1 (by simp)
    · split at h2
      · exact absurd h2 (by simp)
      · exact hWF1.parent_unique n1' c1 n2 c2 j h1 h2
  · intro m hm
    have hm' : a1.size ≤ m := hm
    show Function.update a1.entries n1
      (assocAssign '#' Val.endmark (a1.entries n1)) m = []
    rw [Function.update_noteq (by omega)]
    exact hWF1.out_empty m hm'

/-- Building from a pattern list preserves trie well-formedness. -/
theorem addWords_WF :
    ∀ (ws : List (List Char)) (a a' : ACAutomaton),
      TrieWF a → addWords a ws = some a' → TrieWF a' := by
  intro ws
  induction ws with
  | nil =>
    intro a a' h heq
    simp only [addWords, List.foldl_nil, Option.some.injEq] at heq
    subst heq
    exact h
  | cons w ws ih =>
    intro a a' h heq
    rw [addWords_cons] at heq
    rcases hw : add_word a w with _ | x
    · rw [hw] at heq; simp at heq
    · rw [hw, Option.some_bind] at heq
      exact ih _ _ (add_word_WF a w x h hw).1 heq

/-- The walk of a '#'-free word never creates a "#" edge. -/
theorem addWordGo_NH :
    ∀ (w : List Char) (a : ACAutomaton) (n : Nat) (a' : ACAutomaton) (n' : Nat),
      ('#' : Char) ∉ w → NoHashEdge a → addWordGo a n w = some (a', n') →
      NoHashEdge a' := by
  intro w
  induction w with
  | nil =>
    intro a n a' n' _ h heq
    simp only [addWordGo, Option.some.injEq, Prod.mk.injEq] at heq
    obtain ⟨rfl, rfl⟩ := heq
    exact h
  | cons c cs ih =>
    intro a n a' n' hw h heq
    simp only [addWordGo] at heq
    split at heq
    · exact ih _ _ _ _ (fun hh => hw (List.mem_cons_of_mem c hh)) h heq
    · exact absurd heq (by simp)
    · rename_i hl
      refine ih _ _ _ _ (fun hh => hw (List.mem_cons_of_mem c hh)) ?_ heq
      intro m j hlk
      rw [lookupChild_setdefault a n c hl] at hlk
      split at hlk
      · rename_i hcond
        exact hw (hcond.2 ▸ List.mem_cons_self c cs)
      · exact h m j hlk

/-- `add_word` with a '#'-free word never creates a "#" edge. -/
theorem add_word_NH (a : ACAutomaton) (w : List Char) (a' : ACAutomaton)
    (hw : ('#' : Char) ∉ w) (h : NoHashEdge a) (heq : add_word a w = some a') :
    NoHashEdge a' := by
  unfold add_word at heq
  obtain ⟨⟨a1, n1⟩, hgo, hmk⟩ := Option.map_eq_some'.mp heq
  have h1 := addWordGo_NH w a 0 a1 n1 hw h hgo
  subst hmk
  intro m j hlk
  rw [lookupChild_assignHash] at hlk
  split at hlk
  · exact absurd hlk (by simp)
  · exact h1 m j hlk

/-- Building from '#'-free patterns never creates a "#" edge. -/
theorem addWords_NH :
    ∀ (ws : List (List Char)) (a a' : ACAutomaton),
      (∀ w ∈ ws, ('#' : Char) ∉ w) → NoHashEdge a → addWords a ws = some a' →
      NoHashEdge a' := by
  intro ws
  induction ws with
  | nil =>
    intro a a' _ h heq
    simp only [addWords, List.foldl_nil, Option.some.injEq] at heq
    subst heq
    exact h
  | cons w ws ih =>
    intro a a' hws h heq
    rw [addWords_cons] at heq
    rcases hw : add_word a w with _ | x
    · rw [hw] at heq; simp at heq
    · rw [hw, Option.some_bind] at heq
      exact ih _ _ (fun w' hw' => hws w' (List.mem_cons_of_mem w hw'))
        (add_word_NH a w x (hws w (List.mem_cons_self w ws)) h hw) heq

/-- The empty automaton has no "#" edge. -/
theorem emptyAC_NH : NoHashEdge emptyAC := by
  intro n j h
  simp [lookupChild, emptyAC] at h

/-- Extending a walk by one character. -/
theorem walkP_snoc (a : ACAutomaton) (cs : List Char) (c : Char) :
    walkP a (cs ++ [c]) = (walkP a cs).bind fun m =>
      match lookupChild a m c with
      | some (Val.node j) => some j
      | _ => none := by
  unfold walkP
  rw [walkFrom_append]
  cases walkFrom a 0 cs with
  | none => rfl
  | some m =>
    simp only [Option.some_bind]
    show walkFrom a m [c] = _
    cases hl : lookupChild a m c with
    | none => simp [walkFrom, hl]
    | some v =>
      cases v with
      | node j => simp [walkFrom, hl]
      | endmark => simp [walkFrom, hl]

/-- The fail-chain walk of `build_fail`, run on a state whose fail pointers
are correct up to depth `d`, finds the longest suffix of the start node's
path whose node has an outgoing `c` edge. -/
theorem findFailFrom_walkRes (a b : ACAutomaton) (hWF : TrieWF a)
    (hent : b.entries = a.entries) (c : Char) (d : Nat)
    (hupto : FailsCorrectUpTo a b d) :
    ∀ (fuel : Nat) (s : List Char) (m : Nat), walkP a s = some m →
      s.length < fuel → s.length ≤ d →
      WalkRes a c s (findFailFrom b c fuel m) := by
  intro fuel
  induction fuel with
  | zero => intro s m _ h2 _; omega
  | succ fuel ih =>
    intro s m hs hlen hd
    simp only [findFailFrom]
    by_cases hm : m = 0
    · subst hm
      rw [if_pos rfl]
      have hse : s = [] := walkP_eq_zero a hWF s hs
      subst hse
      exact ⟨0, Nat.le_refl _, hs, fun k' h => absurd h (Nat.not_lt_zero k'),
        Or.inr rfl⟩
    · rw [if_neg hm]
      by_cases hedge : (lookupChild b m c).isSome
      · rw [if_pos hedge]
        rw [lookupChild_ext a b hent] at hedge
        exact ⟨0, Nat.zero_le _, hs, fun k' h => absurd h (Nat.not_lt_zero k'),
          Or.inl hedge⟩
      · rw [if_neg hedge]
        have hsne : s ≠ [] := by
          intro h
          subst h
          simp only [walkP, walkFrom, Option.some.injEq] at hs
          exact hm hs.symm
        have hfail := hupto s m hs hsne hd
        have heff : effFail b m = failIdx a s := by simp [effFail, hfail]
        obtain ⟨k0, hk01, hk02, hk03, hk04, hk05⟩ := lps_spec a s hsne
        obtain ⟨m2, hm2⟩ := Option.isSome_iff_exists.mp hk04
        have hfi : failIdx a s = m2 := by
          unfold failIdx
          rw [hk03, hm2]
          rfl
        rw [heff, hfi]
        have hdl : (s.drop k0).length = s.length - k0 := List.length_drop k0 s
        obtain ⟨k, hk1, hk2, hk3, hk4⟩ :=
          ih (s.drop k0) m2 hm2 (by omega) (by omega)
        rw [drop_add] at hk2 hk4
        refine ⟨k0 + k, by omega, hk2, ?_, hk4⟩
        intro k' hk'
        by_cases h0 : k' = 0
        · subst h0
          simp only [List.drop_zero]
          rw [hs, Option.some_bind]
          rw [lookupChild_ext a b hent] at hedge
          exact Option.not_isSome_iff_eq_none.mp hedge
        · by_cases hlt : k' < k0
          · rw [hk05 k' (by omega) hlt]
            rfl
          · have := hk3 (k' - k0) (by omega)
            rwa [drop_add, Nat.add_sub_cancel' (by omega)] at this

/-- On a state whose fail pointers are correct up to the parent's depth,
`build_fail`'s per-child computation returns exactly the node of the
longest proper path-suffix of the child's path. -/
theorem resolveFail_correct (a b : ACAutomaton) (hWF : TrieWF a)
    (hEM : EndmarkOnlyHash a) (hent : b.entries = a.entries)
    (hsize : b.size = a.size) (d : Nat) (hupto : FailsCorrectUpTo a b d)
    (cs : List Char) (p : Nat) (hcs : walkP a cs = some p)
    (hne : cs ≠ []) (hd : cs.length ≤ d) (c : Char) (hc : c ≠ '#')
    (q : Nat) (_hq : lookupChild a p c = some (Val.node q)) :
    resolveFail b c (effFail b p) = failIdx a (cs ++ [c]) := by
  have hfp := hupto cs p hcs hne hd
  have heff : effFail b p = failIdx a cs := by simp [effFail, hfp]
  obtain ⟨k0, hk01, hk02, hk03, hk04, hk05⟩ := lps_spec a cs hne
  obtain ⟨m1, hm1⟩ := Option.isSome_iff_exists.mp hk04
  have hfi : failIdx a cs = m1 := by
    unfold failIdx
    rw [hk03, hm1]
    rfl
  have hbound := walkP_length_lt_size a hWF cs p hcs
  have hdl : (cs.drop k0).length = cs.length - k0 := List.length_drop k0 cs
  obtain ⟨k, hk1, hk2, hk3, hk4⟩ :=
    findFailFrom_walkRes a b hWF hent c d hupto b.size (cs.drop k0) m1 hm1
      (by omega) (by omega)
  rw [drop_add] at hk2 hk4
  unfold resolveFail
  rw [heff, hfi, lookupChild_ext a b hent]
  set r := findFailFrom b c b.size m1 with hr
  have hKle : k0 + k ≤ cs.length := by omega
  have hmax : ∀ k', 1 ≤ k' → k' < k0 + k →
      walkP a ((cs ++ [c]).drop k') = none := by
    intro k' h1 h2
    rw [drop_append_le cs [c] k' (by omega), walkP_snoc]
    by_cases hlt : k' < k0
    · rw [hk05 k' h1 hlt]
      rfl
    · have h3 := hk3 (k' - k0) (by omega)
      rw [drop_add, Nat.add_sub_cancel' (by omega)] at h3
      cases hw : walkP a (cs.drop k') with
      | none => rfl
      | some m3 =>
        rw [hw, Option.some_bind] at h3
        show (match lookupChild a m3 c with
          | some (Val.node j) => some j
          | _ => none) = none
        rw [h3]
  cases hlr : lookupChild a r c with
  | none =>
    rcases hk4 with hk4 | hk4
    · rw [hlr] at hk4
      exact absurd hk4 (by simp)
    · rw [hk4] at hk2
      have hr0 : r = 0 := by
        simp only [walkP, walkFrom, Option.some.injEq] at hk2
        exact hk2.symm
      have hK : cs.length ≤ k0 + k := by
        have := List.drop_eq_nil_iff.mp hk4
        omega
      have hlps : lps a (cs ++ [c]) = [] := by
        have h0 : (cs ++ [c]).drop (cs ++ [c]).length = [] :=
          List.drop_eq_nil_of_le (Nat.le_refl _)
        have hchar := lps_char a (cs ++ [c]) (cs ++ [c]).length (by simp)
          (by simp only [List.length_append, List.length_cons,
            List.length_nil]; omega)
          (Nat.le_refl _)
          (by rw [h0]; simp [walkP, walkFrom])
          (by
            intro k' h1 h2
            simp only [List.length_append, List.length_cons,
              List.length_nil] at h2
            by_cases hcs' : k' < cs.length
            · exact hmax k' h1 (by omega)
            · have hk' : k' = cs.length := by omega
              subst hk'
              rw [drop_append_le cs [c] cs.length (Nat.le_refl _),
                List.drop_eq_nil_of_le (Nat.le_refl _), List.nil_append]
              show walkFrom a 0 [c] = none
              simp only [walkFrom]
              rw [← hr0, hlr])
        rw [hchar, h0]
      show (0 : Nat) = failIdx a (cs ++ [c])
      unfold failIdx
      rw [hlps]
      rfl
  | some v =>
    cases v with
    | endmark => exact absurd (hEM r c hlr) hc
    | node j =>
      have hσK : (cs ++ [c]).drop (k0 + k) = cs.drop (k0 + k) ++ [c] :=
        drop_append_le cs [c] (k0 + k) hKle
      have hwσ : walkP a ((cs ++ [c]).drop (k0 + k)) = some j := by
        rw [hσK, walkP_snoc, hk2, Option.some_bind, hlr]
      have hlps : lps a (cs ++ [c]) = (cs ++ [c]).drop (k0 + k) := by
        apply lps_char a (cs ++ [c]) (k0 + k) (by simp) (by omega)
          (by simp only [List.length_append, List.length_cons,
            List.length_nil]; omega)
          (by rw [hwσ]; simp)
        exact hmax
      show j = failIdx a (cs ++ [c])
      unfold failIdx
      rw [hlps, hwσ]
      rfl

/-- Setting one fresh fail pointer decrements the unset count. -/
theorem unsetCount_setFail (b : ACAutomaton) (j v : Nat) (hj : j < b.size)
    (hnone : b.fail j = none) :
    unsetCount (setFail b j v) + 1 = unsetCount b := by
  unfold unsetCount
  have hmem : j ∈ (Finset.range b.size).filter fun n => b.fail n = none := by
    simp only [Finset.mem_filter, Finset.mem_range]
    exact ⟨hj, hnone⟩
  have hsz : (setFail b j v).size = b.size := rfl
  have hset : ((Finset.range (setFail b j v).size).filter
      fun n => (setFail b j v).fail n = none) =
      ((Finset.range b.size).filter fun n => b.fail n = none).erase j := by
    rw [hsz]
    ext m
    simp only [Finset.mem_filter, Finset.mem_range, Finset.mem_erase]
    constructor
    · rintro ⟨hm1, hm2⟩
      by_cases hmj : m = j
      · subst hmj
        have hv : (setFail b m v).fail m = some v := Function.update_same _ _ _
        rw [hv] at hm2
        exact absurd hm2 (by simp)
      · have hv : (setFail b j v).fail m = b.fail m := Function.update_noteq hmj _ _
        rw [hv] at hm2
        exact ⟨hmj, hm1, hm2⟩
    · rintro ⟨hmj, hm1, hm2⟩
      refine ⟨hm1, ?_⟩
      have hv : (setFail b j v).fail m = b.fail m := Function.update_noteq hmj _ _
      rw [hv, hm2]
  rw [hset, Finset.card_erase_of_mem hmem]
  have hpos : 0 < ((Finset.range b.size).filter fun n => b.fail n = none).card :=
    Finset.card_pos.mpr ⟨j, hmem⟩
  omega

/-- What one run of the seeding loop does: every non-"#" child of the
iterated pairs gets fail = root and is enqueued exactly once; everything
else is untouched; the unset count drops by the queue length. -/
theorem seedRoot_step (a : ACAutomaton) (hWF : TrieWF a) :
    ∀ (l : List (Char × Val)) (b : ACAutomaton),
      b.size = a.size →
      (∀ p ∈ l, p ∈ a.entries 0) → ((l.map Prod.fst).Nodup) →
      (∀ c n, (c, Val.node n) ∈ l → b.fail n = none) →
      (seedRoot b l).1.entries = b.entries ∧
      (seedRoot b l).1.size = b.size ∧
      (∀ m, (∀ c, ¬ (c, Val.node m) ∈ l) →
        (seedRoot b l).1.fail m = b.fail m) ∧
      (∀ c n, (c, Val.node n) ∈ l → c ≠ '#' →
        n ∈ (seedRoot b l).2 ∧ (seedRoot b l).1.fail n = some 0) ∧
      (∀ n ∈ (seedRoot b l).2, ∃ c, c ≠ '#' ∧ (c, Val.node n) ∈ l) ∧
      (seedRoot b l).2.Nodup ∧
      unsetCount b = unsetCount (seedRoot b l).1 + (seedRoot b l).2.length := by
  intro l
  induction l with
  | nil =>
    intro b hbs hsub hnd hfresh
    refine ⟨rfl, rfl, fun m _ => rfl, ?_, ?_, List.nodup_nil, ?_⟩
    · intro c n hmem; simp at hmem
    · intro n hn; simp [seedRoot] at hn
    · simp [seedRoot]
  | cons p rest ih =>
    intro b hbs hsub hnd hfresh
    obtain ⟨c, v⟩ := p
    simp only [List.map_cons, List.nodup_cons] at hnd
    by_cases hc : c = '#'
    · have hseq : seedRoot b ((c, v) :: rest) = seedRoot b rest := by
        simp only [seedRoot]
        rw [if_pos (by simp [hc])]
      obtain ⟨A, B, C, D, E, F, G⟩ := ih b hbs
        (fun p hp => hsub p (List.mem_cons_of_mem _ hp)) hnd.2
        (fun c' n hm => hfresh c' n (List.mem_cons_of_mem _ hm))
      rw [hseq]
      refine ⟨A, B, ?_, ?_, ?_, F, G⟩
      · intro m hm
        exact C m fun c' hc' => hm c' (List.mem_cons_of_mem _ hc')
      · intro c' n hmem hc'
        rcases List.mem_cons.mp hmem with heq | hmem'
        · simp only [Prod.mk.injEq] at heq
          exact absurd (heq.1.trans hc) hc'
        · exact D c' n hmem' hc'
      · intro n hn
        obtain ⟨c', hc', hm⟩ := E n hn
        exact ⟨c', hc', List.mem_cons_of_mem _ hm⟩
    · cases v with
      | endmark =>
        have hseq : seedRoot b ((c, Val.endmark) :: rest) = seedRoot b rest := by
          simp only [seedRoot]
          rw [if_neg (by simp [hc])]
        obtain ⟨A, B, C, D, E, F, G⟩ := ih b hbs
          (fun p hp => hsub p (List.mem_cons_of_mem _ hp)) hnd.2
          (fun c' n hm => hfresh c' n (List.mem_cons_of_mem _ hm))
        rw [hseq]
        refine ⟨A, B, ?_, ?_, ?_, F, G⟩
        · intro m hm
          exact C m fun c' hc' => hm c' (List.mem_cons_of_mem _ hc')
        · intro c' n hmem hc'
          rcases List.mem_cons.mp hmem with heq | hmem'
          · simp only [Prod.mk.injEq] at heq
            exact absurd heq.2 (by simp)
          · exact D c' n hmem' hc'
        · intro n hn
          obtain ⟨c', hc', hm⟩ := E n hn
          exact ⟨c', hc', List.mem_cons_of_mem _ hm⟩
      | node child =>
        have hlkc : lookupChild a 0 c = some (Val.node child) :=
          lookupChild_of_mem a hWF 0 c _ (hsub _ (List.mem_cons_self _ _))
        have hchild_lt : child < a.size := (hWF.child_gt 0 c child hlkc).2
        have hchild_fresh : b.fail child = none :=
          hfresh c child (List.mem_cons_self _ _)
        have hchild_once : ∀ c'', (c'', Val.node child) ∈ rest → False := by
          intro c'' hm
          have hl2 : lookupChild a 0 c'' = some (Val.node child) :=
            lookupChild_of_mem a hWF 0 c'' _
              (hsub _ (List.mem_cons_of_mem _ hm))
          obtain ⟨_, hcc⟩ := hWF.parent_unique 0 c'' 0 c child hl2 hlkc
          subst hcc
          exact hnd.1 (List.mem_map_of_mem Prod.fst hm)
        have hseq : seedRoot b ((c, Val.node child) :: rest) =
            ((seedRoot (setFail b child 0) rest).1,
              child :: (seedRoot (setFail b child 0) rest).2) := by
          simp only [seedRoot]
          rw [if_neg (by simp [hc])]
        obtain ⟨A, B, C, D, E, F, G⟩ := ih (setFail b child 0) hbs
          (fun p hp => hsub p (List.mem_cons_of_mem _ hp)) hnd.2
          (fun c' n hm => by
            have hne : n ≠ child := fun h => hchild_once c' (h ▸ hm)
            have hv : (setFail b child 0).fail n = b.fail n :=
              Function.update_noteq hne _ _
            rw [hv]
            exact hfresh c' n (List.mem_cons_of_mem _ hm))
        rw [hseq]
        refine ⟨?_, ?_, ?_, ?_, ?_, ?_, ?_⟩
        · rw [A]; rfl
        · rw [B]; rfl
        · intro m hm
          have hmc : m ≠ child := fun h =>
            hm c (h ▸ List.mem_cons_self (c, Val.node child) rest)
          rw [C m fun c' hc' => hm c' (List.mem_cons_of_mem _ hc')]
          exact Function.update_noteq hmc _ _
        · intro c' n hmem hc'
          rcases List.mem_cons.mp hmem with heq | hmem'
          · simp only [Prod.mk.injEq, Val.node.injEq] at heq
            obtain ⟨rfl, rfl⟩ := heq
            refine ⟨List.mem_cons_self _ _, ?_⟩
            rw [C n fun c'' hc'' => hchild_once c'' hc'']
            exact Function.update_same _ _ _
          · obtain ⟨hq, hf⟩ := D c' n hmem' hc'
            exact ⟨List.mem_cons_of_mem _ hq, hf⟩
        · intro n hn
          rcases List.mem_cons.mp hn with rfl | hn'
          · exact ⟨c, hc, List.mem_cons_self _ _⟩
          · obtain ⟨c', hc', hm⟩ := E n hn'
            exact ⟨c', hc', List.mem_cons_of_mem _ hm⟩
        · refine List.nodup_cons.mpr ⟨?_, F⟩
          intro hmem
          obtain ⟨c', _, hm⟩ := E child hmem
          exact hchild_once c' hm
        · have h1 : unsetCount (setFail b child 0) + 1 = unsetCount b :=
            unsetCount_setFail b child 0 (by omega) hchild_fresh
          simp only [List.length_cons]
          omega

/-- What one popped BFS node does: every non-"#" child of the iterated
pairs receives the fail pointer computed by the while-loop — which equals
the longest-proper-path-suffix node — and is enqueued exactly once; all
other fail pointers are untouched; correctness up to depth `d` is
preserved; the unset count drops by the number of enqueued children. -/
theorem processEntries_step (a : ACAutomaton) (hWF : TrieWF a)
    (hEM : EndmarkOnlyHash a) (d : Nat) (cur : Nat) (cs : List Char)
    (hcs : walkP a cs = some cur) (hlen : cs.length = d) (hd1 : 1 ≤ d) :
    ∀ (l : List (Char × Val)) (b : ACAutomaton),
      b.entries = a.entries → b.size = a.size → FailsCorrectUpTo a b d →
      (∀ p ∈ l, p ∈ a.entries cur) → ((l.map Prod.fst).Nodup) →
      (∀ c n, (c, Val.node n) ∈ l → b.fail n = none) →
      (processEntries b cur l).1.entries = b.entries ∧
      (processEntries b cur l).1.size = b.size ∧
      FailsCorrectUpTo a (processEntries b cur l).1 d ∧
      (∀ m, (∀ c, ¬ (c, Val.node m) ∈ l) →
        (processEntries b cur l).1.fail m = b.fail m) ∧
      (∀ c n, (c, Val.node n) ∈ l → c ≠ '#' →
        n ∈ (processEntries b cur l).2 ∧
        (processEntries b cur l).1.fail n = some (failIdx a (cs ++ [c]))) ∧
      (∀ n ∈ (processEntries b cur l).2, ∃ c, c ≠ '#' ∧ (c, Val.node n) ∈ l) ∧
      (processEntries b cur l).2.Nodup ∧
      unsetCount b = unsetCount (processEntries b cur l).1 +
        (processEntries b cur l).2.length := by
  have hne : cs ≠ [] := by
    intro h; rw [h] at hlen; simp at hlen; omega
  have hdle : cs.length ≤ d := le_of_eq hlen
  intro l
  induction l with
  | nil =>
    intro b hent hsize hupto hsub hnd hfresh
    refine ⟨rfl, rfl, hupto, fun m _ => rfl, ?_, ?_, List.nodup_nil, ?_⟩
    · intro c n hmem; simp at hmem
    · intro n hn; simp [processEntries] at hn
    · simp [processEntries]
  | cons p rest ih =>
    intro b hent hsize hupto hsub hnd hfresh
    obtain ⟨c, v⟩ := p
    simp only [List.map_cons, List.nodup_cons] at hnd
    by_cases hc : c = '#'
    · have hseq : processEntries b cur ((c, v) :: rest) =
          processEntries b cur rest := by
        simp only [processEntries]
        rw [if_pos (by simp [hc])]
      obtain ⟨A, B, C, D, E, F, G, H⟩ := ih b hent hsize hupto
        (fun p hp => hsub p (List.mem_cons_of_mem _ hp)) hnd.2
        (fun c' n hm => hfresh c' n (List.mem_cons_of_mem _ hm))
      rw [hseq]
      refine ⟨A, B, C, ?_, ?_, ?_, G, H⟩
      · intro m hm
        exact D m fun c' hc' => hm c' (List.mem_cons_of_mem _ hc')
      · intro c' n hmem hc'
        rcases List.mem_cons.mp hmem with heq | hmem'
        · simp only [Prod.mk.injEq] at heq
          exact absurd (heq.1.trans hc) hc'
        · exact E c' n hmem' hc'
      · intro n hn
        obtain ⟨c', hc', hm⟩ := F n hn
        exact ⟨c', hc', List.mem_cons_of_mem _ hm⟩
    · cases v with
      | endmark =>
        have hseq : processEntries b cur ((c, Val.endmark) :: rest) =
            processEntries b cur rest := by
          simp only [processEntries]
          rw [if_neg (by simp [hc])]
        obtain ⟨A, B, C, D, E, F, G, H⟩ := ih b hent hsize hupto
          (fun p hp => hsub p (List.mem_cons_of_mem _ hp)) hnd.2
          (fun c' n hm => hfresh c' n (List.mem_cons_of_mem _ hm))
        rw [hseq]
        refine ⟨A, B, C, ?_, ?_, ?_, G, H⟩
        · intro m hm
          exact D m fun c' hc' => hm c' (List.mem_cons_of_mem _ hc')
        · intro c' n hmem hc'
          rcases List.mem_cons.mp hmem with heq | hmem'
          · simp only [Prod.mk.injEq] at heq
            exact absurd heq.2 (by simp)
          · exact E c' n hmem' hc'
        · intro n hn
          obtain ⟨c', hc', hm⟩ := F n hn
          exact ⟨c', hc', List.mem_cons_of_mem _ hm⟩
      | node child =>
        have hlkc : lookupChild a cur c = some (Val.node child) :=
          lookupChild_of_mem a hWF cur c _ (hsub _ (List.mem_cons_self _ _))
        have hchild_lt : child < a.size := (hWF.child_gt cur c child hlkc).2
        have hchild_fresh : b.fail child = none :=
          hfresh c child (List.mem_cons_self _ _)
        have hchildpath : walkP a (cs ++ [c]) = some child := by
          rw [walkP_snoc, hcs]
          simp only [Option.some_bind]
          rw [hlkc]
        have hchild_once : ∀ c'', (c'', Val.node child) ∈ rest → False := by
          intro c'' hm
          have hl2 : lookupChild a cur c'' = some (Val.node child) :=
            lookupChild_of_mem a hWF cur c'' _
              (hsub _ (List.mem_cons_of_mem _ hm))
          obtain ⟨_, hcc⟩ := hWF.parent_unique cur c'' cur c child hl2 hlkc
          subst hcc
          exact hnd.1 (List.mem_map_of_mem Prod.fst hm)
        have hrf : resolveFail b c (effFail b cur) = failIdx a (cs ++ [c]) :=
          resolveFail_correct a b hWF hEM hent hsize d hupto cs cur hcs hne
            hdle c hc child hlkc
        have hseq : processEntries b cur ((c, Val.node child) :: rest) =
            ((processEntries (setFail b child (resolveFail b c (effFail b cur)))
                cur rest).1,
              child :: (processEntries
                (setFail b child (resolveFail b c (effFail b cur)))
                cur rest).2) := by
          simp only [processEntries]
          rw [if_neg (by simp [hc])]
        have hupto' : FailsCorrectUpTo a
            (setFail b child (resolveFail b c (effFail b cur))) d := by
          intro cs' n' hw' hne' hd'
          have hne2 : n' ≠ child := by
            intro h
            subst h
            have heqp := path_unique a hWF n' cs' (cs ++ [c]) hw' hchildpath
            rw [heqp] at hd'
            simp only [List.length_append, List.length_cons,
              List.length_nil] at hd'
            omega
          have hv : (setFail b child (resolveFail b c (effFail b cur))).fail n' =
              b.fail n' := Function.update_noteq hne2 _ _
          rw [hv]
          exact hupto cs' n' hw' hne' hd'
        obtain ⟨A, B, C, D, E, F, G, H⟩ :=
          ih (setFail b child (resolveFail b c (effFail b cur))) hent hsize
            hupto' (fun p hp => hsub p (List.mem_cons_of_mem _ hp)) hnd.2
            (fun c' n hm => by
              have hne3 : n ≠ child := fun h => hchild_once c' (h ▸ hm)
              have hv : (setFail b child
                  (resolveFail b c (effFail b cur))).fail n = b.fail n :=
                Function.update_noteq hne3 _ _
              rw [hv]
              exact hfresh c' n (List.mem_cons_of_mem _ hm))
        rw [hseq]
        refine ⟨?_, ?_, C, ?_, ?_, ?_, ?_, ?_⟩
        · rw [A]; rfl
        · rw [B]; rfl
        · intro m hm
          have hmc : m ≠ child := fun h =>
            hm c (h ▸ List.mem_cons_self (c, Val.node child) rest)
          rw [D m fun c' hc' => hm c' (List.mem_cons_of_mem _ hc')]
          exact Function.update_noteq hmc _ _
        · intro c' n hmem hc'
          rcases List.mem_cons.mp hmem with heq | hmem'
          · simp only [Prod.mk.injEq, Val.node.injEq] at heq
            obtain ⟨rfl, rfl⟩ := heq
            refine ⟨List.mem_cons_self _ _, ?_⟩
            rw [D n fun c'' hc'' => hchild_once c'' hc'']
            have hv : (setFail b n (resolveFail b c' (effFail b cur))).fail n =
                some (resolveFail b c' (effFail b cur)) :=
              Function.update_same _ _ _
            rw [hv, hrf]
          · obtain ⟨hq, hf⟩ := E c' n hmem' hc'
            exact ⟨List.mem_cons_of_mem _ hq, hf⟩
        · intro n hn
          rcases List.mem_cons.mp hn with rfl | hn'
          · exact ⟨c, hc, List.mem_cons_self _ _⟩
          · obtain ⟨c', hc', hm⟩ := F n hn'
            exact ⟨c', hc', List.mem_cons_of_mem _ hm⟩
        · refine List.nodup_cons.mpr ⟨?_, G⟩
          intro hmem
          obtain ⟨c', _, hm⟩ := F child hmem
          exact hchild_once c' hm
        · have hltb : child < b.size := by rw [hsize]; exact hchild_lt
          have h1 : unsetCount (setFail b child
              (resolveFail b c (effFail b cur))) + 1 = unsetCount b :=
            unsetCount_setFail b child _ hltb hchild_fresh
          simp only [List.length_cons]
          omega

/-- A one-character walk is the lookup of that character at the root. -/
theorem walkP_one (a : ACAutomaton) (c : Char) :
    walkP a [c] = match lookupChild a 0 c with
      | some (Val.node j) => some j
      | _ => none := by
  show walkFrom a 0 [c] = _
  cases hlk : lookupChild a 0 c with
  | none => simp [walkFrom, hlk]
  | some v =>
    cases v with
    | node j => simp [walkFrom, hlk]
    | endmark => simp [walkFrom, hlk]

/-- A nonempty path splits into a path to the parent plus one edge. -/
theorem path_snoc_split (a : ACAutomaton) (cs : List Char) (n : Nat)
    (h : walkP a cs = some n) (hne : cs ≠ []) :
    ∃ l c p, cs = l ++ [c] ∧ walkP a l = some p ∧
      lookupChild a p c = some (Val.node n) := by
  rcases List.eq_nil_or_concat cs with rfl | ⟨l, c, rfl⟩
  · exact absurd rfl hne
  · rw [List.concat_eq_append, walkP_snoc] at h
    cases hw : walkP a l with
    | none => rw [hw] at h; exact absurd h (by simp)
    | some p =>
      rw [hw, Option.some_bind] at h
      cases hlk : lookupChild a p c with
      | none => rw [hlk] at h; simp at h
      | some v =>
        cases v with
        | endmark => rw [hlk] at h; simp at h
        | node j =>
          rw [hlk] at h
          simp only [Option.some.injEq] at h
          subst h
          exact ⟨l, c, p, List.concat_eq_append l c, hw, hlk⟩

/-- When the depth-`d` segment of the queue is exhausted, the invariant
holds one level deeper with the roles of the two segments swapped. -/
theorem bfsInv_shift (a b : ACAutomaton) (d : Nat) (q2 : List Nat)
    (inv : BfsInv a b d [] q2) : BfsInv a b (d + 1) q2 [] := by
  refine ⟨inv.entries_eq, inv.size_eq, by omega, ?_, inv.q2_nodup,
    List.nodup_nil, inv.q2_paths, ?_, ?_, ?_⟩
  · intro cs n hcs hne hd
    by_cases hdd : cs.length ≤ d
    · exact inv.upto cs n hcs hne hdd
    · have hdl : cs.length = d + 1 := by omega
      obtain ⟨l, c, p, heq, hw, hlk⟩ := path_snoc_split a cs n hcs hne
      have hld : l.length = d := by
        rw [heq] at hdl
        simp only [List.length_append, List.length_cons,
          List.length_nil] at hdl
        omega
      rcases inv.frontier l p c n hw hld hlk with ⟨h1, _, _⟩ | ⟨_, _, h3⟩
      · exact absurd h1 (List.not_mem_nil p)
      · rw [heq]; exact h3
  · intro n hn; exact absurd hn (List.not_mem_nil n)
  · intro cs p c n hcs hlen hlk
    left
    refine ⟨?_, ?_, List.not_mem_nil n⟩
    · have hnep : cs ≠ [] := by
        intro h; rw [h] at hlen; simp at hlen
      obtain ⟨l, c0, p0, heq, hw0, hlk0⟩ := path_snoc_split a cs p hcs hnep
      have hld : l.length = d := by
        rw [heq] at hlen
        simp only [List.length_append, List.length_cons,
          List.length_nil] at hlen
        omega
      rcases inv.frontier l p0 c0 p hw0 hld hlk0 with ⟨h1, _, _⟩ | ⟨_, h2, _⟩
      · exact absurd h1 (List.not_mem_nil p0)
      · exact h2
    · have hpath : walkP a (cs ++ [c]) = some n := by
        rw [walkP_snoc, hcs]
        simp only [Option.some_bind]
        rw [hlk]
      refine inv.deep_unset (cs ++ [c]) n hpath ?_
      simp only [List.length_append, List.length_cons, List.length_nil]
      omega
  · intro cs n hcs hll
    exact inv.deep_unset cs n hcs (by omega)

/-- When the whole queue is exhausted, every fail pointer is set to the
longest-proper-path-suffix node: no deeper frontier can exist. -/
theorem bfsInv_final (a b : ACAutomaton) (d : Nat) (inv : BfsInv a b d [] []) :
    ∀ cs n, walkP a cs = some n → cs ≠ [] →
      b.fail n = some (failIdx a cs) := by
  intro cs n hcs hne
  by_cases hlen : cs.length ≤ d
  · exact inv.upto cs n hcs hne hlen
  · exfalso
    have htake := walkP_take a cs n (d + 1) hcs
    obtain ⟨n2, hn2⟩ := Option.isSome_iff_exists.mp htake
    have hlen2 : (cs.take (d + 1)).length = d + 1 := by
      rw [List.length_take]; omega
    have hne2 : cs.take (d + 1) ≠ [] := by
      intro h; rw [h] at hlen2; simp at hlen2
    obtain ⟨l, c, p, heq, hw, hlk⟩ := path_snoc_split a _ n2 hn2 hne2
    have hld : l.length = d := by
      rw [heq] at hlen2
      simp only [List.length_append, List.length_cons,
        List.length_nil] at hlen2
      omega
    rcases inv.frontier l p c n2 hw hld hlk with ⟨h1, _, _⟩ | ⟨_, h2, _⟩
    · exact absurd h1 (List.not_mem_nil p)
    · exact absurd h2 (List.not_mem_nil n2)

/-- Popping the queue head preserves the BFS invariant and lets the
recursion (given as `ih`) finish the run. -/
theorem bfs_pop_step (a : ACAutomaton) (hWF : TrieWF a)
    (hEM : EndmarkOnlyHash a) (hNH : NoHashEdge a) (fuel : Nat)
    (ih : ∀ (b : ACAutomaton) (q1 q2 : List Nat) (d : Nat),
      BfsInv a b d q1 q2 → (q1 ++ q2).length + unsetCount b ≤ fuel →
      ∀ cs n, walkP a cs = some n → cs ≠ [] →
        (bfsRun b fuel (q1 ++ q2)).fail n = some (failIdx a cs))
    (b : ACAutomaton) (cur : Nat) (q1t q2 : List Nat) (d : Nat)
    (inv : BfsInv a b d (cur :: q1t) q2)
    (hfuel : ((cur :: q1t) ++ q2).length + unsetCount b ≤ fuel + 1) :
    ∀ cs n, walkP a cs = some n → cs ≠ [] →
      (bfsRun b (fuel + 1) ((cur :: q1t) ++ q2)).fail n =
        some (failIdx a cs) := by
  intro cs n hcs hne
  obtain ⟨cs0, hcs0, hlen0⟩ := inv.q1_paths cur (List.mem_cons_self _ _)
  have hcurq1t : cur ∉ q1t := (List.nodup_cons.mp inv.q1_nodup).1
  have hstep : bfsRun b (fuel + 1) ((cur :: q1t) ++ q2) =
      bfsRun (processEntries b cur (b.entries cur)).1 fuel
        ((q1t ++ q2) ++ (processEntries b cur (b.entries cur)).2) := rfl
  rw [hstep]
  have hentcur : b.entries cur = a.entries cur := by rw [inv.entries_eq]
  rw [hentcur]
  have hpair_lk : ∀ c m, (c, Val.node m) ∈ a.entries cur →
      lookupChild a cur c = some (Val.node m) := fun c m hm =>
    lookupChild_of_mem a hWF cur c _ hm
  have hpair_ne : ∀ c m, (c, Val.node m) ∈ a.entries cur → c ≠ '#' := by
    intro c m hm hc
    subst hc
    exact hNH cur m (hpair_lk _ _ hm)
  have hfresh : ∀ c m, (c, Val.node m) ∈ a.entries cur → b.fail m = none := by
    intro c m hm
    rcases inv.frontier cs0 cur c m hcs0 hlen0 (hpair_lk c m hm) with
      ⟨_, h2, _⟩ | ⟨h1, _, _⟩
    · exact h2
    · exact absurd (List.mem_cons_self cur q1t) h1
  obtain ⟨A, B, C, D, E, F, G, H⟩ := processEntries_step a hWF hEM d cur cs0
    hcs0 hlen0 inv.d_pos (a.entries cur) b inv.entries_eq inv.size_eq
    inv.upto (fun p hp => hp) (hWF.keys_nodup cur) hfresh
  have hdisj : ∀ x ∈ q2, x ∉ (processEntries b cur (a.entries cur)).2 := by
    intro x hx hxk
    obtain ⟨c, hcne, hm⟩ := F x hxk
    rcases inv.frontier cs0 cur c x hcs0 hlen0 (hpair_lk c x hm) with
      ⟨_, _, h3⟩ | ⟨h1, _, _⟩
    · exact h3 hx
    · exact absurd (List.mem_cons_self cur q1t) h1
  have hnotchild : ∀ p' c' n', p' ≠ cur →
      lookupChild a p' c' = some (Val.node n') →
      ∀ c'', ¬ (c'', Val.node n') ∈ a.entries cur := by
    intro p' c' n' hpc hlk c'' hm
    obtain ⟨hp, _⟩ := hWF.parent_unique p' c' cur c'' n' hlk (hpair_lk _ _ hm)
    exact hpc hp
  have inv' : BfsInv a (processEntries b cur (a.entries cur)).1 d q1t
      (q2 ++ (processEntries b cur (a.entries cur)).2) := by
    refine ⟨A.trans inv.entries_eq, B.trans inv.size_eq, inv.d_pos, C,
      (List.nodup_cons.mp inv.q1_nodup).2, ?_, ?_, ?_, ?_, ?_⟩
    · exact List.nodup_append.mpr ⟨inv.q2_nodup, G, hdisj⟩
    · intro m hm
      exact inv.q1_paths m (List.mem_cons_of_mem _ hm)
    · intro m hm
      rcases List.mem_append.mp hm with h1 | h2
      · exact inv.q2_paths m h1
      · obtain ⟨c, hcne, hmm⟩ := F m h2
        refine ⟨cs0 ++ [c], ?_, ?_⟩
        · rw [walkP_snoc, hcs0]
          simp only [Option.some_bind]
          rw [hpair_lk c m hmm]
        · simp only [List.length_append, List.length_cons, List.length_nil]
          omega
    · intro cs' p' c' n' hw' hld' hlk'
      rcases inv.frontier cs' p' c' n' hw' hld' hlk' with
        ⟨hp'mem, hnone', hn'q2⟩ | ⟨hp'not, hn'q2, hfail'⟩
      · rcases List.mem_cons.mp hp'mem with hpc | hp'tail
        · right
          rw [hpc] at hw' hlk'
          have hcseq : cs' = cs0 := path_unique a hWF cur cs' cs0 hw' hcs0
          have hm : (c', Val.node n') ∈ a.entries cur :=
            mem_of_lookupChild a cur c' _ hlk'
          have hcne' : c' ≠ '#' := hpair_ne c' n' hm
          obtain ⟨hkid, hfl⟩ := E c' n' hm hcne'
          refine ⟨by rw [hpc]; exact hcurq1t,
            List.mem_append.mpr (Or.inr hkid), ?_⟩
          rw [hcseq]
          exact hfl
        · left
          have hp'ne : p' ≠ cur := fun h => hcurq1t (h ▸ hp'tail)
          refine ⟨hp'tail, ?_, ?_⟩
          · rw [D n' (hnotchild p' c' n' hp'ne hlk')]
            exact hnone'
          · intro hmem
            rcases List.mem_append.mp hmem with h1 | h2
            · exact hn'q2 h1
            · obtain ⟨c'', _, hmm⟩ := F n' h2
              exact hnotchild p' c' n' hp'ne hlk' c'' hmm
      · right
        have hp'ne : p' ≠ cur := fun h =>
          hp'not (h ▸ List.mem_cons_self cur q1t)
        refine ⟨fun h => hp'not (List.mem_cons_of_mem _ h),
          List.mem_append.mpr (Or.inl hn'q2), ?_⟩
        rw [D n' (hnotchild p' c' n' hp'ne hlk')]
        exact hfail'
    · intro cs'' n'' hw'' hll
      have hnc : ∀ c'', ¬ (c'', Val.node n'') ∈ a.entries cur := by
        intro c'' hm
        have hpath : walkP a (cs0 ++ [c'']) = some n'' := by
          rw [walkP_snoc, hcs0]
          simp only [Option.some_bind]
          rw [hpair_lk c'' n'' hm]
        have heq2 := path_unique a hWF n'' cs'' (cs0 ++ [c'']) hw'' hpath
        rw [heq2] at hll
        simp only [List.length_append, List.length_cons,
          List.length_nil] at hll
        omega
      rw [D n'' hnc]
      exact inv.deep_unset cs'' n'' hw'' hll
  have hlq : ((cur :: q1t) ++ q2).length = q1t.length + q2.length + 1 := by
    simp only [List.cons_append, List.length_cons, List.length_append]
  rw [hlq] at hfuel
  have hfuel' : (q1t ++ (q2 ++ (processEntries b cur (a.entries cur)).2)).length
      + unsetCount (processEntries b cur (a.entries cur)).1 ≤ fuel := by
    simp only [List.length_append]
    omega
  have hres := ih (processEntries b cur (a.entries cur)).1 q1t
    (q2 ++ (processEntries b cur (a.entries cur)).2) d inv' hfuel' cs n hcs hne
  rw [← List.append_assoc] at hres
  exact hres

/-- The BFS of `build_fail`, started from a state satisfying the invariant
with enough fuel, sets every reachable node's fail pointer to its
longest-proper-path-suffix node. -/
theorem bfsRun_correct (a : ACAutomaton) (hWF : TrieWF a)
    (hEM : EndmarkOnlyHash a) (hNH : NoHashEdge a) :
    ∀ (fuel : Nat) (b : ACAutomaton) (q1 q2 : List Nat) (d : Nat),
      BfsInv a b d q1 q2 → (q1 ++ q2).length + unsetCount b ≤ fuel →
      ∀ cs n, walkP a cs = some n → cs ≠ [] →
        (bfsRun b fuel (q1 ++ q2)).fail n = some (failIdx a cs) := by
  intro fuel
  induction fuel with
  | zero =>
    intro b q1 q2 d inv hfuel cs n hcs hne
    have hq : q1 ++ q2 = [] := by
      have hl : (q1 ++ q2).length = 0 := by omega
      exact List.eq_nil_of_length_eq_zero hl
    obtain ⟨h1, h2⟩ := List.append_eq_nil.mp hq
    subst h1; subst h2
    show b.fail n = some (failIdx a cs)
    exact bfsInv_final a b d inv cs n hcs hne
  | succ fuel ih =>
    intro b q1 q2 d inv hfuel cs n hcs hne
    cases q1 with
    | nil =>
      cases hq2 : q2 with
      | nil =>
        subst hq2
        show b.fail n = some (failIdx a cs)
        exact bfsInv_final a b d inv cs n hcs hne
      | cons cur rest =>
        subst hq2
        have inv' : BfsInv a b (d + 1) (cur :: rest) [] :=
          bfsInv_shift a b d _ inv
        have hfuel' : ((cur :: rest) ++ []).length + unsetCount b ≤
            fuel + 1 := by
          simp only [List.append_nil, List.nil_append] at hfuel ⊢
          omega
        have hgoal := bfs_pop_step a hWF hEM hNH fuel ih b cur rest [] (d + 1)
          inv' hfuel' cs n hcs hne
        rw [List.append_nil] at hgoal
        exact hgoal
    | cons cur q1t =>
      exact bfs_pop_step a hWF hEM hNH fuel ih b cur q1t q2 d inv hfuel
        cs n hcs hne

/-- On a trie built from '#'-free patterns, `build_fail` stores in every
reachable non-root node's "fail" key the node of the longest proper suffix
of its root path that is itself a root path. -/
theorem build_fail_sets_all (a : ACAutomaton) (hWF : TrieWF a)
    (hEM : EndmarkOnlyHash a) (hNH : NoHashEdge a) :
    ∀ cs n, walkP a cs = some n → cs ≠ [] →
      (build_fail a).fail n = some (failIdx a cs) := by
  obtain ⟨S1, S2, S3, S4, S5, S6, S7⟩ := seedRoot_step a hWF (a.entries 0) a
    rfl (fun p hp => hp) (hWF.keys_nodup 0) (fun c m _ => hWF.fail_unset m)
  have hlk_of_path1 : ∀ cs' n', walkP a cs' = some n' → cs'.length = 1 →
      ∃ c, cs' = [c] ∧ lookupChild a 0 c = some (Val.node n') := by
    intro cs' n' hw hl
    have hne' : cs' ≠ [] := by intro h; rw [h] at hl; simp at hl
    obtain ⟨l, c, p, heq, hwl, hlk⟩ := path_snoc_split a cs' n' hw hne'
    have hl0 : l = [] := by
      rw [heq] at hl
      simp only [List.length_append, List.length_cons, List.length_nil] at hl
      exact List.eq_nil_of_length_eq_zero (by omega)
    subst hl0
    have h0 : (some 0 : Option Nat) = some p := hwl
    have hp0 : 0 = p := by
      simp only [Option.some.injEq] at h0
      exact h0
    subst hp0
    exact ⟨c, by rw [heq]; rfl, hlk⟩
  have hfi1 : ∀ c : Char, failIdx a [c] = 0 := by
    intro c
    simp [failIdx, lps, isPath, walkP, walkFrom]
  have inv1 : BfsInv a (seedRoot a (a.entries 0)).1 1
      (seedRoot a (a.entries 0)).2 [] := by
    refine ⟨S1, S2, le_refl 1, ?_, S6, List.nodup_nil, ?_, ?_, ?_, ?_⟩
    · intro cs' n' hw hne' hd
      have hl1 : cs'.length = 1 := by
        have hp := List.length_pos.mpr hne'
        omega
      obtain ⟨c, hceq, hlk⟩ := hlk_of_path1 cs' n' hw hl1
      have hm := mem_of_lookupChild a 0 c _ hlk
      have hc : c ≠ '#' := fun h => hNH 0 n' (h ▸ hlk)
      obtain ⟨_, hfl⟩ := S4 c n' hm hc
      rw [hceq, hfi1 c]
      exact hfl
    · intro m hm
      obtain ⟨c, hc, hmm⟩ := S5 m hm
      refine ⟨[c], ?_, rfl⟩
      rw [walkP_one, lookupChild_of_mem a hWF 0 c _ hmm]
    · intro m hm; exact absurd hm (List.not_mem_nil m)
    · intro cs' p' c' n' hw' hl' hlk'
      left
      obtain ⟨c0, hceq, hlk0⟩ := hlk_of_path1 cs' p' hw' hl'
      have hm0 := mem_of_lookupChild a 0 c0 _ hlk0
      have hc0 : c0 ≠ '#' := fun h => hNH 0 p' (h ▸ hlk0)
      have hp'pos : 0 < p' := (hWF.child_gt 0 c0 p' hlk0).1
      refine ⟨(S4 c0 p' hm0 hc0).1, ?_, List.not_mem_nil n'⟩
      have hnc : ∀ c'', ¬ (c'', Val.node n') ∈ a.entries 0 := by
        intro c'' hmm
        obtain ⟨hp, _⟩ := hWF.parent_unique p' c' 0 c'' n' hlk'
          (lookupChild_of_mem a hWF 0 c'' _ hmm)
        omega
      rw [S3 n' hnc]
      exact hWF.fail_unset n'
    · intro cs'' n'' hw'' hll
      have hnc : ∀ c'', ¬ (c'', Val.node n'') ∈ a.entries 0 := by
        intro c'' hmm
        have hpath : walkP a [c''] = some n'' := by
          rw [walkP_one, lookupChild_of_mem a hWF 0 c'' _ hmm]
        have heq2 := path_unique a hWF n'' cs'' [c''] hw'' hpath
        rw [heq2] at hll
        simp at hll
      rw [S3 n'' hnc]
      exact hWF.fail_unset n''
  have hua : unsetCount a = a.size := by
    unfold unsetCount
    rw [Finset.filter_true_of_mem fun n _ => hWF.fail_unset n,
      Finset.card_range]
  have hs2 : (seedRoot a (a.entries 0)).1.size = a.size := S2
  have hfuel : ((seedRoot a (a.entries 0)).2 ++ []).length +
      unsetCount (seedRoot a (a.entries 0)).1 ≤
      (seedRoot a (a.entries 0)).1.size := by
    simp only [List.append_nil]
    omega
  intro cs n hcs hne
  have hres := bfsRun_correct a hWF hEM hNH (seedRoot a (a.entries 0)).1.size
    (seedRoot a (a.entries 0)).1 (seedRoot a (a.entries 0)).2 [] 1 inv1 hfuel
    cs n hcs hne
  rw [List.append_nil] at hres
  rw [build_fail_eq]
  exact hres

/-- The longest proper path-suffix is a path reaching the fail-index node,
and it is strictly shorter than the original path. -/
theorem lps_walk (a : ACAutomaton) (cs : List Char) (hne : cs ≠ []) :
    walkP a (lps a cs) = some (failIdx a cs) ∧
    (lps a cs).length < cs.length := by
  obtain ⟨k, hk1, hk2, hk3, hk4, hk5⟩ := lps_spec a cs hne
  obtain ⟨v, hv⟩ := Option.isSome_iff_exists.mp hk4
  constructor
  · rw [hk3, hv]
    unfold failIdx
    rw [hk3, hv]
    rfl
  · rw [hk3, List.length_drop]
    have hp := List.length_pos.mpr hne
    omega

/-- C8 amended: on an automaton whose patterns avoid the reserved character
'#', after `build_fail` every non-root node's failure target is the node of
the longest proper suffix of its root path that is itself a root path; the
failure step strictly decreases depth (the target's path is strictly
shorter), and iterating the failure step reaches the root, so the failure
chain has no cycles. -/
theorem c8_amended_fail_longest_suffix (ws : List (List Char))
    (a : ACAutomaton) (hws : ∀ w ∈ ws, ('#' : Char) ∉ w)
    (hbuild : addWords emptyAC ws = some a) :
    FailTargetsLongestSuffix a ∧
    (∀ cs n, walkP a cs = some n → cs ≠ [] →
      walkP a (lps a cs) = some (effFail (build_fail a) n) ∧
      (lps a cs).length < cs.length) ∧
    (∀ cs n, walkP a cs = some n → cs ≠ [] →
      ∃ k, Nat.iterate (effFail (build_fail a)) k n = 0) := by
  have hWF := addWords_WF ws emptyAC a emptyAC_WF hbuild
  have hEM := addWords_endmark ws emptyAC a emptyAC_endmark hbuild
  have hNH := addWords_NH ws emptyAC a hws emptyAC_NH hbuild
  have hset := build_fail_sets_all a hWF hEM hNH
  have heff : ∀ cs n, walkP a cs = some n → cs ≠ [] →
      effFail (build_fail a) n = failIdx a cs := by
    intro cs n h1 h2
    unfold effFail
    rw [hset cs n h1 h2]
    rfl
  refine ⟨heff, ?_, ?_⟩
  · intro cs n h1 h2
    obtain ⟨hw, hlt⟩ := lps_walk a cs h2
    rw [heff cs n h1 h2]
    exact ⟨hw, hlt⟩
  · have main : ∀ (L : Nat) (cs : List Char) (n : Nat), cs.length ≤ L →
        walkP a cs = some n → cs ≠ [] →
        ∃ k, Nat.iterate (effFail (build_fail a)) k n = 0 := by
      intro L
      induction L with
      | zero =>
        intro cs n hL h1 h2
        have hp := List.length_pos.mpr h2
        omega
      | succ L ih =>
        intro cs n hL h1 h2
        obtain ⟨hw, hlt⟩ := lps_walk a cs h2
        by_cases hnil : lps a cs = []
        · refine ⟨1, ?_⟩
          have h0 : failIdx a cs = 0 := by
            unfold failIdx
            rw [hnil]
            rfl
          show effFail (build_fail a) n = 0
          rw [heff cs n h1 h2, h0]
        · obtain ⟨k, hk⟩ := ih (lps a cs) (failIdx a cs) (by omega) hw hnil
          refine ⟨k + 1, ?_⟩
          rw [Function.iterate_succ_apply, heff cs n h1 h2]
          exact hk
    intro cs n h1 h2
    exact main cs.length cs n (le_refl _) h1 h2

/-- C8 amended witness: in the compiled trie over the patterns "AB" and
"B", the node of the path "AB" (node 2) has as its failure target the node
of "B" (node 3), the longest proper path-suffix of "AB". -/
theorem c8_amended_witness :
    effFail (build_fail acABB) 2 = failIdx acABB ['A', 'B'] ∧
    failIdx acABB ['A', 'B'] = 3 :=
  ⟨(c8_amended_fail_longest_suffix [['A', 'B'], ['B']] acABB (by decide)
      rfl).1 ['A', 'B'] 2 (by decide) (by decide), by decide⟩

/-- The whole BFS never changes entries or size. -/
theorem bfsRun_frame :
    ∀ (fuel : Nat) (q : List Nat) (b : ACAutomaton),
      (bfsRun b fuel q).entries = b.entries ∧
      (bfsRun b fuel q).size = b.size := by
  intro fuel
  induction fuel with
  | zero =>
    intro q b
    cases q with
    | nil => exact ⟨rfl, rfl⟩
    | cons x xs => exact ⟨rfl, rfl⟩
  | succ fuel ih =>
    intro q b
    cases q with
    | nil => exact ⟨rfl, rfl⟩
    | cons cur rest =>
      have hstep : bfsRun b (fuel + 1) (cur :: rest) =
          bfsRun (processEntries b cur (b.entries cur)).1 fuel
            (rest ++ (processEntries b cur (b.entries cur)).2) := rfl
      rw [hstep]
      obtain ⟨h1, h2⟩ := ih (rest ++ (processEntries b cur (b.entries cur)).2)
        (processEntries b cur (b.entries cur)).1
      obtain ⟨h3, h4⟩ := processEntries_frame cur (b.entries cur) b
      exact ⟨h1.trans h3, h2.trans h4⟩

/-- `build_fail` changes only "fail" keys: entries and size are
untouched. -/
theorem build_fail_frame (a : ACAutomaton) :
    (build_fail a).entries = a.entries ∧ (build_fail a).size = a.size := by
  rw [build_fail_eq]
  obtain ⟨h1, h2⟩ := bfsRun_frame (seedRoot a (a.entries 0)).1.size
    (seedRoot a (a.entries 0)).2 (seedRoot a (a.entries 0)).1
  obtain ⟨h3, h4⟩ := seedRoot_frame (a.entries 0) a
  exact ⟨h1.trans h3, h2.trans h4⟩

/-- Child lookup is unaffected by `build_fail`. -/
theorem lookupChild_build_fail (a : ACAutomaton) (n : Nat) (c : Char) :
    lookupChild (build_fail a) n c = lookupChild a n c := by
  unfold lookupChild
  rw [(build_fail_frame a).1]

/-- The cursor-adjustment loop of `search` is the same loop as the
fail-resolution walk of `build_fail`. -/
theorem stepDown_eq (a : ACAutomaton) (c : Char) :
    ∀ (fuel : Nat) (n : Nat), stepDown a c fuel n = findFailFrom a c fuel n := by
  intro fuel
  induction fuel with
  | zero => intro n; rfl
  | succ fuel ih =>
    intro n
    simp only [stepDown, findFailFrom]
    rw [ih]

/-- Automata with the same path structure have the same
longest-proper-path-suffix function. -/
theorem lps_congr (a1 a2 : ACAutomaton)
    (h : ∀ cs, (walkP a1 cs).isSome = (walkP a2 cs).isSome) :
    ∀ cs, lps a1 cs = lps a2 cs := by
  intro cs
  induction cs with
  | nil => rfl
  | cons c tl ih =>
    show (if isPath a1 tl then tl else lps a1 tl) =
      (if isPath a2 tl then tl else lps a2 tl)
    have he : isPath a1 tl = isPath a2 tl := h tl
    rw [he, ih]

/-- At its only call site (a node already carrying the end-of-word key) the
length-recovery helper returns 0. -/
theorem get_word_length_zero (a : ACAutomaton) (fuel n : Nat)
    (hf : 0 < fuel) (h : (lookupChild a n '#').isSome) :
    get_word_length a fuel n = 0 := by
  cases fuel with
  | zero => omega
  | succ f =>
    simp only [get_word_length]
    by_cases hn : n = 0
    · rw [if_pos hn]
    · rw [if_neg hn, if_pos h]

/-- Lookup outside the allocated arena always misses. -/
theorem lookupChild_out (a : ACAutomaton) (hWF : TrieWF a) (m : Nat)
    (hm : a.size ≤ m) (c : Char) : lookupChild a m c = none := by
  unfold lookupChild
  rw [hWF.out_empty m hm]
  rfl

/-- Allocating one fresh child (the `node.setdefault(char, \x7b\x7d)` step of
`add_word`) preserves trie well-formedness. -/
theorem setdefault_WF (a : ACAutomaton) (n : Nat) (c : Char)
    (hWF : TrieWF a) (hn : n < a.size) (hl : lookupChild a n c = none) :
    TrieWF
      { size := a.size + 1,
        entries := Function.update a.entries n
          (a.entries n ++ [(c, Val.node a.size)]),
        fail := a.fail } := by
  refine ⟨Nat.succ_pos _, ?_, ?_, ?_, ?_, hWF.fail_unset⟩
  · intro m
    show ((Function.update a.entries n
      (a.entries n ++ [(c, Val.node a.size)]) m).map Prod.fst).Nodup
    by_cases hm : m = n
    · subst hm
      rw [Function.update_same, List.map_append]
      rw [List.nodup_append]
      refine ⟨hWF.keys_nodup m, by simp, ?_⟩
      intro x hx hx2
      simp only [List.map_cons, List.map_nil, List.mem_singleton] at hx2
      subst hx2
      unfold lookupChild at hl
      rw [Option.map_eq_none'] at hl
      rw [List.find?_eq_none] at hl
      obtain ⟨⟨xc, xv⟩, hxm, hxc⟩ := List.mem_map.mp hx
      simp only at hxc
      subst hxc
      exact hl _ hxm (by simp)
    · rw [Function.update_noteq hm]
      exact hWF.keys_nodup m
  · intro m c' j hlk
    rw [lookupChild_setdefault a n c hl] at hlk
    split at hlk
    · rename_i hcond
      simp only [Option.some.injEq, Val.node.injEq] at hlk
      obtain ⟨hm5, _⟩ := hcond
      refine ⟨by omega, ?_⟩
      show j < a.size + 1
      omega
    · have h2 := hWF.child_gt m c' j hlk
      exact ⟨h2.1, by show j < a.size + 1; omega⟩
  · intro n1 c1 n2 c2 j h1 h2
    rw [lookupChild_setdefault a n c hl] at h1 h2
    split at h1
    · rename_i hcond1
      simp only [Option.some.injEq, Val.node.injEq] at h1
      split at h2
      · rename_i hcond2
        exact ⟨hcond1.1.trans hcond2.1.symm, hcond1.2.trans hcond2.2.symm⟩
      · have h3 := (hWF.child_gt n2 c2 j h2).2
        exact absurd h3 (by omega)
    · split at h2
      · rename_i hcond2
        simp only [Option.some.injEq, Val.node.injEq] at h2
        have h3 := (hWF.child_gt n1 c1 j h1).2
        exact absurd h3 (by omega)
      · exact hWF.parent_unique n1 c1 n2 c2 j h1 h2
  · intro m hm
    have hm' : a.size + 1 ≤ m := hm
    show Function.update a.entries n
      (a.entries n ++ [(c, Val.node a.size)]) m = []
    rw [Function.update_noteq (by omega)]
    exact hWF.out_empty m (by omega)

/-- Allocating one fresh child keeps the marker confined to '#' keys. -/
theorem setdefault_EM (a : ACAutomaton) (n : Nat) (c : Char)
    (hEM : EndmarkOnlyHash a) (hl : lookupChild a n c = none) :
    EndmarkOnlyHash
      { size := a.size + 1,
        entries := Function.update a.entries n
          (a.entries n ++ [(c, Val.node a.size)]),
        fail := a.fail } := by
  intro m x hlk
  rw [lookupChild_setdefault a n c hl] at hlk
  split at hlk
  · exact absurd hlk (by simp)
  · exact hEM m x hlk

/-- Old walks survive the allocation of a fresh child, reaching the same
node. -/
theorem walkFrom_ext_mono (a : ACAutomaton) (n0 : Nat) (c0 : Char)
    (hl : lookupChild a n0 c0 = none) :
    ∀ (cs : List Char) (m r : Nat), walkFrom a m cs = some r →
      walkFrom
        { size := a.size + 1,
          entries := Function.update a.entries n0
            (a.entries n0 ++ [(c0, Val.node a.size)]),
          fail := a.fail } m cs = some r := by
  intro cs
  induction cs with
  | nil => intro m r h; exact h
  | cons c tl ih =>
    intro m r h
    simp only [walkFrom] at h ⊢
    cases hlk : lookupChild a m c with
    | none => rw [hlk] at h; exact absurd h (by simp)
    | some v =>
      cases v with
      | endmark => rw [hlk] at h; exact absurd h (by simp)
      | node j =>
        rw [hlk] at h
        have hlk2 : lookupChild
            { size := a.size + 1,
              entries := Function.update a.entries n0
                (a.entries n0 ++ [(c0, Val.node a.size)]),
              fail := a.fail } m c = some (Val.node j) := by
          rw [lookupChild_setdefault a n0 c0 hl]
          split
          · rename_i hcond
            rw [hcond.1, hcond.2] at hlk
            rw [hl] at hlk
            exact absurd hlk (by simp)
          · exact hlk
        rw [hlk2]
        exact ih j r h

/-- A walk in the extended trie is an old walk, unless it reaches the fresh
node along the fresh edge. -/
theorem walkP_ext_cases (a : ACAutomaton) (hWF : TrieWF a) (n0 : Nat)
    (c0 : Char) (u : List Char) (hu : walkP a u = some n0)
    (hl : lookupChild a n0 c0 = none) :
    ∀ (L : Nat) (cs : List Char) (m : Nat), cs.length ≤ L →
      walkP
        { size := a.size + 1,
          entries := Function.update a.entries n0
            (a.entries n0 ++ [(c0, Val.node a.size)]),
          fail := a.fail } cs = some m →
      walkP a cs = some m ∨ (cs = u ++ [c0] ∧ m = a.size) := by
  have hn0 := (walkP_length_lt_size a hWF u n0 hu).2
  intro L
  induction L with
  | zero =>
    intro cs m hL h
    have hcs : cs = [] := List.eq_nil_of_length_eq_zero (by omega)
    subst hcs
    left
    exact h
  | succ L ih =>
    intro cs m hL h
    rcases List.eq_nil_or_concat cs with rfl | ⟨l, x, rfl⟩
    · left; exact h
    · rw [List.concat_eq_append] at h hL ⊢
      obtain ⟨l', x', p, heq, hw, hlk⟩ := path_snoc_split _ _ m h (by simp)
      have hinj : l' = l ∧ x' = x := by
        have h1 := List.append_inj' heq.symm rfl
        simp only [List.cons.injEq, and_true] at h1
        exact ⟨h1.1, h1.2⟩
      rw [hinj.1] at hw
      rw [hinj.2] at hlk
      simp only [List.length_append, List.length_cons, List.length_nil] at hL
      rcases ih l p (by omega) hw with hold | ⟨hlu, hpa⟩
      · rw [lookupChild_setdefault a n0 c0 hl] at hlk
        split at hlk
        · rename_i hcond
          simp only [Option.some.injEq, Val.node.injEq] at hlk
          right
          obtain ⟨hpn, hxc⟩ := hcond
          rw [hpn] at hold
          have hlu := path_unique a hWF n0 l u hold hu
          rw [hlu, hxc]
          exact ⟨rfl, hlk.symm⟩
        · left
          rw [walkP_snoc, hold]
          simp only [Option.some_bind]
          rw [hlk]
      · subst hpa
        have hout : lookupChild
            { size := a.size + 1,
              entries := Function.update a.entries n0
                (a.entries n0 ++ [(c0, Val.node a.size)]),
              fail := a.fail } a.size x = none := by
          show (List.find? (fun q => q.1 == x) (Function.update a.entries n0
            (a.entries n0 ++ [(c0, Val.node a.size)]) a.size)).map Prod.snd =
            none
          rw [Function.update_noteq (by omega),
            hWF.out_empty a.size (le_refl _)]
          rfl
        rw [hout] at hlk
        exact absurd hlk (by simp)

/-- What the walk of `add_word` does to the path structure: old paths are
preserved node-for-node, the new paths are exactly the extensions of the
start node's path by nonempty prefixes of the word (their nodes fresh), the
full word's path ends at the returned node, and no "#" lookup anywhere
changes. -/
theorem addWordGo_paths :
    ∀ (w : List Char) (a : ACAutomaton) (n : Nat) (u : List Char)
      (a' : ACAutomaton) (n' : Nat),
      TrieWF a → walkP a u = some n → ('#' : Char) ∉ w →
      addWordGo a n w = some (a', n') →
      (∀ cs m, walkP a cs = some m → walkP a' cs = some m) ∧
      (∀ cs m, walkP a' cs = some m → walkP a cs = some m ∨
        (a.size ≤ m ∧ ∃ v, v ≠ [] ∧ v <+: w ∧ cs = u ++ v)) ∧
      walkP a' (u ++ w) = some n' ∧
      (∀ m, lookupChild a' m '#' = lookupChild a m '#') := by
  intro w
  induction w with
  | nil =>
    intro a n u a' n' hWF hu hw heq
    simp only [addWordGo, Option.some.injEq, Prod.mk.injEq] at heq
    obtain ⟨rfl, rfl⟩ := heq
    refine ⟨fun cs m h => h, fun cs m h => Or.inl h, ?_, fun m => rfl⟩
    rw [List.append_nil]
    exact hu
  | cons c w' ih =>
    intro a n u a' n' hWF hu hw heq
    simp only [List.mem_cons, not_or] at hw
    have hc : c ≠ '#' := fun h => hw.1 h.symm
    simp only [addWordGo] at heq
    split at heq
    · rename_i j hl
      have hj : walkP a (u ++ [c]) = some j := by
        rw [walkP_snoc, hu]
        simp only [Option.some_bind]
        rw [hl]
      obtain ⟨P1, P2, P3, P4⟩ := ih a j (u ++ [c]) a' n' hWF hj hw.2 heq
      refine ⟨P1, ?_, ?_, P4⟩
      · intro cs m h
        rcases P2 cs m h with hold | ⟨hm, v, hv1, hv2, hv3⟩
        · exact Or.inl hold
        · right
          refine ⟨hm, c :: v, by simp, ?_, ?_⟩
          · obtain ⟨t, ht⟩ := hv2
            exact ⟨t, by rw [List.cons_append, ht]⟩
          · rw [hv3, List.append_assoc]
            rfl
      · have hre : (u ++ [c]) ++ w' = u ++ (c :: w') := by
          rw [List.append_assoc]; rfl
        rw [← hre]
        exact P3
    · exact absurd heq (by simp)
    · rename_i hl
      have hn := (walkP_length_lt_size a hWF u n hu).2
      have hWF2 := setdefault_WF a n c hWF hn hl
      have hu2 : walkP
          { size := a.size + 1,
            entries := Function.update a.entries n
              (a.entries n ++ [(c, Val.node a.size)]),
            fail := a.fail } u = some n :=
        walkFrom_ext_mono a n c hl u 0 n hu
      have hjc : lookupChild
          { size := a.size + 1,
            entries := Function.update a.entries n
              (a.entries n ++ [(c, Val.node a.size)]),
            fail := a.fail } n c = some (Val.node a.size) := by
        rw [lookupChild_setdefault a n c hl]
        rw [if_pos ⟨rfl, rfl⟩]
      have hu2c : walkP
          { size := a.size + 1,
            entries := Function.update a.entries n
              (a.entries n ++ [(c, Val.node a.size)]),
            fail := a.fail } (u ++ [c]) = some a.size := by
        rw [walkP_snoc, hu2]
        simp only [Option.some_bind]
        rw [hjc]
      obtain ⟨P1, P2, P3, P4⟩ := ih
        { size := a.size + 1,
          entries := Function.update a.entries n
            (a.entries n ++ [(c, Val.node a.size)]),
          fail := a.fail } a.size (u ++ [c]) a' n' hWF2 hu2c hw.2 heq
      refine ⟨?_, ?_, ?_, ?_⟩
      · intro cs m h
        exact P1 cs m (walkFrom_ext_mono a n c hl cs 0 m h)
      · intro cs m h
        rcases P2 cs m h with hold | ⟨hm, v, hv1, hv2, hv3⟩
        · rcases walkP_ext_cases a hWF n c u hu hl cs.length cs m (le_refl _)
            hold with ha | ⟨hcs, hma⟩
          · exact Or.inl ha
          · right
            refine ⟨by omega, [c], by simp, ⟨w', rfl⟩, hcs⟩
        · right
          have hm' : a.size ≤ m := by
            have hm2 : a.size + 1 ≤ m := hm
            omega
          refine ⟨hm', c :: v, by simp, ?_, ?_⟩
          · obtain ⟨t, ht⟩ := hv2
            exact ⟨t, by rw [List.cons_append, ht]⟩
          · rw [hv3, List.append_assoc]
            rfl
      · have hre : (u ++ [c]) ++ w' = u ++ (c :: w') := by
          rw [List.append_assoc]; rfl
        rw [← hre]
        exact P3
      · intro m
        rw [P4 m]
        rw [lookupChild_setdefault a n c hl]
        rw [if_neg (fun h => hc h.2.symm)]

/-- Storing the end-of-word marker does not change any walk: under the
no-"#"-edge invariant the marker assignment can only turn an absent or
endmark-valued "#" key into an endmark, and walks treat both as a dead
end. -/
theorem walkFrom_assignHash (a1 : ACAutomaton) (n1 : Nat)
    (hNH : NoHashEdge a1) :
    ∀ (cs : List Char) (m : Nat),
      walkFrom
        { a1 with
          entries :=
            Function.update a1.entries n1
              (assocAssign '#' Val.endmark (a1.entries n1)) } m cs =
      walkFrom a1 m cs := by
  intro cs
  induction cs with
  | nil => intro m; rfl
  | cons c tl ih =>
    intro m
    simp only [walkFrom]
    rw [lookupChild_assignHash]
    by_cases hcond : m = n1 ∧ c = '#'
    · rw [if_pos hcond]
      cases hlk : lookupChild a1 m c with
      | none => rfl
      | some v =>
        cases v with
        | endmark => rfl
        | node j =>
          exfalso
          obtain ⟨hm1, hc1⟩ := hcond
          rw [hm1, hc1] at hlk
          exact hNH n1 j hlk
    · rw [if_neg hcond]
      cases hlk : lookupChild a1 m c with
      | none => rfl
      | some v =>
        cases v with
        | endmark => rfl
        | node j =>
          exact ih j

/-- What one `add_word` call does to the path structure: the root paths
gain exactly the nonempty prefixes of the word, and the terminal paths gain
exactly the word itself. -/
theorem add_word_path_char (a : ACAutomaton) (w : List Char)
    (a' : ACAutomaton) (hWF : TrieWF a) (hNH : NoHashEdge a)
    (hw : ('#' : Char) ∉ w) (heq : add_word a w = some a') :
    (∀ cs, (walkP a' cs).isSome ↔
      ((walkP a cs).isSome ∨ (cs ≠ [] ∧ cs <+: w))) ∧
    (∀ cs, TermPath a' cs ↔ (TermPath a cs ∨ cs = w)) := by
  unfold add_word at heq
  obtain ⟨⟨a1, n1⟩, hgo, hmk⟩ := Option.map_eq_some'.mp heq
  have hWF1 := (addWordGo_WF w a 0 a1 n1 hWF hWF.size_pos hgo).1
  have hNH1 := addWordGo_NH w a 0 a1 n1 hw hNH hgo
  obtain ⟨P1, P2, P3, P4⟩ := addWordGo_paths w a 0 [] a1 n1 hWF rfl hw hgo
  subst hmk
  have hwalk : ∀ cs, walkP
      { a1 with
        entries :=
          Function.update a1.entries n1
            (assocAssign '#' Val.endmark (a1.entries n1)) } cs =
      walkP a1 cs := fun cs => walkFrom_assignHash a1 n1 hNH1 cs 0
  have hlkh : ∀ m, lookupChild
      { a1 with
        entries :=
          Function.update a1.entries n1
            (assocAssign '#' Val.endmark (a1.entries n1)) } m '#' =
      if m = n1 then some Val.endmark else lookupChild a1 m '#' := by
    intro m
    rw [lookupChild_assignHash]
    by_cases hm : m = n1
    · rw [if_pos ⟨hm, rfl⟩, if_pos hm]
    · rw [if_neg (fun h => hm h.1), if_neg hm]
  constructor
  · intro cs
    rw [hwalk cs]
    constructor
    · intro h
      obtain ⟨m, hm⟩ := Option.isSome_iff_exists.mp h
      rcases P2 cs m hm with hold | ⟨_, v, hv1, hv2, hv3⟩
      · exact Or.inl (by rw [hold]; rfl)
      · right
        rw [hv3]
        simp only [List.nil_append]
        exact ⟨hv1, hv2⟩
    · intro h
      rcases h with hold | ⟨hne, hpre⟩
      · obtain ⟨m, hm⟩ := Option.isSome_iff_exists.mp hold
        rw [P1 cs m hm]
        rfl
      · have hcs : cs = w.take cs.length := List.prefix_iff_eq_take.mp hpre
        rw [hcs]
        exact walkP_take a1 w n1 cs.length P3
  · intro cs
    constructor
    · rintro ⟨m, hm, hflag⟩
      rw [hwalk cs] at hm
      rw [hlkh m] at hflag
      by_cases hmn : m = n1
      · right
        exact path_unique a1 hWF1 n1 cs w (hmn ▸ hm) P3
      · rw [if_neg hmn] at hflag
        rw [P4 m] at hflag
        rcases P2 cs m hm with hold | ⟨hge, _⟩
        · exact Or.inl ⟨m, hold, hflag⟩
        · exfalso
          rw [lookupChild_out a hWF m hge '#'] at hflag
          exact absurd hflag (by simp)
    · intro h
      rcases h with ⟨m, hm, hflag⟩ | rfl
      · refine ⟨m, ?_, ?_⟩
        · rw [hwalk cs]
          exact P1 cs m hm
        · rw [hlkh m]
          by_cases hmn : m = n1
          · rw [if_pos hmn]; rfl
          · rw [if_neg hmn, P4 m]
            exact hflag
      · refine ⟨n1, ?_, ?_⟩
        · rw [hwalk cs]
          exact P3
        · rw [hlkh n1, if_pos rfl]
          rfl

/-- Path structure of a trie built by a sequence of `add_word` calls over
'#'-free patterns: root paths are the start automaton's paths plus all
nonempty pattern prefixes; terminal paths are the start automaton's
terminal paths plus the patterns themselves. -/
theorem addWords_path_char :
    ∀ (ws : List (List Char)) (a0 a : ACAutomaton),
      TrieWF a0 → NoHashEdge a0 → (∀ w ∈ ws, ('#' : Char) ∉ w) →
      addWords a0 ws = some a →
      (∀ cs, (walkP a cs).isSome ↔
        ((walkP a0 cs).isSome ∨ ∃ w ∈ ws, cs ≠ [] ∧ cs <+: w)) ∧
      (∀ cs, TermPath a cs ↔ (TermPath a0 cs ∨ cs ∈ ws)) := by
  intro ws
  induction ws with
  | nil =>
    intro a0 a hWF hNH hws heq
    simp only [addWords, List.foldl_nil, Option.some.injEq] at heq
    subst heq
    refine ⟨fun cs => ?_, fun cs => ?_⟩
    · simp
    · simp
  | cons w ws' ih =>
    intro a0 a hWF hNH hws heq
    rw [addWords_cons] at heq
    rcases hw : add_word a0 w with _ | a1
    · rw [hw] at heq; simp at heq
    · rw [hw, Option.some_bind] at heq
      have hw0 : ('#' : Char) ∉ w := hws w (List.mem_cons_self _ _)
      have hWF1 := (add_word_WF a0 w a1 hWF hw).1
      have hNH1 := add_word_NH a0 w a1 hw0 hNH hw
      obtain ⟨Q1, Q2⟩ := add_word_path_char a0 w a1 hWF hNH hw0 hw
      obtain ⟨R1, R2⟩ := ih a1 a hWF1 hNH1
        (fun w' hw' => hws w' (List.mem_cons_of_mem _ hw')) heq
      refine ⟨fun cs => ?_, fun cs => ?_⟩
      · rw [R1 cs, Q1 cs]
        constructor
        · rintro ((h | h) | ⟨w', hw', h1, h2⟩)
          · exact Or.inl h
          · exact Or.inr ⟨w, List.mem_cons_self _ _, h⟩
          · exact Or.inr ⟨w', List.mem_cons_of_mem _ hw', h1, h2⟩
        · rintro (h | ⟨w', hw', h1, h2⟩)
          · exact Or.inl (Or.inl h)
          · rcases List.mem_cons.mp hw' with rfl | hmem
            · exact Or.inl (Or.inr ⟨h1, h2⟩)
            · exact Or.inr ⟨w', hmem, h1, h2⟩
      · rw [R2 cs, Q2 cs]
        constructor
        · rintro ((h | h) | h)
          · exact Or.inl h
          · exact Or.inr (by rw [h]; exact List.mem_cons_self _ _)
          · exact Or.inr (List.mem_cons_of_mem _ h)
        · rintro (h | h)
          · exact Or.inl (Or.inl h)
          · rcases List.mem_cons.mp h with rfl | hmem
            · exact Or.inl (Or.inr rfl)
            · exact Or.inr hmem

/-- Adding a '#'-free word can never raise: the walk only dies by stepping
onto an endmark, which sits under '#' keys only. -/
theorem addWordGo_total :
    ∀ (w : List Char) (a : ACAutomaton) (n : Nat),
      EndmarkOnlyHash a → ('#' : Char) ∉ w → (addWordGo a n w).isSome := by
  intro w
  induction w with
  | nil => intro a n _ _; simp [addWordGo]
  | cons c w' ih =>
    intro a n hEM hw
    simp only [List.mem_cons, not_or] at hw
    have hc : c ≠ '#' := fun h => hw.1 h.symm
    simp only [addWordGo]
    cases hlk : lookupChild a n c with
    | none =>
      exact ih _ a.size (setdefault_EM a n c hEM hlk) hw.2
    | some v =>
      cases v with
      | node j => exact ih a j hEM hw.2
      | endmark => exact absurd (hEM n c hlk) hc

/-- `add_word` with a '#'-free word always succeeds. -/
theorem add_word_total (a : ACAutomaton) (w : List Char)
    (hEM : EndmarkOnlyHash a) (hw : ('#' : Char) ∉ w) :
    (add_word a w).isSome := by
  unfold add_word
  have h := addWordGo_total w a 0 hEM hw
  obtain ⟨p, hp⟩ := Option.isSome_iff_exists.mp h
  rw [hp]
  rfl

/-- Building from '#'-free patterns always succeeds. -/
theorem addWords_total :
    ∀ (ws : List (List Char)) (a : ACAutomaton),
      EndmarkOnlyHash a → (∀ w ∈ ws, ('#' : Char) ∉ w) →
      (addWords a ws).isSome := by
  intro ws
  induction ws with
  | nil => intro a _ _; simp [addWords]
  | cons w ws' ih =>
    intro a hEM hws
    rw [addWords_cons]
    have h1 := add_word_total a w hEM (hws w (List.mem_cons_self _ _))
    obtain ⟨a1, ha1⟩ := Option.isSome_iff_exists.mp h1
    rw [ha1, Option.some_bind]
    exact ih a1 (add_word_endmark a w a1 hEM ha1)
      (fun w' hw' => hws w' (List.mem_cons_of_mem _ hw'))

/-- For non-'#' characters an edge exists at a node exactly when the node's
root path extends by that character. -/
theorem edge_iff_path_ext (a : ACAutomaton) (hEM : EndmarkOnlyHash a)
    (cs : List Char) (n : Nat) (hcs : walkP a cs = some n) (c : Char)
    (hc : c ≠ '#') :
    (lookupChild a n c).isSome = (walkP a (cs ++ [c])).isSome := by
  rw [walkP_snoc, hcs]
  simp only [Option.some_bind]
  cases hlk : lookupChild a n c with
  | none => rfl
  | some v =>
    cases v with
    | node j => rfl
    | endmark => exact absurd (hEM n c hlk) hc

/-- Without root children, the root is reached exactly by the empty
path. -/
theorem root_iff_nil (a : ACAutomaton) (hz : NoRootChild a)
    (cs : List Char) (n : Nat) (h : walkP a cs = some n) :
    n = 0 ↔ cs = [] := by
  constructor
  · intro hn
    subst hn
    by_contra hne
    obtain ⟨l, c, p, heq, hw, hlk⟩ := path_snoc_split a cs 0 h hne
    have hmem := mem_of_lookupChild a p c _ hlk
    exact (hz p _ hmem 0 rfl) rfl
  · intro hcs
    subst hcs
    have h0 : (some 0 : Option Nat) = some n := h
    simp only [Option.some.injEq] at h0
    exact h0.symm

/-- One unfolding of the match-emission loop at a non-root node. -/
theorem collectAt_succ (a : ACAutomaton) (t : List Char) (i : Nat)
    (fuel : Nat) (n : Nat) (acc : List RawMatch) (hn : n ≠ 0) :
    collectAt a t i (fuel + 1) n acc =
      collectAt a t i fuel (effFail a n)
        (if (lookupChild a n '#').isSome then
          acc ++ [(i + 1 - get_word_length a a.size n, i + 1,
            sliceTxt t (i + 1 - get_word_length a a.size n) (i + 1))]
        else acc) := by
  simp only [collectAt]
  rw [if_neg hn]

/-- One unfolding of the main loop of `search`. -/
theorem searchLoop_cons (a : ACAutomaton) (t : List Char) (c : Char)
    (rest : List Char) (i cur : Nat) (acc : List RawMatch) :
    searchLoop a t (c :: rest) i cur acc =
      match lookupChild a (stepDown a c a.size cur) c with
      | none => searchLoop a t rest (i + 1) (stepDown a c a.size cur) acc
      | some Val.endmark => none
      | some (Val.node j) =>
        searchLoop a t rest (i + 1) j
          (collectAt a t i a.size j acc) := rfl

/-- Compiled search depends only on the path structure of the trie: two
'#'-free builds with the same root paths and the same terminal paths return
the same matches on every '#'-free text, whatever their internal node
numbering. -/
theorem search_pathEquiv (a1 a2 : ACAutomaton)
    (hWF1 : TrieWF a1) (hWF2 : TrieWF a2)
    (hEM1 : EndmarkOnlyHash a1) (hEM2 : EndmarkOnlyHash a2)
    (hNH1 : NoHashEdge a1) (hNH2 : NoHashEdge a2)
    (hz1 : NoRootChild a1) (hz2 : NoRootChild a2)
    (hiso : ∀ cs, (walkP a1 cs).isSome ↔ (walkP a2 cs).isSome)
    (hterm : ∀ cs, TermPath a1 cs ↔ TermPath a2 cs)
    (t : List Char) (ht : ∀ c ∈ t, c ≠ '#') :
    search (build_fail a1) t = search (build_fail a2) t := by
  have hisoB : ∀ cs, (walkP a1 cs).isSome = (walkP a2 cs).isSome :=
    fun cs => Bool.eq_iff_iff.mpr (hiso cs)
  have hlps := lps_congr a1 a2 hisoB
  have hgwl1 : (build_fail a1).size = a1.size := (build_fail_frame a1).2
  have hgwl2 : (build_fail a2).size = a2.size := (build_fail_frame a2).2
  have hupto1 : FailsCorrectUpTo a1 (build_fail a1) a1.size :=
    fun cs n h1 h2 _ => build_fail_sets_all a1 hWF1 hEM1 hNH1 cs n h1 h2
  have hupto2 : FailsCorrectUpTo a2 (build_fail a2) a2.size :=
    fun cs n h1 h2 _ => build_fail_sets_all a2 hWF2 hEM2 hNH2 cs n h1 h2
  have heff1 : ∀ cs n, walkP a1 cs = some n → cs ≠ [] →
      effFail (build_fail a1) n = failIdx a1 cs := by
    intro cs n hx hne
    unfold effFail
    rw [build_fail_sets_all a1 hWF1 hEM1 hNH1 cs n hx hne]
    rfl
  have heff2 : ∀ cs n, walkP a2 cs = some n → cs ≠ [] →
      effFail (build_fail a2) n = failIdx a2 cs := by
    intro cs n hx hne
    unfold effFail
    rw [build_fail_sets_all a2 hWF2 hEM2 hNH2 cs n hx hne]
    rfl
  have hflag : ∀ p m1 m2, walkP a1 p = some m1 → walkP a2 p = some m2 →
      (lookupChild a1 m1 '#').isSome = (lookupChild a2 m2 '#').isSome := by
    intro p m1 m2 h1 h2
    have h3 : (lookupChild a1 m1 '#').isSome ↔ TermPath a1 p := by
      constructor
      · intro h; exact ⟨m1, h1, h⟩
      · rintro ⟨m, hm, hf⟩
        rw [h1] at hm
        injection hm with hm'
        rw [hm']
        exact hf
    have h4 : (lookupChild a2 m2 '#').isSome ↔ TermPath a2 p := by
      constructor
      · intro h; exact ⟨m2, h2, h⟩
      · rintro ⟨m, hm, hf⟩
        rw [h2] at hm
        injection hm with hm'
        rw [hm']
        exact hf
    exact Bool.eq_iff_iff.mpr (h3.trans ((hterm p).trans h4.symm))
  have hstep : ∀ (cs : List Char) (n1 n2 : Nat) (c : Char), c ≠ '#' →
      walkP a1 cs = some n1 → walkP a2 cs = some n2 →
      ∃ k, k ≤ cs.length ∧
        walkP a1 (cs.drop k) =
          some (stepDown (build_fail a1) c (build_fail a1).size n1) ∧
        walkP a2 (cs.drop k) =
          some (stepDown (build_fail a2) c (build_fail a2).size n2) := by
    intro cs n1 n2 c hc h1 h2
    have hlen1 := (walkP_length_lt_size a1 hWF1 cs n1 h1).1
    have hlen2 := (walkP_length_lt_size a2 hWF2 cs n2 h2).1
    have hr1 : WalkRes a1 c cs
        (stepDown (build_fail a1) c (build_fail a1).size n1) := by
      rw [stepDown_eq]
      exact findFailFrom_walkRes a1 (build_fail a1) hWF1
        (build_fail_frame a1).1 c a1.size hupto1 (build_fail a1).size cs n1 h1
        (by rw [hgwl1]; exact hlen1) (le_of_lt hlen1)
    have hr2 : WalkRes a2 c cs
        (stepDown (build_fail a2) c (build_fail a2).size n2) := by
      rw [stepDown_eq]
      exact findFailFrom_walkRes a2 (build_fail a2) hWF2
        (build_fail_frame a2).1 c a2.size hupto2 (build_fail a2).size cs n2 h2
        (by rw [hgwl2]; exact hlen2) (le_of_lt hlen2)
    obtain ⟨k1, hk1a, hk1b, hk1c, hk1d⟩ := hr1
    obtain ⟨k2, hk2a, hk2b, hk2c, hk2d⟩ := hr2
    have hkeq : k1 = k2 := by
      rcases Nat.lt_trichotomy k1 k2 with h | h | h
      · exfalso
        have hnone := hk2c k1 h
        rcases hk1d with hsome | hnil
        · have hp2 : (walkP a2 (cs.drop k1)).isSome := by
            rw [← hisoB (cs.drop k1), hk1b]
            rfl
          obtain ⟨r2', hr2'⟩ := Option.isSome_iff_exists.mp hp2
          rw [hr2', Option.some_bind] at hnone
          have hedge : (lookupChild a1
              (stepDown (build_fail a1) c (build_fail a1).size n1) c).isSome =
              (lookupChild a2 r2' c).isSome := by
            rw [edge_iff_path_ext a1 hEM1 _ _ hk1b c hc,
              edge_iff_path_ext a2 hEM2 _ _ hr2' c hc]
            exact hisoB (cs.drop k1 ++ [c])
          rw [hnone] at hedge
          rw [hedge] at hsome
          exact absurd hsome (by simp)
        · have hlen := congrArg List.length hnil
          simp only [List.length_drop, List.length_nil] at hlen
          omega
      · exact h
      · exfalso
        have hnone := hk1c k2 h
        rcases hk2d with hsome | hnil
        · have hp1 : (walkP a1 (cs.drop k2)).isSome := by
            rw [hisoB (cs.drop k2), hk2b]
            rfl
          obtain ⟨r1', hr1'⟩ := Option.isSome_iff_exists.mp hp1
          rw [hr1', Option.some_bind] at hnone
          have hedge : (lookupChild a2
              (stepDown (build_fail a2) c (build_fail a2).size n2) c).isSome =
              (lookupChild a1 r1' c).isSome := by
            rw [edge_iff_path_ext a2 hEM2 _ _ hk2b c hc,
              edge_iff_path_ext a1 hEM1 _ _ hr1' c hc]
            exact (hisoB (cs.drop k2 ++ [c])).symm
          rw [hnone] at hedge
          rw [hedge] at hsome
          exact absurd hsome (by simp)
        · have hlen := congrArg List.length hnil
          simp only [List.length_drop, List.length_nil] at hlen
          omega
    refine ⟨k1, hk1a, hk1b, ?_⟩
    rw [hkeq]
    exact hk2b
  have hcollect : ∀ (L : Nat) (p : List Char) (m1 m2 : Nat), p.length ≤ L →
      walkP a1 p = some m1 → walkP a2 p = some m2 →
      ∀ (f1 f2 : Nat) (i : Nat) (acc : List RawMatch),
        p.length < f1 → p.length < f2 →
        collectAt (build_fail a1) t i f1 m1 acc =
        collectAt (build_fail a2) t i f2 m2 acc := by
    intro L
    induction L with
    | zero =>
      intro p m1 m2 hL h1 h2 f1 f2 i acc hf1 hf2
      have hp : p = [] := List.eq_nil_of_length_eq_zero (by omega)
      subst hp
      have hm1 : m1 = 0 := by
        have h0 : (some 0 : Option Nat) = some m1 := h1
        injection h0 with h0'
        omega
      have hm2 : m2 = 0 := by
        have h0 : (some 0 : Option Nat) = some m2 := h2
        injection h0 with h0'
        omega
      subst hm1
      subst hm2
      cases f1 with
      | zero => omega
      | succ g1 =>
        cases f2 with
        | zero => omega
        | succ g2 =>
          simp [collectAt]
    | succ L ih =>
      intro p m1 m2 hL h1 h2 f1 f2 i acc hf1 hf2
      cases f1 with
      | zero => omega
      | succ g1 =>
        cases f2 with
        | zero => omega
        | succ g2 =>
          by_cases hp : p = []
          · subst hp
            have hm1 : m1 = 0 := by
              have h0 : (some 0 : Option Nat) = some m1 := h1
              injection h0 with h0'
              omega
            have hm2 : m2 = 0 := by
              have h0 : (some 0 : Option Nat) = some m2 := h2
              injection h0 with h0'
              omega
            subst hm1
            subst hm2
            simp [collectAt]
          · have hm1 : m1 ≠ 0 := fun h =>
              hp ((root_iff_nil a1 hz1 p m1 h1).mp h)
            have hm2 : m2 ≠ 0 := fun h =>
              hp ((root_iff_nil a2 hz2 p m2 h2).mp h)
            have hfl := hflag p m1 m2 h1 h2
            have he1 : effFail (build_fail a1) m1 = failIdx a1 p :=
              heff1 p m1 h1 hp
            have he2 : effFail (build_fail a2) m2 = failIdx a2 p :=
              heff2 p m2 h2 hp
            obtain ⟨hl1, hlt1⟩ := lps_walk a1 p hp
            obtain ⟨hl2, _⟩ := lps_walk a2 p hp
            have hl2' : walkP a2 (lps a1 p) = some (failIdx a2 p) := by
              rw [hlps p]
              exact hl2
            rw [collectAt_succ _ t i g1 m1 acc hm1,
              collectAt_succ _ t i g2 m2 acc hm2, he1, he2]
            by_cases hT : (lookupChild a1 m1 '#').isSome = true
            · have hT2 : (lookupChild a2 m2 '#').isSome = true := by
                rw [← hfl]
                exact hT
              have hw1 : get_word_length (build_fail a1)
                  (build_fail a1).size m1 = 0 :=
                get_word_length_zero _ _ _
                  (by rw [hgwl1]; exact hWF1.size_pos)
                  (by rw [lookupChild_build_fail]; exact hT)
              have hw2 : get_word_length (build_fail a2)
                  (build_fail a2).size m2 = 0 :=
                get_word_length_zero _ _ _
                  (by rw [hgwl2]; exact hWF2.size_pos)
                  (by rw [lookupChild_build_fail]; exact hT2)
              rw [if_pos (by rw [lookupChild_build_fail]; exact hT),
                if_pos (by rw [lookupChild_build_fail]; exact hT2), hw1, hw2]
              exact ih (lps a1 p) (failIdx a1 p) (failIdx a2 p)
                (by omega) hl1 hl2' g1 g2 i _ (by omega) (by omega)
            · have hT2 : ¬ (lookupChild a2 m2 '#').isSome = true := by
                rw [← hfl]
                exact hT
              rw [if_neg (by rw [lookupChild_build_fail]; exact hT),
                if_neg (by rw [lookupChild_build_fail]; exact hT2)]
              exact ih (lps a1 p) (failIdx a1 p) (failIdx a2 p)
                (by omega) hl1 hl2' g1 g2 i acc (by omega) (by omega)
  have hmain : ∀ (rest : List Char), (∀ c ∈ rest, c ≠ '#') →
      ∀ (i : Nat) (cs : List Char) (n1 n2 : Nat) (acc : List RawMatch),
        walkP a1 cs = some n1 → walkP a2 cs = some n2 →
        searchLoop (build_fail a1) t rest i n1 acc =
        searchLoop (build_fail a2) t rest i n2 acc := by
    intro rest
    induction rest with
    | nil => intro _ i cs n1 n2 acc _ _; rfl
    | cons c r' ihr =>
      intro hr i cs n1 n2 acc h1 h2
      have hc : c ≠ '#' := hr c (List.mem_cons_self _ _)
      have hr' : ∀ x ∈ r', x ≠ '#' := fun x hx =>
        hr x (List.mem_cons_of_mem _ hx)
      obtain ⟨k, hk, hd1, hd2⟩ := hstep cs n1 n2 c hc h1 h2
      rw [searchLoop_cons, searchLoop_cons]
      have hedge : (lookupChild a1
          (stepDown (build_fail a1) c (build_fail a1).size n1) c).isSome =
          (lookupChild a2
          (stepDown (build_fail a2) c (build_fail a2).size n2) c).isSome := by
        rw [edge_iff_path_ext a1 hEM1 _ _ hd1 c hc,
          edge_iff_path_ext a2 hEM2 _ _ hd2 c hc]
        exact hisoB (cs.drop k ++ [c])
      cases hlk1 : lookupChild a1
          (stepDown (build_fail a1) c (build_fail a1).size n1) c with
      | none =>
        have hlk2 : lookupChild a2
            (stepDown (build_fail a2) c (build_fail a2).size n2) c = none := by
          rw [hlk1] at hedge
          cases hx : lookupChild a2
              (stepDown (build_fail a2) c (build_fail a2).size n2) c with
          | none => rfl
          | some v =>
            rw [hx] at hedge
            simp at hedge
        have hlk1' : lookupChild (build_fail a1)
            (stepDown (build_fail a1) c (build_fail a1).size n1) c = none := by
          rw [lookupChild_build_fail]
          exact hlk1
        have hlk2' : lookupChild (build_fail a2)
            (stepDown (build_fail a2) c (build_fail a2).size n2) c = none := by
          rw [lookupChild_build_fail]
          exact hlk2
        rw [hlk1', hlk2']
        exact ihr hr' (i + 1) (cs.drop k) _ _ acc hd1 hd2
      | some v =>
        cases v with
        | endmark => exact absurd (hEM1 _ c hlk1) hc
        | node j1 =>
          rw [hlk1] at hedge
          cases hlk2 : lookupChild a2
              (stepDown (build_fail a2) c (build_fail a2).size n2) c with
          | none =>
            rw [hlk2] at hedge
            simp at hedge
          | some v2 =>
            cases v2 with
            | endmark => exact absurd (hEM2 _ c hlk2) hc
            | node j2 =>
              have hj1 : walkP a1 (cs.drop k ++ [c]) = some j1 := by
                rw [walkP_snoc, hd1]
                simp only [Option.some_bind]
                rw [hlk1]
              have hj2 : walkP a2 (cs.drop k ++ [c]) = some j2 := by
                rw [walkP_snoc, hd2]
                simp only [Option.some_bind]
                rw [hlk2]
              have hlk1' : lookupChild (build_fail a1)
                  (stepDown (build_fail a1) c (build_fail a1).size n1) c =
                  some (Val.node j1) := by
                rw [lookupChild_build_fail]
                exact hlk1
              have hlk2' : lookupChild (build_fail a2)
                  (stepDown (build_fail a2) c (build_fail a2).size n2) c =
                  some (Val.node j2) := by
                rw [lookupChild_build_fail]
                exact hlk2
              rw [hlk1', hlk2']
              have hcol : collectAt (build_fail a1) t i (build_fail a1).size
                  j1 acc = collectAt (build_fail a2) t i (build_fail a2).size
                  j2 acc := by
                refine hcollect (cs.drop k ++ [c]).length _ j1 j2 (le_refl _)
                  hj1 hj2 (build_fail a1).size (build_fail a2).size i acc ?_ ?_
                · rw [hgwl1]
                  exact (walkP_length_lt_size a1 hWF1 _ j1 hj1).1
                · rw [hgwl2]
                  exact (walkP_length_lt_size a2 hWF2 _ j2 hj2).1
              show searchLoop (build_fail a1) t r' (i + 1) j1
                  (collectAt (build_fail a1) t i (build_fail a1).size j1 acc) =
                searchLoop (build_fail a2) t r' (i + 1) j2
                  (collectAt (build_fail a2) t i (build_fail a2).size j2 acc)
              rw [hcol]
              exact ihr hr' (i + 1) (cs.drop k ++ [c]) j1 j2 _ hj1 hj2
  exact hmain t ht 0 [] 0 0 [] rfl rfl

/-- find? retrieves a member pair from a nodup-keyed label list. -/
theorem findS_of_mem_nodup (k : List Char) (v : String) :
    ∀ (l : List (List Char × String)), (l.map Prod.fst).Nodup → (k, v) ∈ l →
      List.find? (fun p => p.1 == k) l = some (k, v) := by
  intro l
  induction l with
  | nil => intro _ hm; simp at hm
  | cons q rest ih =>
    intro hnd hm
    obtain ⟨k', v'⟩ := q
    simp only [List.map_cons, List.nodup_cons] at hnd
    rcases List.mem_cons.mp hm with heq | hm'
    · obtain ⟨h1, h2⟩ : k = k' ∧ v = v' := by
        simpa [Prod.mk.injEq] using heq
      rw [← h1, ← h2]
      rw [List.find?_cons_of_pos _ (by simp)]
    · have hne : k' ≠ k := by
        intro h
        subst h
        exact hnd.1 (List.mem_map_of_mem Prod.fst hm')
      rw [List.find?_cons_of_neg _ (by simp [hne])]
      exact ih hnd.2 hm'

/-- Label lookup in a nodup-keyed mapping is stable under permutation. -/
theorem lookupMapS_perm (m1 m2 : List (List Char × String))
    (hperm : m1.Perm m2) (hnd : (m1.map Prod.fst).Nodup) (k : List Char) :
    lookupMapS m1 k = lookupMapS m2 k := by
  have hnd2 : (m2.map Prod.fst).Nodup := ((hperm.map Prod.fst).nodup_iff).mp hnd
  unfold lookupMapS
  cases hf : List.find? (fun p => p.1 == k) m1 with
  | some q =>
    obtain ⟨qk, qv⟩ := q
    have hqk : qk = k := by
      have hp := List.find?_some hf
      simpa using hp
    subst hqk
    have hmem := List.mem_of_find?_eq_some hf
    have hmem2 : (qk, qv) ∈ m2 := hperm.mem_iff.mp hmem
    rw [findS_of_mem_nodup qk qv m2 hnd2 hmem2]
  | none =>
    have hnone := List.find?_eq_none.mp hf
    have hf2 : List.find? (fun p => p.1 == k) m2 = none := by
      rw [List.find?_eq_none]
      intro p hp
      exact hnone p (hperm.mem_iff.mpr hp)
    rw [hf2]

/-- Assigning a fresh key appends it at the end of the dict. -/
theorem assignMapS_append (k : List Char) (v : String) :
    ∀ (m : List (List Char × String)), (∀ p ∈ m, p.1 ≠ k) →
      assignMapS k v m = m ++ [(k, v)] := by
  intro m
  induction m with
  | nil => intro _; rfl
  | cons q rest ih =>
    intro h
    obtain ⟨k', v'⟩ := q
    simp only [assignMapS]
    rw [if_neg (by simpa using h (k', v') (List.mem_cons_self _ _))]
    rw [ih fun p hp => h p (List.mem_cons_of_mem _ hp)]
    rfl

/-- With distinct keys, the dict accumulated by repeated assignment is just
the pair list itself, in insertion order. -/
theorem mapFold_eq_self :
    ∀ (ps m0 : List (List Char × String)),
      ((m0 ++ ps).map Prod.fst).Nodup → mapFold ps m0 = m0 ++ ps := by
  intro ps
  induction ps with
  | nil => intro m0 _; simp [mapFold]
  | cons p ps' ih =>
    intro m0 hnd
    obtain ⟨k, v⟩ := p
    have hkey : ∀ q ∈ m0, q.1 ≠ k := by
      intro q hq hqk
      have h1 : k ∈ m0.map Prod.fst := hqk ▸ List.mem_map_of_mem Prod.fst hq
      have h2 : k ∈ ((k, v) :: ps').map Prod.fst := by simp
      rw [List.map_append] at hnd
      rcases List.nodup_append.mp hnd with ⟨_, _, hdisj⟩
      exact hdisj h1 h2
    have hstep : mapFold ((k, v) :: ps') m0 =
        mapFold ps' (assignMapS k v m0) := rfl
    rw [hstep, assignMapS_append k v m0 hkey]
    have hre : m0 ++ [(k, v)] ++ ps' = m0 ++ ((k, v) :: ps') := by
      rw [List.append_assoc]; rfl
    rw [ih (m0 ++ [(k, v)]) (by rw [hre]; exact hnd), hre]

/-- The resolution loop only consults the mapping through lookups. -/
theorem resolveLoop_congr (m1 m2 : List (List Char × String))
    (h : ∀ k, lookupMapS m1 k = lookupMapS m2 k) :
    ∀ (ms : List RawMatch) (lastEnd : Int),
      resolveLoop m1 ms lastEnd = resolveLoop m2 ms lastEnd := by
  intro ms
  induction ms with
  | nil => intro lastEnd; rfl
  | cons x rest ih =>
    intro lastEnd
    obtain ⟨s, e, txt⟩ := x
    simp only [resolveLoop]
    split
    · rw [h txt, ih]
    · exact ih lastEnd

/-- An exception early in the build fold is final. -/
theorem foldl_bac_none (ps : List (List Char × String)) :
    ps.foldl (fun acc p => acc.bind fun st =>
      (add_word st.1 p.1).map fun a' => (a', assignMapS p.1 p.2 st.2))
      none = none := by
  induction ps with
  | nil => rfl
  | cons p ps' ih => simpa using ih

/-- The build fold of `build_ac_automaton` is the pattern fold paired with
the mapping fold. -/
theorem bac_decomp :
    ∀ (ps : List (List Char × String)) (a0 : ACAutomaton)
      (m0 : List (List Char × String)),
      ps.foldl (fun acc p => acc.bind fun st =>
        (add_word st.1 p.1).map fun a' => (a', assignMapS p.1 p.2 st.2))
        (some (a0, m0)) =
      (addWords a0 (ps.map Prod.fst)).map fun a => (a, mapFold ps m0) := by
  intro ps
  induction ps with
  | nil =>
    intro a0 m0
    simp [addWords, mapFold]
  | cons p ps' ih =>
    intro a0 m0
    simp only [List.foldl_cons]
    cases hw : add_word a0 p.1 with
    | none =>
      have h1 : ((some (a0, m0)).bind fun st =>
          (add_word st.1 p.1).map fun a' => (a', assignMapS p.1 p.2 st.2)) =
          none := by
        rw [Option.some_bind, hw]
        rfl
      rw [h1, foldl_bac_none]
      have h2 : addWords a0 ((p :: ps').map Prod.fst) = none := by
        rw [List.map_cons, addWords_cons, hw]
        rfl
      rw [h2]
      rfl
    | some a1 =>
      have h1 : ((some (a0, m0)).bind fun st =>
          (add_word st.1 p.1).map fun a' => (a', assignMapS p.1 p.2 st.2)) =
          some (a1, assignMapS p.1 p.2 m0) := by
        rw [Option.some_bind, hw]
        rfl
      rw [h1, ih a1 (assignMapS p.1 p.2 m0)]
      have h2 : addWords a0 ((p :: ps').map Prod.fst) =
          addWords a1 (ps'.map Prod.fst) := by
        rw [List.map_cons, addWords_cons, hw, Option.some_bind]
      rw [h2]
      rfl

/-- `build_ac_automaton` decomposed: build the trie from the pattern texts,
compile it, and pair it with the accumulated label mapping. -/
theorem build_ac_automaton_eq (ps : List (List Char × String)) :
    build_ac_automaton ps =
      (addWords emptyAC (ps.map Prod.fst)).map fun a =>
        (build_fail a, mapFold ps []) := by
  unfold build_ac_automaton
  rw [bac_decomp ps emptyAC []]
  cases h : addWords emptyAC (ps.map Prod.fst) with
  | none => rfl
  | some a => rfl

/-- C5 amended: for '#'-free pattern lists with distinct texts, the whole
pipeline's output is independent of the insertion order of the patterns,
for every '#'-free text.  (The counterexample shows this fails without the
'#'-free restriction: insertion order then decides between an exception and
a result.)  Equal raw matches with equal (start, length) are literally
identical tuples here, so the stable sort never has to break a tie by
incidental order. -/
theorem c5_amended_insertion_order_independent
    (ps1 ps2 : List (List Char × String)) (t : List Char)
    (hperm : ps1.Perm ps2) (hnd : (ps1.map Prod.fst).Nodup)
    (hhash : ∀ p ∈ ps1, ('#' : Char) ∉ p.1) (ht : ('#' : Char) ∉ t) :
    recognizeNER ps1 t = recognizeNER ps2 t := by
  have hpermw : (ps1.map Prod.fst).Perm (ps2.map Prod.fst) :=
    hperm.map Prod.fst
  have hws1 : ∀ w ∈ ps1.map Prod.fst, ('#' : Char) ∉ w := by
    intro w hw
    obtain ⟨p, hp, rfl⟩ := List.mem_map.mp hw
    exact hhash p hp
  have hws2 : ∀ w ∈ ps2.map Prod.fst, ('#' : Char) ∉ w := fun w hw =>
    hws1 w (hpermw.mem_iff.mpr hw)
  obtain ⟨a1, ha1⟩ := Option.isSome_iff_exists.mp
    (addWords_total (ps1.map Prod.fst) emptyAC emptyAC_endmark hws1)
  obtain ⟨a2, ha2⟩ := Option.isSome_iff_exists.mp
    (addWords_total (ps2.map Prod.fst) emptyAC emptyAC_endmark hws2)
  have hWF1 := addWords_WF (ps1.map Prod.fst) emptyAC a1 emptyAC_WF ha1
  have hWF2 := addWords_WF (ps2.map Prod.fst) emptyAC a2 emptyAC_WF ha2
  have hEM1 := addWords_endmark (ps1.map Prod.fst) emptyAC a1
    emptyAC_endmark ha1
  have hEM2 := addWords_endmark (ps2.map Prod.fst) emptyAC a2
    emptyAC_endmark ha2
  have hNH1 := addWords_NH (ps1.map Prod.fst) emptyAC a1 hws1 emptyAC_NH ha1
  have hNH2 := addWords_NH (ps2.map Prod.fst) emptyAC a2 hws2 emptyAC_NH ha2
  have hz1 := (addWords_noRoot (ps1.map Prod.fst) emptyAC a1
    emptyAC_noRoot.1 emptyAC_noRoot.2 ha1).2
  have hz2 := (addWords_noRoot (ps2.map Prod.fst) emptyAC a2
    emptyAC_noRoot.1 emptyAC_noRoot.2 ha2).2
  obtain ⟨C1, C2⟩ := addWords_path_char (ps1.map Prod.fst) emptyAC a1
    emptyAC_WF emptyAC_NH hws1 ha1
  obtain ⟨D1, D2⟩ := addWords_path_char (ps2.map Prod.fst) emptyAC a2
    emptyAC_WF emptyAC_NH hws2 ha2
  have hbase1 : ∀ cs : List Char, (walkP emptyAC cs).isSome ↔ cs = [] := by
    intro cs
    cases cs with
    | nil => simp [walkP, walkFrom]
    | cons c tl => simp [walkP, walkFrom, lookupChild, emptyAC]
  have hbase2 : ∀ cs, ¬ TermPath emptyAC cs := by
    rintro cs ⟨m, hm, hflag⟩
    simp [lookupChild, emptyAC] at hflag
  have hiso : ∀ cs, (walkP a1 cs).isSome ↔ (walkP a2 cs).isSome := by
    intro cs
    rw [C1 cs, D1 cs]
    constructor
    · rintro (h | ⟨w, hw, h1, h2⟩)
      · exact Or.inl h
      · exact Or.inr ⟨w, hpermw.mem_iff.mp hw, h1, h2⟩
    · rintro (h | ⟨w, hw, h1, h2⟩)
      · exact Or.inl h
      · exact Or.inr ⟨w, hpermw.mem_iff.mpr hw, h1, h2⟩
  have hterm : ∀ cs, TermPath a1 cs ↔ TermPath a2 cs := by
    intro cs
    rw [C2 cs, D2 cs]
    constructor
    · rintro (h | h)
      · exact absurd h (hbase2 cs)
      · exact Or.inr (hpermw.mem_iff.mp h)
    · rintro (h | h)
      · exact absurd h (hbase2 cs)
      · exact Or.inr (hpermw.mem_iff.mpr h)
  have hsearch := search_pathEquiv a1 a2 hWF1 hWF2 hEM1 hEM2 hNH1 hNH2
    hz1 hz2 hiso hterm t (fun c hc h => ht (h ▸ hc))
  have hnd2 : (ps2.map Prod.fst).Nodup := hpermw.nodup_iff.mp hnd
  have hm1 : mapFold ps1 [] = ps1 := by
    have h := mapFold_eq_self ps1 []
    rw [List.nil_append] at h
    exact h hnd
  have hm2 : mapFold ps2 [] = ps2 := by
    have h := mapFold_eq_self ps2 []
    rw [List.nil_append] at h
    exact h hnd2
  have hlook : ∀ k, lookupMapS ps1 k = lookupMapS ps2 k :=
    lookupMapS_perm ps1 ps2 hperm hnd
  unfold recognizeNER
  rw [build_ac_automaton_eq ps1, build_ac_automaton_eq ps2, ha1, ha2,
    hm1, hm2]
  simp only [Option.map_some', Option.some_bind]
  unfold recognize_entities
  rw [hsearch]
  cases hs : search (build_fail a2) t with
  | none => rfl
  | some ms =>
    simp only [Option.map_some']
    rw [resolveLoop_congr ps1 ps2 hlook (sortMatches ms) (-1)]

/-- C5 amended witness: swapping two '#'-free patterns leaves the output
unchanged on a concrete run. -/
theorem c5_amended_witness :
    recognizeNER [("A".data, "X"), ("B".data, "Y")] "AB".data =
      recognizeNER [("B".data, "Y"), ("A".data, "X")] "AB".data :=
  c5_amended_insertion_order_independent
    [("A".data, "X"), ("B".data, "Y")] [("B".data, "Y"), ("A".data, "X")]
    "AB".data (List.Perm.swap _ _ _) (by decide) (by decide) (by decide)

end CNER
